/-
Verification of the grid pathfinding engine (src/pathfinding/pathfinding_ops.cpp).

Shallow embedding conventions:
* `width`/`height` and cell coordinates are `Int` (C++ `int`); flat cell
  indices are `Nat` (they are produced as `y*width + x` under in-bounds
  guards, hence nonnegative).
* `float` values are modelled as exact rationals; the IEEE infinity used by
  the source for "unreached" is modelled by `⊤` in `WithTop ℚ`.  The source's
  square roots occur only on `k²` and `2k²` (axis or exact-diagonal steps),
  i.e. they denote `k` and `k·√2`; `√2` is modelled by the very rational
  constant `1.41421356237` the source itself uses for its octile heuristic.
* per-call scratch arrays (`g_cost`, `came_from`, `closed`) are modelled as
  functions `Nat → _` updated with `Function.update`; caller-supplied buffers
  are `List`s read with `getD` (out-of-range reads yield the blocked/∞
  default).
* the C++ `std::priority_queue` (a min-heap on `f_cost`, ties arbitrary) is
  modelled as a list popped at the leftmost entry of minimal `f_cost`.
* `while` loops are modelled by fuel recursion; the fuel budgets are generous
  (sufficiency for the claims that need full runs is proved below).
-/
import Mathlib

namespace PathOps

/-- Costs and priorities: exact rationals with `⊤` for the C++ `INF`. -/
abbrev CostV : Type := WithTop ℚ

/-- The rational `SQRT2` constant of the source (`1.41421356237f`). -/
def sqrt2 : ℚ := 1.41421356237

/-- Flat index `y*width + x` (used only under in-bounds guards). -/
def toIdx (w x y : Int) : Nat := (y * w + x).toNat

/-- `index % width` of the source (index is nonnegative there). -/
def cellX (w : Int) (i : Nat) : Int := (i : Int) % w

/-- `index / width` of the source (index is nonnegative there). -/
def cellY (w : Int) (i : Nat) : Int := (i : Int) / w

/-- `width * height` as a natural number array size. -/
def sizeN (w h : Int) : Nat := (w * h).toNat

/-- Out-of-bounds test used by every entry point's guards. -/
def oob (w h x y : Int) : Prop := x < 0 ∨ w ≤ x ∨ y < 0 ∨ h ≤ y

instance (w h x y : Int) : Decidable (oob w h x y) := by
  unfold oob; infer_instance

/-- Read of a caller cost buffer (`float*`): missing entries read as `0`,
i.e. blocked, matching the all-guards-precede-reads discipline of the code. -/
def cost0 (costs : List ℚ) (i : Nat) : ℚ := costs.getD i 0

/-- 4-connected direction table `dx4/dy4` in source order. -/
def dirs4 : List (Int × Int) := [(0, -1), (1, 0), (0, 1), (-1, 0)]

/-- 8-connected direction table `dx8/dy8` in source order. -/
def dirs8 : List (Int × Int) := [(0, -1), (1, -1), (1, 0), (1, 1), (0, 1), (-1, 1), (-1, 0), (-1, -1)]

/-- 8-connected directions paired with the `cost8` move-cost table. -/
def dirs8c : List ((Int × Int) × ℚ) :=
  [((0, -1), 1), ((1, -1), sqrt2), ((1, 0), 1), ((1, 1), sqrt2),
   ((0, 1), 1), ((-1, 1), sqrt2), ((-1, 0), 1), ((-1, -1), sqrt2)]

/-- A* heuristic: octile distance for 8-connectivity, Manhattan otherwise. -/
def heuristic (x1 y1 x2 y2 : Int) (diagonal : Bool) : ℚ :=
  if diagonal then
    ((max (x2 - x1).natAbs (y2 - y1).natAbs : ℕ) : ℚ) +
      (sqrt2 - 1) * ((min (x2 - x1).natAbs (y2 - y1).natAbs : ℕ) : ℚ)
  else ((x2 - x1).natAbs + (y2 - y1).natAbs : ℕ)

/-- Pop the leftmost minimal-`f` entry of the open list (a deterministic
refinement of the C++ min-heap whose tie order is unspecified). -/
def popMin : List (Nat × CostV) → Option ((Nat × CostV) × List (Nat × CostV))
  | [] => none
  | x :: xs =>
    match popMin xs with
    | none => some (x, [])
    | some (m, rest) => if m.2 < x.2 then some (m, x :: rest) else some (x, xs)

/-- The backward `came_from` walk of `reconstruct_path`: collects cells from
the goal until the start (kept) or a `-1` link (dropped) is met. -/
def walkBack (came : Nat → Option Nat) (start : Nat) : Nat → Option Nat → List Nat
  | _, none => []
  | 0, some _ => []
  | fuel + 1, some cur =>
    if cur = start then [start]
    else cur :: walkBack came start fuel (came cur)

/-- `reconstruct_path`: backward walk then reversal, start to goal inclusive. -/
def reconstruct_path (came : Nat → Option Nat) (start goal : Nat) (fuel : Nat) : List Nat :=
  (walkBack came start fuel (some goal)).reverse

/-- The A* search state: `g_cost`, `came_from` and the open list. -/
structure AState : Type where
  g : Nat → CostV
  came : Nat → Option Nat
  frontier : List (Nat × CostV)

/-- One neighbor relaxation of `astar_grid_weighted`'s inner `for` loop. -/
def astarRelax (costs : List ℚ) (w h gx gy : Int) (diagonal : Bool) (hw : ℚ)
    (closed : Nat → Bool) (cur : Nat) (st : AState) (d : (Int × Int) × ℚ) : AState :=
  let nx := cellX w cur + d.1.1
  let ny := cellY w cur + d.1.2
  if oob w h nx ny then st
  else
    let ni := toIdx w nx ny
    if closed ni then st
    else
      let cc := cost0 costs ni
      if cc ≤ 0 then st
      else
        let mc : ℚ := if diagonal then d.2 else 1
        let ng : CostV := st.g cur + ((mc * cc : ℚ) : CostV)
        if ng < st.g ni then
          ⟨Function.update st.g ni ng, Function.update st.came ni (some cur),
            (ni, ng + ((heuristic nx ny gx gy diagonal * hw : ℚ) : CostV)) :: st.frontier⟩
        else st

/-- The direction/move-cost table selected by `allow_diagonal`. -/
def dirTable (diagonal : Bool) : List ((Int × Int) × ℚ) :=
  if diagonal then dirs8c else dirs4.map (fun d => (d, 1))

/-- The main `while(!open.empty())` loop of `astar_grid_weighted`. -/
def astarLoop (costs : List ℚ) (w h gx gy : Int) (diagonal : Bool) (hw : ℚ)
    (startIdx goalIdx : Nat) : Nat → AState → (Nat → Bool) → List Nat
  | 0, _, _ => []
  | fuel + 1, st, closed =>
    match popMin st.frontier with
    | none => []
    | some (e, rest) =>
      if e.1 = goalIdx then reconstruct_path st.came startIdx goalIdx (sizeN w h + 1)
      else if closed e.1 then
        astarLoop costs w h gx gy diagonal hw startIdx goalIdx fuel ⟨st.g, st.came, rest⟩ closed
      else
        let closed1 := Function.update closed e.1 true
        let st1 := (dirTable diagonal).foldl
          (astarRelax costs w h gx gy diagonal hw closed1 e.1) ⟨st.g, st.came, rest⟩
        astarLoop costs w h gx gy diagonal hw startIdx goalIdx fuel st1 closed1

/-- Fuel budget for the search loops (sufficiency is proved where needed). -/
def searchFuel (w h : Int) : Nat := 9 * sizeN w h * (sizeN w h + 2) + 2

/-- `PathfindingOps::astar_grid_weighted`. -/
def astar_grid_weighted (costs : List ℚ) (w h sx sy gx gy : Int)
    (diagonal : Bool) (hw : ℚ) : List Nat :=
  if oob w h sx sy then []
  else if oob w h gx gy then []
  else
    let si := toIdx w sx sy
    let gi := toIdx w gx gy
    if cost0 costs si ≤ 0 ∨ cost0 costs gi ≤ 0 then []
    else
      astarLoop costs w h gx gy diagonal hw si gi (searchFuel w h)
        ⟨Function.update (fun _ => (⊤ : CostV)) si (some 0), fun _ => none,
          [(si, ((heuristic sx sy gx gy diagonal * hw : ℚ) : CostV))]⟩
        (fun _ => false)

/-- `PathfindingOps::astar_grid` (weight-1 wrapper). -/
def astar_grid (costs : List ℚ) (w h sx sy gx gy : Int) (diagonal : Bool) : List Nat :=
  astar_grid_weighted costs w h sx sy gx gy diagonal 1

/-- The goal set of `dijkstra_grid`: flat indices of the in-bounds goals. -/
def goalIdxs (w h : Int) (goals : List (Int × Int)) : List Nat :=
  goals.filterMap (fun p => if oob w h p.1 p.2 then none else some (toIdx w p.1 p.2))

/-- One neighbor relaxation of `dijkstra_grid`'s inner `for` loop
(4-connectivity, priority = g only). -/
def dijkstraRelax (costs : List ℚ) (w h : Int) (cur : Nat) (st : AState) (d : Int × Int) :
    AState :=
  let nx := cellX w cur + d.1
  let ny := cellY w cur + d.2
  if oob w h nx ny then st
  else
    let ni := toIdx w nx ny
    let cc := cost0 costs ni
    if cc ≤ 0 then st
    else
      let ng : CostV := st.g cur + ((cc : ℚ) : CostV)
      if ng < st.g ni then
        ⟨Function.update st.g ni ng, Function.update st.came ni (some cur),
          (ni, ng) :: st.frontier⟩
      else st

/-- The main loop of `dijkstra_grid`: returns on popping any goal (before the
stale-entry check), skips stale entries, relaxes 4-neighbors otherwise. -/
def dijkstraLoop (costs : List ℚ) (w h : Int) (goalSet : List Nat) (startIdx : Nat) :
    Nat → AState → List Nat
  | 0, _ => []
  | fuel + 1, st =>
    match popMin st.frontier with
    | none => []
    | some (e, rest) =>
      if goalSet.contains e.1 then reconstruct_path st.came startIdx e.1 (sizeN w h + 1)
      else if st.g e.1 < e.2 then
        dijkstraLoop costs w h goalSet startIdx fuel ⟨st.g, st.came, rest⟩
      else
        let st1 := dirs4.foldl (dijkstraRelax costs w h e.1) ⟨st.g, st.came, rest⟩
        dijkstraLoop costs w h goalSet startIdx fuel st1

/-- `PathfindingOps::dijkstra_grid`. -/
def dijkstra_grid (costs : List ℚ) (w h sx sy : Int) (goals : List (Int × Int)) : List Nat :=
  if oob w h sx sy then []
  else
    let si := toIdx w sx sy
    if cost0 costs si ≤ 0 then []
    else
      let goalSet := goalIdxs w h goals
      if goalSet.isEmpty then []
      else
        dijkstraLoop costs w h goalSet si (searchFuel w h)
          ⟨Function.update (fun _ => (⊤ : CostV)) si (some 0), fun _ => none, [(si, some 0)]⟩

/-- One neighbor relaxation of `dijkstra_map`'s inner `for` loop. -/
def dmapRelax (costs : List ℚ) (w h : Int) (cur : Nat)
    (st : (Nat → CostV) × List (Nat × CostV)) (d : Int × Int) :
    (Nat → CostV) × List (Nat × CostV) :=
  let nx := cellX w cur + d.1
  let ny := cellY w cur + d.2
  if oob w h nx ny then st
  else
    let ni := toIdx w nx ny
    let cc := cost0 costs ni
    if cc ≤ 0 then st
    else
      let nd : CostV := st.1 cur + ((cc : ℚ) : CostV)
      if nd < st.1 ni then (Function.update st.1 ni nd, (ni, nd) :: st.2)
      else st

/-- The main loop of `dijkstra_map`: runs the frontier to exhaustion, skipping
stale entries, and returns the final distance function. -/
def dmapLoop (costs : List ℚ) (w h : Int) :
    Nat → (Nat → CostV) × List (Nat × CostV) → Nat → CostV
  | 0, st => st.1
  | fuel + 1, st =>
    match popMin st.2 with
    | none => st.1
    | some (e, rest) =>
      if st.1 e.1 < e.2 then dmapLoop costs w h fuel (st.1, rest)
      else dmapLoop costs w h fuel (dirs4.foldl (dmapRelax costs w h e.1) (st.1, rest))

/-- One goal-seeding step of `dijkstra_map`: an in-bounds goal of positive
cost gets distance 0 and a frontier entry. -/
def dmapSeedStep (costs : List ℚ) (w h : Int) (st : (Nat → CostV) × List (Nat × CostV))
    (p : Int × Int) : (Nat → CostV) × List (Nat × CostV) :=
  if oob w h p.1 p.2 then st
  else
    let gi := toIdx w p.1 p.2
    if 0 < cost0 costs gi then (Function.update st.1 gi (some 0), (gi, some 0) :: st.2)
    else st

/-- Seeding of `dijkstra_map`: every in-bounds, passable goal gets distance 0
and a frontier entry. -/
def dmapSeed (costs : List ℚ) (w h : Int) (goals : List (Int × Int)) :
    (Nat → CostV) × List (Nat × CostV) :=
  goals.foldl (dmapSeedStep costs w h) (fun _ => (⊤ : CostV), [])

/-- Fuel budget for `dijkstra_map` (sufficiency proved below). -/
def dmapFuel (w h : Int) (goals : List (Int × Int)) : Nat :=
  5 * (4 * sizeN w h) + goals.length + 2

/-- `PathfindingOps::dijkstra_map` as the resulting distance field. -/
def dijkstra_map (costs : List ℚ) (w h : Int) (goals : List (Int × Int)) : List CostV :=
  (List.range (sizeN w h)).map (dmapLoop costs w h (dmapFuel w h goals) (dmapSeed costs w h goals))

/-- One direction of `flow_field_from_dijkstra`'s best-descent scan: the
accumulator carries `(best_dist, best_dx, best_dy)` and is replaced on a
strict improvement by an in-bounds neighbor. -/
def flowStep (dmap : List CostV) (w h x y : Int) (acc : CostV × Int × Int) (d : Int × Int) :
    CostV × Int × Int :=
  let nx := x + d.1
  let ny := y + d.2
  if oob w h nx ny then acc
  else if dmap.getD (toIdx w nx ny) ⊤ < acc.1 then (dmap.getD (toIdx w nx ny) ⊤, d.1, d.2)
  else acc

/-- The per-cell best-descent fold of `flow_field_from_dijkstra` over the 8
directions, seeded with the cell's own distance and the zero step. -/
def flowBest (dmap : List CostV) (w h : Int) (x y : Int) : CostV × Int × Int :=
  dirs8.foldl (flowStep dmap w h x y) (dmap.getD (toIdx w x y) ⊤, 0, 0)

/-- `PathfindingOps::flow_field_from_dijkstra`, with each cell's vector
represented by the integer step `(best_dx, best_dy)` it normalizes: the
source divides that step by its (strictly positive) length, so the step
determines the emitted unit vector and `(0,0)` stands for the zero vector. -/
def flow_field_from_dijkstra (dmap : List CostV) (w h : Int) : List (Int × Int) :=
  (List.range (sizeN w h)).map
    (fun i =>
      if (⊤ : CostV) ≤ dmap.getD i ⊤ then (0, 0)
      else (flowBest dmap w h (cellX w i) (cellY w i)).2)

/-- `jps_internal::is_walkable`. -/
def is_walkable (walk : List Int) (w h x y : Int) : Bool :=
  if oob w h x y then false else decide (walk.getD (toIdx w x y) 0 ≠ 0)

/-- `jps_internal::jump`, fuel-recursive: walks direction `(dx,dy)` from
`(x,y)` until the goal, a blocked/out-of-bounds cell or a forced neighbor. -/
def jump (walk : List Int) (w h gx gy dx dy : Int) : Nat → Int → Int → Option Nat
  | 0, _, _ => none
  | fuel + 1, x, y =>
    let nx := x + dx
    let ny := y + dy
    if ¬is_walkable walk w h nx ny then none
    else if nx = gx ∧ ny = gy then some (toIdx w nx ny)
    else if dx ≠ 0 ∧ dy ≠ 0 then
      if (¬is_walkable walk w h x ny ∧ is_walkable walk w h nx (ny + dy)) ∨
          (¬is_walkable walk w h nx y ∧ is_walkable walk w h (nx + dx) ny) then
        some (toIdx w nx ny)
      else if (jump walk w h gx gy dx 0 fuel nx ny).isSome ∨
          (jump walk w h gx gy 0 dy fuel nx ny).isSome then
        some (toIdx w nx ny)
      else jump walk w h gx gy dx dy fuel nx ny
    else
      if dx ≠ 0 then
        if (¬is_walkable walk w h nx (y - 1) ∧ is_walkable walk w h (nx + dx) (y - 1)) ∨
            (¬is_walkable walk w h nx (y + 1) ∧ is_walkable walk w h (nx + dx) (y + 1)) then
          some (toIdx w nx ny)
        else jump walk w h gx gy dx dy fuel nx ny
      else
        if (¬is_walkable walk w h (x - 1) ny ∧ is_walkable walk w h (x - 1) (ny + dy)) ∨
            (¬is_walkable walk w h (x + 1) ny ∧ is_walkable walk w h (x + 1) (ny + dy)) then
          some (toIdx w nx ny)
        else jump walk w h gx gy dx dy fuel nx ny

/-- Fuel budget for the `jump` recursion: enough to cross the whole grid. -/
def jumpFuel (w h : Int) : Nat := (w + h).toNat + 2

/-- The pruned direction set of a `jps_grid` expansion, from the travel
direction out of the popped node's parent (all 8 directions at the root). -/
def jpsDirs (walk : List Int) (w h : Int) (cx cy : Int) : Option Nat → List (Int × Int)
  | none => dirs8
  | some parent =>
    let pdx := (cx - cellX w parent).sign
    let pdy := (cy - cellY w parent).sign
    if pdx ≠ 0 ∧ pdy ≠ 0 then
      [(pdx, pdy), (pdx, 0), (0, pdy)] ++
        (if ¬is_walkable walk w h (cx - pdx) cy then [(-pdx, pdy)] else []) ++
        (if ¬is_walkable walk w h cx (cy - pdy) then [(pdx, -pdy)] else [])
    else if pdx ≠ 0 then
      [(pdx, 0)] ++ (if ¬is_walkable walk w h cx (cy - 1) then [(pdx, -1)] else []) ++
        (if ¬is_walkable walk w h cx (cy + 1) then [(pdx, 1)] else [])
    else
      [(0, pdy)] ++ (if ¬is_walkable walk w h (cx - 1) cy then [(-1, pdy)] else []) ++
        (if ¬is_walkable walk w h (cx + 1) cy then [(1, pdy)] else [])

/-- Straight-line distance between a node and its jump point.  The jump
walks a single ray, so the offset is axis-aligned or exactly diagonal and
the source's `sqrt` denotes `k` or `k·√2` (cf. the `sqrt2` convention). -/
def jumpDist (dx dy : Int) : ℚ :=
  if dx ≠ 0 ∧ dy ≠ 0 then (dx.natAbs : ℚ) * sqrt2 else ((dx.natAbs + dy.natAbs : ℕ) : ℚ)

/-- One successor insertion of `jps_grid`'s per-direction loop. -/
def jpsRelax (walk : List Int) (w h gx gy : Int) (closed : Nat → Bool) (cur : Nat)
    (st : AState) (d : Int × Int) : AState :=
  match jump walk w h gx gy d.1 d.2 (jumpFuel w h) (cellX w cur) (cellY w cur) with
  | none => st
  | some j =>
    if closed j then st
    else
      let dist := jumpDist (cellX w j - cellX w cur) (cellY w j - cellY w cur)
      let ng : CostV := st.g cur + ((dist : ℚ) : CostV)
      if ng < st.g j then
        ⟨Function.update st.g j ng, Function.update st.came j (some cur),
          (j, ng + ((heuristic (cellX w j) (cellY w j) gx gy true : ℚ) : CostV)) :: st.frontier⟩
      else st

/-- The main loop of `jps_grid`. -/
def jpsLoop (walk : List Int) (w h gx gy : Int) (startIdx goalIdx : Nat) :
    Nat → AState → (Nat → Bool) → List Nat
  | 0, _, _ => []
  | fuel + 1, st, closed =>
    match popMin st.frontier with
    | none => []
    | some (e, rest) =>
      if e.1 = goalIdx then reconstruct_path st.came startIdx goalIdx (sizeN w h + 1)
      else if closed e.1 then
        jpsLoop walk w h gx gy startIdx goalIdx fuel ⟨st.g, st.came, rest⟩ closed
      else
        let closed1 := Function.update closed e.1 true
        let st1 := (jpsDirs walk w h (cellX w e.1) (cellY w e.1) (st.came e.1)).foldl
          (jpsRelax walk w h gx gy closed1 e.1) ⟨st.g, st.came, rest⟩
        jpsLoop walk w h gx gy startIdx goalIdx fuel st1 closed1

/-- `PathfindingOps::jps_grid`. -/
def jps_grid (walk : List Int) (w h sx sy gx gy : Int) : List Nat :=
  if oob w h sx sy then []
  else if oob w h gx gy then []
  else
    let si := toIdx w sx sy
    let gi := toIdx w gx gy
    if walk.getD si 0 = 0 ∨ walk.getD gi 0 = 0 then []
    else
      jpsLoop walk w h gx gy si gi (searchFuel w h)
        ⟨Function.update (fun _ => (⊤ : CostV)) si (some 0), fun _ => none,
          [(si, ((heuristic sx sy gx gy true : ℚ) : CostV))]⟩
        (fun _ => false)

/-- Positional path points (`Vector2` of `float`s, modelled exactly). -/
abbrev Vec2 : Type := ℚ × ℚ

/-- One 3-point-average pass of `smooth_path` (endpoints fixed). -/
def smoothOnce (p : List Vec2) : List Vec2 :=
  (List.range p.length).map
    (fun i =>
      if i = 0 ∨ i = p.length - 1 then p.getD i (0, 0)
      else
        (((p.getD (i - 1) (0, 0)).1 + (p.getD i (0, 0)).1 + (p.getD (i + 1) (0, 0)).1) / 3,
          ((p.getD (i - 1) (0, 0)).2 + (p.getD i (0, 0)).2 + (p.getD (i + 1) (0, 0)).2) / 3))

/-- The iteration count runs `smoothOnce` `n` times. -/
def smoothIter : Nat → List Vec2 → List Vec2
  | 0, p => p
  | n + 1, p => smoothIter n (smoothOnce p)

/-- `PathfindingOps::smooth_path` (the `int iterations` loop runs
`max iterations 0` times). -/
def smooth_path (p : List Vec2) (iterations : Int) : List Vec2 :=
  if p.length < 3 then p else smoothIter iterations.toNat p

/-- Truncation of a `float` coordinate to `int` (C++ rounds toward zero). -/
def qtrunc (q : ℚ) : Int := Int.tdiv q.num q.den

/-- The Bresenham line-of-sight walk of `funnel_smooth`: `false` as soon as a
walked cell whose flat index is inside the grid buffer holds
`blocking_value`, `true` on reaching the target cell. -/
def bresWalk (grid : List Int) (w : Int) (blocking : Int) (x1 y1 sx sy dx dy : Int) :
    Nat → Int → Int → Int → Bool
  | 0, _, _, _ => false
  | fuel + 1, px, py, err =>
    let idx := py * w + px
    if 0 ≤ idx ∧ idx < (grid.length : Int) ∧ grid.getD idx.toNat 0 = blocking then false
    else if px = x1 ∧ py = y1 then true
    else
      let e2 := 2 * err
      let errA := if dy ≤ e2 then err + dy else err
      let pxA := if dy ≤ e2 then px + sx else px
      let errB := if e2 ≤ dx then errA + dx else errA
      let pyB := if e2 ≤ dx then py + sy else py
      bresWalk grid w blocking x1 y1 sx sy dx dy fuel pxA pyB errB

/-- Line-of-sight test between two cells, as `funnel_smooth` computes it. -/
def lineClear (grid : List Int) (w : Int) (blocking : Int) (x0 y0 x1 y1 : Int) : Bool :=
  let dx : Int := ((x1 - x0).natAbs : Int)
  let dy : Int := -((y1 - y0).natAbs : Int)
  let sx : Int := if x0 < x1 then 1 else -1
  let sy : Int := if y0 < y1 then 1 else -1
  bresWalk grid w blocking x1 y1 sx sy dx dy ((x1 - x0).natAbs + (y1 - y0).natAbs + 1) x0 y0
    (dx + dy)

/-- Visibility between path points `a` and `b` of `path` (coordinates are
truncated to cells exactly as the source casts them). -/
def ptClear (path : List Vec2) (grid : List Int) (w : Int) (blocking : Int) (a b : Nat) :
    Bool :=
  lineClear grid w blocking (qtrunc (path.getD a (0, 0)).1) (qtrunc (path.getD a (0, 0)).2)
    (qtrunc (path.getD b (0, 0)).1) (qtrunc (path.getD b (0, 0)).2)

/-- The inner scan of `funnel_smooth`: starting from `current + 1`, every
later candidate with a clear line replaces `furthest`. -/
def furthestVisible (path : List Vec2) (grid : List Int) (w : Int) (blocking : Int)
    (current : Nat) : Nat :=
  (List.range' (current + 2) (path.length - (current + 2))).foldl
    (fun fb i => if ptClear path grid w blocking current i then i else fb) (current + 1)

/-- The outer `while (current < n - 1)` loop of `funnel_smooth`. -/
def funnelLoop (path : List Vec2) (grid : List Int) (w : Int) (blocking : Int) :
    Nat → Nat → List Vec2
  | 0, _ => []
  | fuel + 1, current =>
    if current < path.length - 1 then
      let fz := furthestVisible path grid w blocking current
      path.getD fz (0, 0) :: funnelLoop path grid w blocking fuel fz
    else []

/-- `PathfindingOps::funnel_smooth`. -/
def funnel_smooth (path : List Vec2) (grid : List Int) (w : Int) (blocking : Int) :
    List Vec2 :=
  if path.length < 3 then path
  else path.getD 0 (0, 0) :: funnelLoop path grid w blocking path.length 0

/-- The body of `simplify_path`'s interior loop at `i = j + 1`: the point is
kept exactly when its incoming and outgoing coordinate deltas differ (C++
truncating `%` and `/` are `Int.tmod` and `Int.tdiv`). -/
def simplKeep (w : Int) (path : List Int) (j : Nat) : Option Int :=
  let i := j + 1
  let px := Int.tmod (path.getD (i - 1) 0) w
  let py := Int.tdiv (path.getD (i - 1) 0) w
  let cx := Int.tmod (path.getD i 0) w
  let cy := Int.tdiv (path.getD i 0) w
  let nx := Int.tmod (path.getD (i + 1) 0) w
  let ny := Int.tdiv (path.getD (i + 1) 0) w
  if cx - px ≠ nx - cx ∨ cy - py ≠ ny - cy then some (path.getD i 0) else none

/-- `PathfindingOps::simplify_path`: keeps the endpoints and every interior
point whose incoming and outgoing coordinate deltas differ. -/
def simplify_path (path : List Int) (w : Int) : List Int :=
  if path.length < 3 then path
  else
    path.getD 0 0 ::
      ((List.range (path.length - 2)).filterMap (simplKeep w path) ++
        [path.getD (path.length - 1) 0])

/-- `PathfindingOps::astar_batch`: one `astar_grid` run per index below
`min(starts.size(), goals.size())`. -/
def astar_batch (costs : List ℚ) (w h : Int) (starts goals : List (Int × Int))
    (diagonal : Bool) : List (List Nat) :=
  (List.range (min starts.length goals.length)).map
    (fun i =>
      astar_grid costs w h (starts.getD i (0, 0)).1 (starts.getD i (0, 0)).2
        (goals.getD i (0, 0)).1 (goals.getD i (0, 0)).2 diagonal)

/-! Relational vocabulary used to state the claims. -/

/-- `b` is the in-bounds neighbor of `a` one step `d` away, for `d` drawn
from a connectivity table. -/
def adjStep (w h : Int) (dirs : List (Int × Int)) (a b : Nat) : Prop :=
  ∃ d ∈ dirs, ¬oob w h (cellX w a + d.1) (cellY w a + d.2) ∧
    b = toIdx w (cellX w a + d.1) (cellY w a + d.2)

instance (w h : Int) (dirs : List (Int × Int)) (a b : Nat) :
    Decidable (adjStep w h dirs a b) := by
  unfold adjStep; infer_instance

/-- A cell a search may stand on: positive cost. -/
def passable (costs : List ℚ) (i : Nat) : Prop := 0 < cost0 costs i

/-- A 4-connected walk from `s` to `t` over passable cells. -/
def ValidPath (costs : List ℚ) (w h : Int) (s t : Nat) (p : List Nat) : Prop :=
  p.head? = some s ∧ p.getLast? = some t ∧ List.Chain' (adjStep w h dirs4) p ∧
    ∀ i ∈ p, passable costs i

/-- Accumulated cost of a walk away from the source: each step pays the cost
of the cell it enters (the relaxation `new_g = g + cost[ni]`). -/
def pathCost (costs : List ℚ) (p : List Nat) : ℚ := (p.tail.map (cost0 costs)).sum

/-- Accumulated cost of a walk toward a goal as `dijkstra_map` propagates it
outward: every cell on the walk except the final goal is paid. -/
def mapPathCost (costs : List ℚ) (p : List Nat) : ℚ := (p.dropLast.map (cost0 costs)).sum

/-- The goals `dijkstra_map` actually seeds: in bounds and passable. -/
def seededGoals (costs : List ℚ) (w h : Int) (goals : List (Int × Int)) : List Nat :=
  goals.filterMap
    (fun q =>
      if oob w h q.1 q.2 then none
      else if 0 < cost0 costs (toIdx w q.1 q.2) then some (toIdx w q.1 q.2) else none)

/-- `i` is a real cell of the grid: its decoded coordinates are in bounds. -/
def InCell (w h : Int) (i : Nat) : Prop := ¬oob w h (cellX w i) (cellY w i)

instance (w h : Int) (i : Nat) : Decidable (InCell w h i) :=
  inferInstanceAs (Decidable (¬oob w h (cellX w i) (cellY w i)))

instance (costs : List ℚ) (i : Nat) : Decidable (passable costs i) :=
  inferInstanceAs (Decidable (0 < cost0 costs i))

instance (costs : List ℚ) (w h : Int) (s t : Nat) (p : List Nat) :
    Decidable (ValidPath costs w h s t p) :=
  inferInstanceAs
    (Decidable
      (p.head? = some s ∧ p.getLast? = some t ∧ List.Chain' (adjStep w h dirs4) p ∧
        ∀ i ∈ p, passable costs i))

/-- The state type of `dijkstra_map`'s loops: distances and the open list. -/
abbrev MState : Type := (Nat → CostV) × List (Nat × CostV)

/-- The worklist invariant of `dijkstra_map`, with a ghost settled set `T`:
pending entries are finite, in grid and never below the current distance;
settled cells have every outgoing edge relaxed and sit below every pending
priority; the seeded goals `S` stay pinned at `0`; distances are
nonnegative; every finite distance is realized by a valid walk to a member
of `S`; and every unsettled cell at a finite distance still has a fresh
pending entry. -/
def MapInv (costs : List ℚ) (w h : Int) (S : List Nat) (T : Finset Nat) (st : MState) : Prop :=
  (∀ e ∈ st.2, st.1 e.1 ≤ e.2 ∧ e.2 < ⊤ ∧ InCell w h e.1) ∧
    (∀ v ∈ T, ∀ u, adjStep w h dirs4 v u → passable costs u →
      st.1 u ≤ st.1 v + ((cost0 costs u : ℚ) : CostV)) ∧
    T ⊆ Finset.range (sizeN w h) ∧
    (∀ v ∈ T, ∀ e ∈ st.2, st.1 v ≤ e.2) ∧
    (∀ g ∈ S, st.1 g = 0) ∧
    (∀ i, 0 ≤ st.1 i) ∧
    (∀ i, st.1 i < ⊤ →
      ∃ p g, g ∈ S ∧ ValidPath costs w h i g p ∧
        ((mapPathCost costs p : ℚ) : CostV) = st.1 i) ∧
    (∀ v, st.1 v < ⊤ → v ∉ T → (v, st.1 v) ∈ st.2)

/-- Relation between the state at a `dijkstra_map` relaxation pass from
`cur` over the direction sublist `l` and the state after it: distances only
decrease and `cur`'s is untouched, pending entries are only added, each
added entry records an improved passable in-grid neighbor of `cur` at a
priority strictly above `cur`'s distance, every changed cell keeps a fresh
pending entry, the pass caps each scanned neighbor at `cur`'s distance plus
its cost, changed distances are exactly such sums undercutting the old
value, and realization of distances by walks to `S` is preserved. -/
def FoldRel (costs : List ℚ) (w h : Int) (S : List Nat) (cur : Nat) (l : List (Int × Int))
    (st st' : MState) : Prop :=
  (∀ i, st'.1 i ≤ st.1 i) ∧
    st'.1 cur = st.1 cur ∧
    (∀ e ∈ st.2, e ∈ st'.2) ∧
    (∀ e ∈ st'.2, e ∈ st.2 ∨
      (st'.1 e.1 ≤ e.2 ∧ st.1 cur < e.2 ∧ e.2 < ⊤ ∧ InCell w h e.1 ∧
        adjStep w h dirs4 cur e.1 ∧ passable costs e.1)) ∧
    (∀ i, st'.1 i = st.1 i ∨ ((i, st'.1 i) ∈ st'.2 ∧ st'.1 i < ⊤)) ∧
    st'.2.length ≤ st.2.length + l.length ∧
    (∀ d ∈ l, ¬oob w h (cellX w cur + d.1) (cellY w cur + d.2) →
      passable costs (toIdx w (cellX w cur + d.1) (cellY w cur + d.2)) →
      st'.1 (toIdx w (cellX w cur + d.1) (cellY w cur + d.2)) ≤
        st'.1 cur +
          ((cost0 costs (toIdx w (cellX w cur + d.1) (cellY w cur + d.2)) : ℚ) : CostV)) ∧
    (∀ i, st'.1 i ≠ st.1 i →
      ∃ c : ℚ, 0 < c ∧ st'.1 i = st.1 cur + ((c : ℚ) : CostV) ∧
        st.1 cur + ((c : ℚ) : CostV) < st.1 i) ∧
    ((∀ i, st.1 i < ⊤ →
        ∃ p g, g ∈ S ∧ ValidPath costs w h i g p ∧
          ((mapPathCost costs p : ℚ) : CostV) = st.1 i) →
      ∀ i, st'.1 i < ⊤ →
        ∃ p g, g ∈ S ∧ ValidPath costs w h i g p ∧
          ((mapPathCost costs p : ℚ) : CostV) = st'.1 i)

/-- Termination measure of `dijkstra_map`'s worklist: five per unsettled
cell plus one per pending entry. -/
def mapPhi (size : Nat) (T : Finset Nat) (q : List (Nat × CostV)) : Nat :=
  5 * (Finset.range size \ T).card + q.length

/-- The Manhattan heuristic of a flat index toward the goal cell, as the
4-connected searches price it (`hw = 1`). -/
def manh (w gx gy : Int) (i : Nat) : ℚ := heuristic (cellX w i) (cellY w i) gx gy false

/-- The best-first worklist invariant shared by `astar_grid_weighted`
(`hfun` the Manhattan heuristic) and `dijkstra_grid` (`hfun = 0`), with a
ghost settled set `T`: every pending entry prices a finite in-grid cell at
no less than its distance plus potential; settled cells have every outgoing
edge relaxed and sit (with potential) below every pending priority; the
start costs `0`; distances are nonnegative; every unsettled cell at a
finite distance keeps a fresh pending entry; `came_from` links point from a
settled parent one paid step back; and only the start may lack a link at a
finite distance. -/
def GInv (costs : List ℚ) (w h : Int) (hfun : Nat → ℚ) (start : Nat) (T : Finset Nat)
    (st : AState) : Prop :=
  (∀ e ∈ st.frontier, st.g e.1 + ((hfun e.1 : ℚ) : CostV) ≤ e.2 ∧ e.2 < ⊤ ∧
      InCell w h e.1) ∧
    (∀ v ∈ T, ∀ u, adjStep w h dirs4 v u → passable costs u →
      st.g u ≤ st.g v + ((cost0 costs u : ℚ) : CostV)) ∧
    T ⊆ Finset.range (sizeN w h) ∧
    (∀ v ∈ T, ∀ e ∈ st.frontier, st.g v + ((hfun v : ℚ) : CostV) ≤ e.2) ∧
    st.g start = 0 ∧
    (∀ i, 0 ≤ st.g i) ∧
    (∀ v, st.g v < ⊤ → v ∉ T → (v, st.g v + ((hfun v : ℚ) : CostV)) ∈ st.frontier) ∧
    (∀ i j, st.came i = some j → j ∈ T ∧ adjStep w h dirs4 j i ∧ passable costs i ∧
      st.g i = st.g j + ((cost0 costs i : ℚ) : CostV) ∧ st.g i < ⊤) ∧
    (∀ i, st.came i = none → st.g i < ⊤ → i = start)

/-- Relation between the state at one relaxation pass of a best-first
search from `cur` and the state after it, pricing pushed entries with the
potential `pf` and skipping the `closed` set: distances only decrease with
`cur`'s untouched, entries are only added and each added one prices an
improved passable in-grid neighbor of `cur` at or above both its own
distance-plus-potential and `cur`'s, every changed cell keeps a fresh entry
and was relinked to `cur` by a paid step, unchanged cells keep their links,
the pass caps each scanned unclosed neighbor, and changed distances are
sums undercutting the old value on unclosed cells. -/
def SFoldRel (costs : List ℚ) (w h : Int) (pf : Nat → ℚ) (closed : Nat → Bool) (cur : Nat)
    (l : List (Int × Int)) (st st' : AState) : Prop :=
  (∀ i, st'.g i ≤ st.g i) ∧
    st'.g cur = st.g cur ∧
    (∀ e ∈ st.frontier, e ∈ st'.frontier) ∧
    (∀ e ∈ st'.frontier, e ∈ st.frontier ∨
      (st'.g e.1 + ((pf e.1 : ℚ) : CostV) ≤ e.2 ∧
        st.g cur + ((pf cur : ℚ) : CostV) ≤ e.2 ∧ e.2 < ⊤ ∧ InCell w h e.1 ∧
        adjStep w h dirs4 cur e.1 ∧ passable costs e.1)) ∧
    (∀ i, st'.g i = st.g i ∨
      ((i, st'.g i + ((pf i : ℚ) : CostV)) ∈ st'.frontier ∧ st'.g i < ⊤)) ∧
    st'.frontier.length ≤ st.frontier.length + l.length ∧
    (∀ d ∈ l, ¬oob w h (cellX w cur + d.1) (cellY w cur + d.2) →
      passable costs (toIdx w (cellX w cur + d.1) (cellY w cur + d.2)) →
      closed (toIdx w (cellX w cur + d.1) (cellY w cur + d.2)) = false →
      st'.g (toIdx w (cellX w cur + d.1) (cellY w cur + d.2)) ≤
        st'.g cur +
          ((cost0 costs (toIdx w (cellX w cur + d.1) (cellY w cur + d.2)) : ℚ) : CostV)) ∧
    (∀ i, st'.g i ≠ st.g i → st'.came i = some cur ∧ closed i = false ∧
      0 < cost0 costs i ∧ st'.g i = st.g cur + ((cost0 costs i : ℚ) : CostV) ∧
      st.g cur + ((cost0 costs i : ℚ) : CostV) < st.g i ∧ st'.g i < ⊤) ∧
    (∀ i, st'.g i = st.g i → st'.came i = st.came i) ∧
    (∀ i j, st'.came i = some j → st.came i = some j ∨
      (j = cur ∧ adjStep w h dirs4 cur i ∧ passable costs i ∧
        st'.g i = st'.g cur + ((cost0 costs i : ℚ) : CostV) ∧ st'.g i < ⊤))

/-- The light search invariant shared by every loop: `came_from` links go
along `R` with strictly increasing finite `g`, only the start has finite `g`
without a link, `g start = 0`, all `g` are nonnegative, and every open-list
entry names an in-range cell of finite `g`. -/
def LInv (R : Nat → Nat → Prop) (size start : Nat) (st : AState) : Prop :=
  (∀ i j, st.came i = some j →
      R j i ∧ st.g j < st.g i ∧ st.g i < ⊤ ∧ j < size ∧ i < size) ∧
    (∀ i, st.came i = none → st.g i < ⊤ → i = start) ∧
    st.g start = 0 ∧ (∀ i, 0 ≤ st.g i) ∧ (∀ e ∈ st.frontier, st.g e.1 < ⊤ ∧ e.1 < size)

/-- What a single relaxation step of any of the searches may do: nothing, or
update one in-range `R`-successor of `cur` to a strictly smaller positive-
increment `g`, rewrite its `came_from` link to `cur`, and push it. -/
def StepOK {δ : Type} (R : Nat → Nat → Prop) (size cur : Nat) (F : AState → δ → AState)
    (l : List δ) : Prop :=
  ∀ st, ∀ d ∈ l, F st d = st ∨ ∃ (ni : Nat) (c : ℚ) (fpr : CostV), 0 < c ∧ R cur ni ∧ ni < size ∧
    st.g cur + ((c : ℚ) : CostV) < st.g ni ∧
    F st d = ⟨Function.update st.g ni (st.g cur + ((c : ℚ) : CostV)),
      Function.update st.came ni (some cur), (ni, fpr) :: st.frontier⟩

/-- The number of in-range cells strictly below `cur` in `g`: the measure
that bounds the backward `came_from` walk. -/
def gMeasure (size : Nat) (g : Nat → CostV) (cur : Nat) : Nat :=
  ((Finset.range size).filter (fun i => g i < g cur)).card

/-! Greedy string-pulling modelled from the specification's words, used to
state C9: identical outer control flow, with the furthest step written as a
greatest clear candidate and a pluggable line test. -/

/-- Bresenham walk with the two endpoint cells exempt from the blocking
test, as the claim's words demand ("no blocking cell strictly between"). -/
def bresWalkExempt (grid : List Int) (w : Int) (blocking : Int) (x0 y0 x1 y1 sx sy dx dy : Int) :
    Nat → Int → Int → Int → Bool
  | 0, _, _, _ => false
  | fuel + 1, px, py, err =>
    let idx := py * w + px
    if ¬(px = x0 ∧ py = y0) ∧ ¬(px = x1 ∧ py = y1) ∧
        (0 ≤ idx ∧ idx < (grid.length : Int) ∧ grid.getD idx.toNat 0 = blocking) then false
    else if px = x1 ∧ py = y1 then true
    else
      let e2 := 2 * err
      let errA := if dy ≤ e2 then err + dy else err
      let pxA := if dy ≤ e2 then px + sx else px
      let errB := if e2 ≤ dx then errA + dx else errA
      let pyB := if e2 ≤ dx then py + sy else py
      bresWalkExempt grid w blocking x0 y0 x1 y1 sx sy dx dy fuel pxA pyB errB

/-- Modelled from the spec: line of sight with endpoint cells exempt. -/
def lineClearExempt (grid : List Int) (w : Int) (blocking : Int) (x0 y0 x1 y1 : Int) : Bool :=
  let dx : Int := ((x1 - x0).natAbs : Int)
  let dy : Int := -((y1 - y0).natAbs : Int)
  let sx : Int := if x0 < x1 then 1 else -1
  let sy : Int := if y0 < y1 then 1 else -1
  bresWalkExempt grid w blocking x0 y0 x1 y1 sx sy dx dy
    ((x1 - x0).natAbs + (y1 - y0).natAbs + 1) x0 y0 (dx + dy)

/-- Endpoint-exempt visibility between path points. -/
def ptClearExempt (path : List Vec2) (grid : List Int) (w : Int) (blocking : Int) (a b : Nat) :
    Bool :=
  lineClearExempt grid w blocking (qtrunc (path.getD a (0, 0)).1)
    (qtrunc (path.getD a (0, 0)).2) (qtrunc (path.getD b (0, 0)).1)
    (qtrunc (path.getD b (0, 0)).2)

/-- The furthest later path point with a clear line from `current` (the next
point when no later candidate is clear). -/
def greedyFurthest (clear : Nat → Nat → Bool) (n current : Nat) : Nat :=
  let g := Nat.findGreatest (fun i => current + 2 ≤ i ∧ clear current i = true) (n - 1)
  if g = 0 then current + 1 else g

/-- Outer loop of the greedy string-pull, with a pluggable line test. -/
def funnelGreedyLoop (path : List Vec2) (clear : Nat → Nat → Bool) : Nat → Nat → List Vec2
  | 0, _ => []
  | fuel + 1, current =>
    if current < path.length - 1 then
      let fz := greedyFurthest clear path.length current
      path.getD fz (0, 0) :: funnelGreedyLoop path clear fuel fz
    else []

/-- Greedy string-pull parameterized by the line test. -/
def funnelGreedy (path : List Vec2) (clear : Nat → Nat → Bool) : List Vec2 :=
  if path.length < 3 then path
  else path.getD 0 (0, 0) :: funnelGreedyLoop path clear path.length 0

/-- Modelled from the spec: the string-pull C9 describes, endpoint cells
exempt from the blocking test. -/
def funnelSpecExempt (path : List Vec2) (grid : List Int) (w : Int) (blocking : Int) :
    List Vec2 :=
  funnelGreedy path (ptClearExempt path grid w blocking)

/-- The string-pull with the source's line test (endpoint cells included),
the nearby statement C9 is corrected to. -/
def funnelSpecIncl (path : List Vec2) (grid : List Int) (w : Int) (blocking : Int) :
    List Vec2 :=
  funnelGreedy path (ptClear path grid w blocking)

/-- The coordinate delta between two flat indices, with the truncating `%`
and `/` the source applies to `int32` entries. -/
def stepXY (w a b : Int) : Int × Int :=
  (Int.tmod b w - Int.tmod a w, Int.tdiv b w - Int.tdiv a w)

/-- King-move index paths: every consecutive coordinate delta has both
components in `{-1,0,1}` (the shape of paths the searches emit). -/
def KingSteps (path : List Int) (w : Int) : Prop :=
  List.Chain' (fun a b => (stepXY w a b).1.natAbs ≤ 1 ∧ (stepXY w a b).2.natAbs ≤ 1) path

instance (path : List Int) (w : Int) : Decidable (KingSteps path w) :=
  inferInstanceAs (Decidable (List.Chain'
    (fun a b => (stepXY w a b).1.natAbs ≤ 1 ∧ (stepXY w a b).2.natAbs ≤ 1) path))

/-- Recursive reformulation of `simplify_path`'s interior loop: `prev` is the
original predecessor of `cur`, the final point is always kept. -/
def simplAux (w prev cur : Int) : List Int → List Int
  | [] => [cur]
  | next :: rest =>
    if stepXY w prev cur ≠ stepXY w cur next then cur :: simplAux w cur next rest
    else simplAux w cur next rest

/-- No two adjacent coordinate deltas of the list coincide (every interior
point is a direction change), the shape `simplify_path` emits on king-move
inputs and the exact condition under which a pass keeps every point. -/
def NoMerge (w : Int) : List Int → Prop
  | x :: y :: z :: rest => stepXY w x y ≠ stepXY w y z ∧ NoMerge w (y :: z :: rest)
  | _ => True

/-! ## Claim C4: JPS corner-cutting -/

/-- C4: the specification requires that a diagonal move with both flanking
orthogonal cells blocked is never taken; `jump` checks only the diagonal
target cell, so on the 2×2 grid with `(1,0)` and `(0,1)` blocked the search
steps diagonally from `(0,0)` to `(1,1)` and returns that corner-cutting
path, contradicting the claim. -/
theorem claim_C4 :
    jps_grid [1, 0, 0, 1] 2 2 0 0 1 1 = [0, 3] ∧
      [1, 0, 0, 1].getD (toIdx 2 1 0) 0 = 0 ∧ [1, 0, 0, 1].getD (toIdx 2 0 1) 0 = 0 := by
  refine ⟨by decide, by decide, by decide⟩

/-! ## Claim C5: invalid endpoints return an empty path immediately -/

/-- C5: for an out-of-bounds or blocked start or goal, `astar_grid_weighted`
(cost `≤ 0` blocked) and `jps_grid` (walkable `0` blocked) return the empty
sequence, whatever the other endpoint is. -/
theorem claim_C5 (costs : List ℚ) (walk : List Int) (w h sx sy gx gy : Int)
    (diagonal : Bool) (hw : ℚ) :
    (oob w h sx sy ∨ oob w h gx gy ∨ (¬oob w h sx sy ∧ cost0 costs (toIdx w sx sy) ≤ 0) ∨
        (¬oob w h gx gy ∧ cost0 costs (toIdx w gx gy) ≤ 0) →
      astar_grid_weighted costs w h sx sy gx gy diagonal hw = []) ∧
    (oob w h sx sy ∨ oob w h gx gy ∨ (¬oob w h sx sy ∧ walk.getD (toIdx w sx sy) 0 = 0) ∨
        (¬oob w h gx gy ∧ walk.getD (toIdx w gx gy) 0 = 0) →
      jps_grid walk w h sx sy gx gy = []) := by
  constructor
  · intro hc
    simp only [astar_grid_weighted]
    split_ifs with h1 h2 h3 <;> try rfl
    exfalso
    rcases hc with hc | hc | ⟨-, hc⟩ | ⟨-, hc⟩
    · exact h1 hc
    · exact h2 hc
    · exact h3 (Or.inl hc)
    · exact h3 (Or.inr hc)
  · intro hc
    simp only [jps_grid]
    split_ifs with h1 h2 h3 <;> try rfl
    exfalso
    rcases hc with hc | hc | ⟨-, hc⟩ | ⟨-, hc⟩
    · exact h1 hc
    · exact h2 hc
    · exact h3 (Or.inl hc)
    · exact h3 (Or.inr hc)

/-- Witness for C5 at a concrete input: start `(5,0)` is out of bounds on a
1×1 grid, so both searches return `[]`. -/
theorem claim_C5_witness :
    astar_grid_weighted [1] 1 1 5 0 0 0 false 1 = [] ∧ jps_grid [1] 1 1 5 0 0 0 = [] :=
  ⟨(claim_C5 [1] [1] 1 1 5 0 0 0 false 1).1 (Or.inl (by decide)),
    (claim_C5 [1] [1] 1 1 5 0 0 0 false 1).2 (Or.inl (by decide))⟩

/-! ## Claim C8: batch length mismatch -/

/-- C8 counterexample: with 2 starts and 1 goal the lengths mismatch, yet
`astar_batch` returns one (non-empty) per-pair result instead of an empty
result. -/
theorem claim_C8_cex :
    astar_batch [1] 1 1 [(0, 0), (0, 0)] [(0, 0)] false = [[0]] ∧
      [((0 : Int), (0 : Int)), (0, 0)].length ≠ [((0 : Int), (0 : Int))].length := by
  refine ⟨by decide, by decide⟩

/-- C8 amended: `astar_batch` truncates to the shorter of the two arrays,
running `astar_grid` once per surviving pair; mismatched extra entries are
ignored rather than causing an empty result. -/
theorem claim_C8 (costs : List ℚ) (w h : Int) (starts goals : List (Int × Int))
    (diagonal : Bool) :
    (astar_batch costs w h starts goals diagonal).length = min starts.length goals.length ∧
      ∀ i, i < min starts.length goals.length →
        (astar_batch costs w h starts goals diagonal).getD i [] =
          astar_grid costs w h (starts.getD i (0, 0)).1 (starts.getD i (0, 0)).2
            (goals.getD i (0, 0)).1 (goals.getD i (0, 0)).2 diagonal := by
  constructor
  · simp [astar_batch]
  · intro i hi
    simp only [astar_batch]
    rw [List.getD_eq_getElem?_getD, List.getElem?_map, List.getElem?_range hi]
    rfl

/-- Witness for C8 at a concrete input. -/
theorem claim_C8_witness :
    (astar_batch [1] 1 1 [(0, 0)] [(0, 0)] false).getD 0 [] = astar_grid [1] 1 1 0 0 0 0 false :=
  (claim_C8 [1] 1 1 [(0, 0)] [(0, 0)] false).2 0 (by decide)

/-! ## Counterexamples for C1, C3, C7, C9 -/

/-- C1 counterexample: on the obstacle-free 3×1 strip `jps_grid` returns
`[0, 2]`, whose two consecutive entries are two columns apart and hence not
graph neighbors under 8-connectivity (JPS paths list jump points only). -/
theorem claim_C1_cex :
    jps_grid [1, 1, 1] 3 1 0 0 2 0 = [0, 2] ∧ ¬adjStep 3 1 dirs8 0 2 := by
  refine ⟨by decide, by decide⟩

/-- C3 counterexample: the single goal `(0,0)` of this 1×1 grid is blocked
(`cost 0`), `dijkstra_map` never seeds it, and its distance is `∞`, not the
claimed `0`. -/
theorem claim_C3_cex : (dijkstra_map [0] 1 1 [(0, 0)]).getD 0 ⊤ ≠ (0 : CostV) := by
  decide

/-- C7 counterexample: on the index path `[0,1,2,4]` (width 8, a collinear
run whose last step is two cells long) one simplification keeps `[0,2,4]`
but a second pass collapses it to `[0,4]`: `simplify_path` is not idempotent
on arbitrary index paths. -/
theorem claim_C7_cex :
    simplify_path (simplify_path [0, 1, 2, 4] 8) 8 ≠ simplify_path [0, 1, 2, 4] 8 := by
  decide

/-- C9 counterexample: the anchor cell `(0,0)` itself holds the blocking
value; the claim exempts the endpoints, so the greedy pull it describes
jumps straight to `(2,0)`, but `funnel_smooth` checks the anchor cell too
and keeps the interior point. -/
theorem claim_C9_cex :
    funnel_smooth [(0, 0), (1, 0), (2, 0)] [9, 0, 0] 3 9 ≠
      funnelSpecExempt [(0, 0), (1, 0), (2, 0)] [9, 0, 0] 3 9 := by
  decide

/-! ## Claim C10: small-input frames of the post-processors -/

theorem smoothOnce_length (p : List Vec2) : (smoothOnce p).length = p.length := by
  simp [smoothOnce]

theorem smoothOnce_head (p : List Vec2) (hp : p ≠ []) : (smoothOnce p).head? = p.head? := by
  have hl : 0 < p.length := List.length_pos.mpr hp
  rw [List.head?_eq_getElem?, List.head?_eq_getElem?]
  simp only [smoothOnce, List.getElem?_map, List.getElem?_range, hl, if_pos, true_or,
    if_true, List.getElem?_eq_getElem hl]
  simp [List.getElem?_eq_getElem hl]

theorem smoothOnce_last (p : List Vec2) (hp : p ≠ []) :
    (smoothOnce p).getLast? = p.getLast? := by
  have hl : 0 < p.length := List.length_pos.mpr hp
  have hl1 : p.length - 1 < p.length := by omega
  rw [List.getLast?_eq_getElem?, List.getLast?_eq_getElem?, smoothOnce_length]
  simp only [smoothOnce, List.getElem?_map, List.getElem?_range, hl1, if_pos, or_true,
    if_true, List.getElem?_eq_getElem hl1]
  simp [List.getElem?_eq_getElem hl1]

theorem smoothIter_keep (n : Nat) (p : List Vec2) (hp : p ≠ []) :
    (smoothIter n p).length = p.length ∧ (smoothIter n p).head? = p.head? ∧
      (smoothIter n p).getLast? = p.getLast? := by
  induction n generalizing p with
  | zero => exact ⟨rfl, rfl, rfl⟩
  | succ n ih =>
    have hne : smoothOnce p ≠ [] := by
      intro hcon
      have := smoothOnce_length p
      rw [hcon] at this
      exact hp (List.length_eq_zero.mp this.symm)
    obtain ⟨l1, h1, g1⟩ := ih (smoothOnce p) hne
    exact ⟨by rw [smoothIter, l1, smoothOnce_length],
      by rw [smoothIter, h1, smoothOnce_head p hp],
      by rw [smoothIter, g1, smoothOnce_last p hp]⟩

/-- C10: paths of fewer than 3 points pass through `smooth_path`,
`funnel_smooth` and `simplify_path` unchanged; `smooth_path` is also the
identity for non-positive iteration counts, and on longer paths it keeps
the first and last points. -/
theorem claim_C10 (p : List Vec2) (grid pidx : List Int) (w blocking iterations : Int) :
    (p.length < 3 → smooth_path p iterations = p) ∧
      (p.length < 3 → funnel_smooth p grid w blocking = p) ∧
      (pidx.length < 3 → simplify_path pidx w = pidx) ∧
      (iterations ≤ 0 → smooth_path p iterations = p) ∧
      (3 ≤ p.length →
        (smooth_path p iterations).head? = p.head? ∧
          (smooth_path p iterations).getLast? = p.getLast?) := by
  refine ⟨fun hs => ?_, fun hs => ?_, fun hs => ?_, fun hi => ?_, fun h3 => ?_⟩
  · simp [smooth_path, hs]
  · simp [funnel_smooth, hs]
  · simp [simplify_path, hs]
  · have h0 : iterations.toNat = 0 := Int.toNat_eq_zero.mpr hi
    simp only [smooth_path, h0]
    split <;> rfl
  · have hp : p ≠ [] := by
      intro hcon
      rw [hcon] at h3
      simp at h3
    have := smoothIter_keep iterations.toNat p hp
    simp only [smooth_path, Nat.not_lt.mpr h3, if_false, if_neg (Nat.not_lt.mpr h3)]
    exact ⟨this.2.1, this.2.2⟩

/-- Witness for C10 at concrete inputs. -/
theorem claim_C10_witness :
    smooth_path [((0 : ℚ), (0 : ℚ))] 7 = [(0, 0)] ∧
      funnel_smooth [((0 : ℚ), (0 : ℚ))] [0] 1 9 = [(0, 0)] ∧
      simplify_path [0] 3 = [0] ∧
      smooth_path [((0 : ℚ), (0 : ℚ)), (1, 0), (2, 2)] (-1) = [(0, 0), (1, 0), (2, 2)] ∧
      ((smooth_path [((0 : ℚ), (0 : ℚ)), (1, 0), (2, 2)] 2).head? =
          [((0 : ℚ), (0 : ℚ)), (1, 0), (2, 2)].head? ∧
        (smooth_path [((0 : ℚ), (0 : ℚ)), (1, 0), (2, 2)] 2).getLast? =
          [((0 : ℚ), (0 : ℚ)), (1, 0), (2, 2)].getLast?) :=
  ⟨(claim_C10 [(0, 0)] [0] [0] 1 9 7).1 (by decide),
    (claim_C10 [(0, 0)] [0] [0] 1 9 7).2.1 (by decide),
    (claim_C10 [(0, 0)] [0] [0] 3 9 7).2.2.1 (by decide),
    (claim_C10 [((0 : ℚ), (0 : ℚ)), (1, 0), (2, 2)] [0] [0] 1 9 (-1)).2.2.2.1 (by decide),
    (claim_C10 [((0 : ℚ), (0 : ℚ)), (1, 0), (2, 2)] [0] [0] 1 9 2).2.2.2.2 (by decide)⟩

/-! ## Coordinate arithmetic -/

theorem toIdx_cell (w : Int) (i : Nat) : toIdx w (cellX w i) (cellY w i) = i := by
  simp only [toIdx, cellX, cellY]
  rw [mul_comm, Int.ediv_add_emod]
  exact Int.toNat_natCast i

theorem cellX_toIdx (w h x y : Int) (hb : ¬oob w h x y) : cellX w (toIdx w x y) = x := by
  simp only [oob, not_or, not_lt, not_le] at hb
  obtain ⟨hx0, hxw, hy0, hyh⟩ := hb
  have hw : 0 < w := lt_of_le_of_lt hx0 hxw
  have hnn : 0 ≤ y * w + x := by positivity
  simp only [cellX, toIdx, Int.toNat_of_nonneg hnn]
  rw [add_comm, mul_comm y w, Int.add_mul_emod_self_left]
  exact Int.emod_eq_of_lt hx0 hxw

theorem cellY_toIdx (w h x y : Int) (hb : ¬oob w h x y) : cellY w (toIdx w x y) = y := by
  simp only [oob, not_or, not_lt, not_le] at hb
  obtain ⟨hx0, hxw, hy0, hyh⟩ := hb
  have hw : 0 < w := lt_of_le_of_lt hx0 hxw
  have hnn : 0 ≤ y * w + x := by positivity
  simp only [cellY, toIdx, Int.toNat_of_nonneg hnn]
  rw [add_comm, Int.add_mul_ediv_right _ _ (ne_of_gt hw)]
  rw [Int.ediv_eq_zero_of_lt hx0 hxw]
  ring

theorem toIdx_lt_size (w h x y : Int) (hb : ¬oob w h x y) : toIdx w x y < sizeN w h := by
  simp only [oob, not_or, not_lt, not_le] at hb
  obtain ⟨hx0, hxw, hy0, hyh⟩ := hb
  have hw : 0 < w := lt_of_le_of_lt hx0 hxw
  have hlt : y * w + x < w * h :=
    calc y * w + x < y * w + w := add_lt_add_left hxw _
    _ = (y + 1) * w := by ring
    _ ≤ h * w := mul_le_mul_of_nonneg_right (by omega) (le_of_lt hw)
    _ = w * h := mul_comm _ _
  simp only [toIdx, sizeN]
  exact (Int.toNat_lt_toNat (lt_of_le_of_lt (by positivity) hlt)).mpr hlt

theorem cell_inb (w h : Int) (i : Nat) (hw : 0 < w) (hh : 0 < h) (hi : i < sizeN w h) :
    ¬oob w h (cellX w i) (cellY w i) := by
  have hx0 : 0 ≤ cellX w i := Int.emod_nonneg _ (ne_of_gt hw)
  have hxw : cellX w i < w := Int.emod_lt_of_pos _ hw
  have hy0 : 0 ≤ cellY w i := Int.ediv_nonneg (Int.natCast_nonneg i) (le_of_lt hw)
  have hyh : cellY w i < h := by
    have hiwh : (i : Int) < w * h := by
      have h2 := hi
      simp only [sizeN] at h2
      omega
    simp only [cellY]
    rw [Int.ediv_lt_iff_lt_mul hw]
    calc (i : Int) < w * h := hiwh
    _ = h * w := mul_comm _ _
  simp only [oob, not_or, not_lt, not_le]
  exact ⟨hx0, hxw, hy0, hyh⟩

/-! ## Claim C6: the flow field's per-cell characterization -/

theorem flowStep_le_nd (dmap : List CostV) (w h x y : Int) (acc : CostV × Int × Int)
    (d : Int × Int) (hbd : ¬oob w h (x + d.1) (y + d.2)) :
    (flowStep dmap w h x y acc d).1 ≤ dmap.getD (toIdx w (x + d.1) (y + d.2)) ⊤ := by
  simp only [flowStep]
  rw [if_neg hbd]
  split_ifs with hlt
  · exact le_refl _
  · exact le_of_not_lt hlt

theorem flowStep_cases (dmap : List CostV) (w h x y : Int) (acc : CostV × Int × Int)
    (d : Int × Int) :
    flowStep dmap w h x y acc d = acc ∨
      (¬oob w h (x + d.1) (y + d.2) ∧
        flowStep dmap w h x y acc d =
          (dmap.getD (toIdx w (x + d.1) (y + d.2)) ⊤, d.1, d.2) ∧
        dmap.getD (toIdx w (x + d.1) (y + d.2)) ⊤ < acc.1) := by
  simp only [flowStep]
  split_ifs with hb hlt
  · exact Or.inl rfl
  · exact Or.inr ⟨hb, rfl, hlt⟩
  · exact Or.inl rfl

theorem flowStep_mono (dmap : List CostV) (w h x y : Int) (acc : CostV × Int × Int)
    (d : Int × Int) : (flowStep dmap w h x y acc d).1 ≤ acc.1 := by
  rcases flowStep_cases dmap w h x y acc d with heq | ⟨-, heq, hlt⟩
  · rw [heq]
  · rw [heq]
    exact le_of_lt hlt

theorem flowFold_spec (dmap : List CostV) (w h x y : Int) (l : List (Int × Int))
    (acc : CostV × Int × Int) :
    (l.foldl (flowStep dmap w h x y) acc).1 ≤ acc.1 ∧
      (∀ d ∈ l, ¬oob w h (x + d.1) (y + d.2) →
        (l.foldl (flowStep dmap w h x y) acc).1 ≤ dmap.getD (toIdx w (x + d.1) (y + d.2)) ⊤) ∧
      (l.foldl (flowStep dmap w h x y) acc = acc ∨
        ∃ d ∈ l, ¬oob w h (x + d.1) (y + d.2) ∧
          (l.foldl (flowStep dmap w h x y) acc).1 =
            dmap.getD (toIdx w (x + d.1) (y + d.2)) ⊤ ∧
          (l.foldl (flowStep dmap w h x y) acc).2 = d ∧
          (l.foldl (flowStep dmap w h x y) acc).1 < acc.1) := by
  induction l generalizing acc with
  | nil => simp
  | cons d l ih =>
    simp only [List.foldl_cons]
    obtain ⟨ih1, ih2, ih3⟩ := ih (flowStep dmap w h x y acc d)
    refine ⟨le_trans ih1 (flowStep_mono dmap w h x y acc d), ?_, ?_⟩
    · intro e he hbe
      rcases List.mem_cons.mp he with rfl | hel
      · exact le_trans ih1 (flowStep_le_nd dmap w h x y acc e hbe)
      · exact ih2 e hel hbe
    · rcases ih3 with heq | ⟨e, hel, hbe, h1, h2, h3⟩
      · rw [heq]
        rcases flowStep_cases dmap w h x y acc d with heq2 | ⟨hbd, heq2, hlt2⟩
        · exact Or.inl heq2
        · refine Or.inr ⟨d, List.mem_cons_self _ _, hbd, ?_, ?_, ?_⟩ <;> rw [heq2]
          · exact hlt2
      · exact Or.inr ⟨e, List.mem_cons_of_mem _ hel, hbe, h1, h2,
          lt_of_lt_of_le h3 (flowStep_mono dmap w h x y acc d)⟩

/-- C6: each flow-field cell is the zero vector exactly when the cell's
distance is infinite or no in-bounds 8-neighbor strictly improves on it;
otherwise it is the (normalized) step to an in-bounds neighbor of minimal
distance-field value, strictly below the cell's own. -/
theorem claim_C6 (dmap : List CostV) (w h : Int) (i : Nat) (hw : 0 < w) (hh : 0 < h)
    (hi : i < sizeN w h) :
    (dmap.getD i ⊤ = ⊤ ∨
        (∀ d ∈ dirs8, ¬oob w h (cellX w i + d.1) (cellY w i + d.2) →
          ¬(dmap.getD (toIdx w (cellX w i + d.1) (cellY w i + d.2)) ⊤ < dmap.getD i ⊤)) →
      (flow_field_from_dijkstra dmap w h).getD i (0, 0) = (0, 0)) ∧
      (dmap.getD i ⊤ ≠ ⊤ →
        (∃ d ∈ dirs8, ¬oob w h (cellX w i + d.1) (cellY w i + d.2) ∧
          dmap.getD (toIdx w (cellX w i + d.1) (cellY w i + d.2)) ⊤ < dmap.getD i ⊤) →
        ∃ d ∈ dirs8, (flow_field_from_dijkstra dmap w h).getD i (0, 0) = d ∧
          ¬oob w h (cellX w i + d.1) (cellY w i + d.2) ∧
          dmap.getD (toIdx w (cellX w i + d.1) (cellY w i + d.2)) ⊤ < dmap.getD i ⊤ ∧
          ∀ e ∈ dirs8, ¬oob w h (cellX w i + e.1) (cellY w i + e.2) →
            dmap.getD (toIdx w (cellX w i + d.1) (cellY w i + d.2)) ⊤ ≤
              dmap.getD (toIdx w (cellX w i + e.1) (cellY w i + e.2)) ⊤) := by
  have hout : (flow_field_from_dijkstra dmap w h).getD i (0, 0) =
      if (⊤ : CostV) ≤ dmap.getD i ⊤ then (0, 0)
      else (flowBest dmap w h (cellX w i) (cellY w i)).2 := by
    simp only [flow_field_from_dijkstra]
    rw [List.getD_eq_getElem?_getD, List.getElem?_map, List.getElem?_range hi]
    rfl
  have hfb : flowBest dmap w h (cellX w i) (cellY w i) =
      dirs8.foldl (flowStep dmap w h (cellX w i) (cellY w i)) (dmap.getD i ⊤, 0, 0) := by
    simp only [flowBest, toIdx_cell]
  obtain ⟨h1, h2, h3⟩ := flowFold_spec dmap w h (cellX w i) (cellY w i) dirs8
    (dmap.getD i ⊤, 0, 0)
  constructor
  · intro hc
    rcases hc with htop | hno
    · rw [hout, if_pos (le_of_eq htop.symm)]
    · rw [hout]
      split_ifs with htop
      · rfl
      · rcases h3 with heq | ⟨d, hd, hbd, hv, hdir, hlt⟩
        · rw [hfb, heq]
        · exfalso
          have hlt2 : dmap.getD (toIdx w (cellX w i + d.1) (cellY w i + d.2)) ⊤ <
              dmap.getD i ⊤ := by
            rw [← hv]
            exact hlt
          exact hno d hd hbd hlt2
  · intro hfin himp
    rw [hout, if_neg (fun hcon => hfin (top_le_iff.mp hcon))]
    obtain ⟨d0, hd0, hbd0, hlt0⟩ := himp
    have hbelow : (dirs8.foldl (flowStep dmap w h (cellX w i) (cellY w i))
        (dmap.getD i ⊤, 0, 0)).1 < dmap.getD i ⊤ :=
      lt_of_le_of_lt (h2 d0 hd0 hbd0) hlt0
    rcases h3 with heq | ⟨d, hd, hbd, hv, hdir, hlt⟩
    · exfalso
      rw [heq] at hbelow
      exact lt_irrefl _ hbelow
    · refine ⟨d, hd, ?_, hbd, ?_, ?_⟩
      · rw [hfb, hdir]
      · rw [← hv]
        exact hbelow
      · intro e he hbe
        rw [← hv]
        exact h2 e he hbe

/-- Witness for C6: on a 2×1 field `[0, 1]` the cell `1` flows left. -/
theorem claim_C6_witness :
    ∃ d ∈ dirs8, (flow_field_from_dijkstra [(0 : CostV), 1] 2 1).getD 1 (0, 0) = d ∧
      ¬oob 2 1 (cellX 2 1 + d.1) (cellY 2 1 + d.2) ∧
      (([(0 : CostV), 1].getD (toIdx 2 (cellX 2 1 + d.1) (cellY 2 1 + d.2)) ⊤) <
        [(0 : CostV), 1].getD 1 ⊤) ∧
      ∀ e ∈ dirs8, ¬oob 2 1 (cellX 2 1 + e.1) (cellY 2 1 + e.2) →
        [(0 : CostV), 1].getD (toIdx 2 (cellX 2 1 + d.1) (cellY 2 1 + d.2)) ⊤ ≤
          [(0 : CostV), 1].getD (toIdx 2 (cellX 2 1 + e.1) (cellY 2 1 + e.2)) ⊤ :=
  (claim_C6 [(0 : CostV), 1] 2 1 1 (by decide) (by decide) (by decide)).2 (by decide)
    ⟨(-1, 0), by decide, by decide, by decide⟩

/-! ## Claim C9: funnel smoothing is the greedy furthest-clear pull -/

theorem foldKeepLast (P : Nat → Bool) (a len init : Nat) (ha : 0 < a) :
    (List.range' a len).foldl (fun fb i => if P i then i else fb) init =
      (if Nat.findGreatest (fun i => a ≤ i ∧ P i = true) (a + len - 1) = 0 then init
        else Nat.findGreatest (fun i => a ≤ i ∧ P i = true) (a + len - 1)) := by
  induction len with
  | zero =>
    have hg : Nat.findGreatest (fun i => a ≤ i ∧ P i = true) (a - 1) = 0 := by
      apply Nat.findGreatest_eq_zero_iff.mpr
      intro m hm0 hmb hP
      omega
    simp [hg]
  | succ len ih =>
    rw [List.range'_1_concat, List.foldl_append]
    have hb : a + (len + 1) - 1 = (a + len - 1) + 1 := by omega
    have hb2 : a + len - 1 + 1 = a + len := by omega
    rw [hb, Nat.findGreatest_succ, hb2]
    by_cases hp : P (a + len) = true
    · rw [if_pos (⟨by omega, hp⟩ : a ≤ a + len ∧ P (a + len) = true)]
      simp only [List.foldl_cons, List.foldl_nil]
      rw [if_pos hp, if_neg (show ¬a + len = 0 by omega)]
    · rw [if_neg (show ¬(a ≤ a + len ∧ P (a + len) = true) from fun hcon => hp hcon.2)]
      simp only [List.foldl_cons, List.foldl_nil]
      rw [if_neg hp]
      exact ih

theorem furthestVisible_eq (path : List Vec2) (grid : List Int) (w blocking : Int)
    (current : Nat) :
    furthestVisible path grid w blocking current =
      greedyFurthest (ptClear path grid w blocking) path.length current := by
  simp only [furthestVisible, greedyFurthest]
  by_cases hn : current + 2 ≤ path.length
  · have hb : current + 2 + (path.length - (current + 2)) - 1 = path.length - 1 := by omega
    rw [foldKeepLast _ _ _ _ (by omega), hb]
  · have hlen : path.length - (current + 2) = 0 := by omega
    rw [hlen]
    have hg : Nat.findGreatest
        (fun i => current + 2 ≤ i ∧ ptClear path grid w blocking current i = true)
        (path.length - 1) = 0 := by
      apply Nat.findGreatest_eq_zero_iff.mpr
      intro m hm0 hmb hP
      omega
    simp [hg]

theorem funnelLoop_eq (path : List Vec2) (grid : List Int) (w blocking : Int) (fuel : Nat) :
    ∀ current, funnelLoop path grid w blocking fuel current =
      funnelGreedyLoop path (ptClear path grid w blocking) fuel current := by
  induction fuel with
  | zero => intro current; rfl
  | succ fuel ih =>
    intro current
    simp only [funnelLoop, funnelGreedyLoop, furthestVisible_eq]
    split_ifs with hc
    · rw [ih]
    · rfl

/-- C9 amended: `funnel_smooth` is the greedy string-pull that repeatedly
appends the furthest later point whose grid-walked line holds no blocking
cell — with the anchor and target cells included in (not exempt from) the
blocking test — defaulting to the immediate next point. -/
theorem claim_C9 (path : List Vec2) (grid : List Int) (w blocking : Int) :
    funnel_smooth path grid w blocking = funnelSpecIncl path grid w blocking := by
  simp only [funnel_smooth, funnelSpecIncl, funnelGreedy]
  split_ifs with hc
  · rfl
  · rw [funnelLoop_eq]

/-! ## Claim C7: idempotence of `simplify_path` on king-move paths -/

theorem stepXY_ne_iff (w a b c : Int) :
    stepXY w a b ≠ stepXY w b c ↔
      (Int.tmod b w - Int.tmod a w ≠ Int.tmod c w - Int.tmod b w ∨
        Int.tdiv b w - Int.tdiv a w ≠ Int.tdiv c w - Int.tdiv b w) := by
  simp only [stepXY, Ne, Prod.mk.injEq, not_and_or]

theorem simplKeep_shift (w a : Int) (rest : List Int) (j : Nat) :
    simplKeep w (a :: rest) (j + 1) = simplKeep w rest j := rfl

theorem simplKeep_zero (w a b c : Int) (r : List Int) :
    simplKeep w (a :: b :: c :: r) 0 =
      if stepXY w a b ≠ stepXY w b c then some b else none := by
  have hbase : simplKeep w (a :: b :: c :: r) 0 =
      if Int.tmod b w - Int.tmod a w ≠ Int.tmod c w - Int.tmod b w ∨
          Int.tdiv b w - Int.tdiv a w ≠ Int.tdiv c w - Int.tdiv b w then some b else none := rfl
  rw [hbase, if_congr (stepXY_ne_iff w a b c).symm rfl rfl]

theorem simplify_path_rec (w : Int) : ∀ (rest : List Int) (a b : Int), rest ≠ [] →
    simplify_path (a :: b :: rest) w = a :: simplAux w a b rest := by
  have key : ∀ (rest : List Int) (a b : Int),
      (List.range rest.length).filterMap (simplKeep w (a :: b :: rest)) ++
        [(a :: b :: rest).getD (rest.length + 1) 0] = simplAux w a b rest := by
    intro rest
    induction rest with
    | nil =>
      intro a b
      simp [simplAux]
    | cons c r ih =>
      intro a b
      simp only [List.length_cons]
      rw [List.range_succ_eq_map, List.filterMap_cons, List.filterMap_map]
      have hcongr : ∀ j ∈ List.range r.length,
          (simplKeep w (a :: b :: c :: r) ∘ Nat.succ) j = simplKeep w (b :: c :: r) j :=
        fun j _ => simplKeep_shift w a (b :: c :: r) j
      rw [List.filterMap_congr hcongr, simplKeep_zero w a b c r]
      have hlast : (a :: b :: c :: r).getD (r.length + 1 + 1) 0 =
          (b :: c :: r).getD (r.length + 1) 0 := rfl
      rw [hlast]
      by_cases hcond : stepXY w a b ≠ stepXY w b c
      · rw [if_pos hcond]
        simp only [simplAux, if_pos hcond]
        rw [List.cons_append, ih b c]
      · rw [if_neg hcond]
        simp only [simplAux, if_neg hcond]
        rw [ih b c]
  intro rest a b hne
  have hlen : ¬(a :: b :: rest).length < 3 := by
    rcases rest with _ | ⟨c, r⟩
    · exact absurd rfl hne
    · simp
  simp only [simplify_path, if_neg hlen]
  have hlen2 : (a :: b :: rest).length - 2 = rest.length := by simp
  have hlen3 : (a :: b :: rest).length - 1 = rest.length + 1 := by simp
  rw [hlen2, hlen3, List.getD_cons_zero]
  rw [key rest a b]

theorem kingMulComp (u v k m : Int) (hu : u.natAbs ≤ 1) (hv : v.natAbs ≤ 1)
    (hk : 1 ≤ k) (hm : 1 ≤ m) (h : k * u = m * v) : u = v := by
  have hb1 : -1 ≤ u := by omega
  have hb2 : u ≤ 1 := by omega
  have hb3 : -1 ≤ v := by omega
  have hb4 : v ≤ 1 := by omega
  interval_cases u <;> interval_cases v <;> omega

theorem kingMul_ne (u1 u2 v1 v2 k m : Int) (hu1 : u1.natAbs ≤ 1) (hu2 : u2.natAbs ≤ 1)
    (hv1 : v1.natAbs ≤ 1) (hv2 : v2.natAbs ≤ 1) (huv : ¬(u1 = v1 ∧ u2 = v2))
    (hk : 1 ≤ k) (hm : 1 ≤ m) : ¬(k * u1 = m * v1 ∧ k * u2 = m * v2) := by
  rintro ⟨h1, h2⟩
  exact huv ⟨kingMulComp u1 v1 k m hu1 hv1 hk hm h1, kingMulComp u2 v2 k m hu2 hv2 hk hm h2⟩

theorem stepXY_add (w a b c : Int) :
    (stepXY w a c).1 = (stepXY w a b).1 + (stepXY w b c).1 ∧
      (stepXY w a c).2 = (stepXY w a b).2 + (stepXY w b c).2 := by
  simp only [stepXY]
  constructor <;> ring

theorem simplAux_noMerge (w : Int) : ∀ (rest : List Int) (prev cur L k : Int),
    KingSteps (prev :: cur :: rest) w → 1 ≤ k →
    stepXY w L cur = (k * (stepXY w prev cur).1, k * (stepXY w prev cur).2) →
    NoMerge w (L :: simplAux w prev cur rest) ∧
      ∃ hd tl, simplAux w prev cur rest = hd :: tl ∧
        ∃ m : Int, 1 ≤ m ∧
          stepXY w L hd = (m * (stepXY w prev cur).1, m * (stepXY w prev cur).2) := by
  intro rest
  induction rest with
  | nil =>
    intro prev cur L k hchain hk hL
    exact ⟨trivial, cur, [], rfl, k, hk, hL⟩
  | cons c r ih =>
    intro prev cur L k hchain hk hL
    have hchain2 : KingSteps (cur :: c :: r) w := hchain.tail
    have hu : (stepXY w prev cur).1.natAbs ≤ 1 ∧ (stepXY w prev cur).2.natAbs ≤ 1 :=
      List.chain'_cons.mp hchain |>.1
    have hv : (stepXY w cur c).1.natAbs ≤ 1 ∧ (stepXY w cur c).2.natAbs ≤ 1 :=
      List.chain'_cons.mp hchain2 |>.1
    by_cases hne : stepXY w prev cur ≠ stepXY w cur c
    · simp only [simplAux, if_pos hne]
      obtain ⟨hnm, hd, tl, hout, m, hm, hstep⟩ :=
        ih cur c cur 1 hchain2 (le_refl 1) (by simp)
      refine ⟨?_, cur, simplAux w cur c r, rfl, k, hk, hL⟩
      rw [hout]
      refine ⟨?_, by rw [← hout]; exact hnm⟩
      have hLcur : stepXY w L cur = (k * (stepXY w prev cur).1, k * (stepXY w prev cur).2) := hL
      have hcurhd : stepXY w cur hd = (m * (stepXY w cur c).1, m * (stepXY w cur c).2) := hstep
      rw [hLcur, hcurhd]
      intro hcon
      have huv : ¬((stepXY w prev cur).1 = (stepXY w cur c).1 ∧
          (stepXY w prev cur).2 = (stepXY w cur c).2) := by
        intro hcon2
        apply hne
        exact Prod.ext hcon2.1 hcon2.2
      refine kingMul_ne _ _ _ _ k m hu.1 hu.2 hv.1 hv.2 huv hk hm ?_
      exact ⟨congrArg Prod.fst hcon, congrArg Prod.snd hcon⟩
    · push_neg at hne
      simp only [simplAux,
        if_neg (show ¬(stepXY w prev cur ≠ stepXY w cur c) from fun hcon => hcon hne)]
      rw [hne]
      apply ih cur c L (k + 1) hchain2 (by omega)
      have hadd := stepXY_add w L cur c
      have h1 : (stepXY w L c).1 = (k + 1) * (stepXY w cur c).1 := by
        rw [hadd.1, hL]
        simp only [hne]
        ring
      have h2 : (stepXY w L c).2 = (k + 1) * (stepXY w cur c).2 := by
        rw [hadd.2, hL]
        simp only [hne]
        ring
      exact Prod.ext h1 h2

theorem simplAux_fix (w : Int) : ∀ (rest : List Int) (a b : Int),
    NoMerge w (a :: b :: rest) → simplAux w a b rest = b :: rest := by
  intro rest
  induction rest with
  | nil => intro a b _; rfl
  | cons c r ih =>
    intro a b hnm
    simp only [simplAux, if_pos hnm.1]
    rw [ih b c hnm.2]

/-- C7 amended: `simplify_path` is idempotent on king-move index paths —
paths whose consecutive coordinate deltas have both components in
`{-1,0,1}`, as all paths produced by the searches do.  (On arbitrary index
paths a second pass can merge further, cf. the counterexample.) -/
theorem claim_C7 (p : List Int) (w : Int) (hk : KingSteps p w) :
    simplify_path (simplify_path p w) w = simplify_path p w := by
  rcases p with _ | ⟨a, _ | ⟨b, _ | ⟨c, rest⟩⟩⟩
  · rfl
  · rfl
  · rfl
  · have hne : (c :: rest) ≠ [] := by simp
    rw [simplify_path_rec w (c :: rest) a b hne]
    obtain ⟨hnm, hd, tl, hout, -⟩ := simplAux_noMerge w (c :: rest) a b a 1 hk (le_refl 1)
      (by simp)
    rw [hout]
    rw [hout] at hnm
    rcases tl with _ | ⟨e, tl'⟩
    · rfl
    · rw [simplify_path_rec w (e :: tl') a hd (by simp)]
      rw [simplAux_fix w (e :: tl') a hd hnm]

/-- Witness for C7 at a concrete input: the king-move path
`(0,0),(1,0),(2,0),(2,1)` on width 8. -/
theorem claim_C7_witness :
    simplify_path (simplify_path [0, 1, 2, 10] 8) 8 = simplify_path [0, 1, 2, 10] 8 :=
  claim_C7 [0, 1, 2, 10] 8 (by
    simp only [KingSteps, List.chain'_cons, List.chain'_singleton]
    exact ⟨⟨by decide, by decide⟩, ⟨by decide, by decide⟩, by decide, by decide⟩)

/-! ## The open list -/

theorem popMin_none {l : List (Nat × CostV)} : popMin l = none ↔ l = [] := by
  cases l with
  | nil => simp [popMin]
  | cons x xs =>
    simp only [popMin]
    constructor
    · intro hcon
      exfalso
      cases hxs : popMin xs with
      | none => rw [hxs] at hcon; exact Option.noConfusion hcon
      | some p =>
        rw [hxs] at hcon
        obtain ⟨m, rest⟩ := p
        by_cases hlt : m.2 < x.2 <;> simp [hlt] at hcon
    · intro hcon
      exact List.noConfusion hcon

theorem popMin_decomp : ∀ {l : List (Nat × CostV)} {e : Nat × CostV}
    {rest : List (Nat × CostV)}, popMin l = some (e, rest) →
    ∃ l₁ l₂, l = l₁ ++ e :: l₂ ∧ rest = l₁ ++ l₂ := by
  intro l
  induction l with
  | nil => intro e rest h; exact Option.noConfusion h
  | cons x xs ih =>
    intro e rest h
    simp only [popMin] at h
    cases hxs : popMin xs with
    | none =>
      rw [hxs] at h
      dsimp only at h
      have hnil : xs = [] := popMin_none.mp hxs
      have he : x = e := congrArg Prod.fst (Option.some.inj h)
      have hr : ([] : List (Nat × CostV)) = rest := congrArg Prod.snd (Option.some.inj h)
      refine ⟨[], [], ?_, ?_⟩
      · rw [hnil, he]
        rfl
      · rw [← hr]
        rfl
    | some p =>
      obtain ⟨m, rest'⟩ := p
      rw [hxs] at h
      dsimp only at h
      by_cases hlt : m.2 < x.2
      · rw [if_pos hlt] at h
        obtain ⟨l₁, l₂, hl, hr⟩ := ih hxs
        have he : e = m := (congrArg Prod.fst (Option.some.inj h)).symm
        have hrest : rest = x :: rest' := (congrArg Prod.snd (Option.some.inj h)).symm
        refine ⟨x :: l₁, l₂, ?_, ?_⟩
        · rw [he, List.cons_append, ← hl]
        · rw [hrest, hr, List.cons_append]
      · rw [if_neg hlt] at h
        have he : e = x := (congrArg Prod.fst (Option.some.inj h)).symm
        have hrest : rest = xs := (congrArg Prod.snd (Option.some.inj h)).symm
        exact ⟨[], xs, by rw [he, List.nil_append], by rw [hrest, List.nil_append]⟩

theorem popMin_mem {l : List (Nat × CostV)} {e : Nat × CostV} {rest : List (Nat × CostV)}
    (h : popMin l = some (e, rest)) : e ∈ l := by
  obtain ⟨l₁, l₂, hl, -⟩ := popMin_decomp h
  rw [hl]
  exact List.mem_append.mpr (Or.inr (List.mem_cons_self _ _))

theorem popMin_rest_mem {l : List (Nat × CostV)} {e : Nat × CostV}
    {rest : List (Nat × CostV)} (h : popMin l = some (e, rest)) :
    ∀ x ∈ rest, x ∈ l := by
  obtain ⟨l₁, l₂, hl, hr⟩ := popMin_decomp h
  intro x hx
  rw [hr] at hx
  rw [hl]
  rcases List.mem_append.mp hx with hx | hx
  · exact List.mem_append.mpr (Or.inl hx)
  · exact List.mem_append.mpr (Or.inr (List.mem_cons_of_mem _ hx))

theorem popMin_min : ∀ {l : List (Nat × CostV)} {e : Nat × CostV}
    {rest : List (Nat × CostV)}, popMin l = some (e, rest) → ∀ x ∈ l, e.2 ≤ x.2 := by
  intro l
  induction l with
  | nil => intro e rest h; exact Option.noConfusion h
  | cons x xs ih =>
    intro e rest h y hy
    simp only [popMin] at h
    cases hxs : popMin xs with
    | none =>
      rw [hxs] at h
      dsimp only at h
      have hnil : xs = [] := popMin_none.mp hxs
      have he : e = x := (congrArg Prod.fst (Option.some.inj h)).symm
      rw [hnil] at hy
      rcases List.mem_singleton.mp hy with rfl
      rw [he]
    | some p =>
      obtain ⟨m, rest'⟩ := p
      rw [hxs] at h
      dsimp only at h
      by_cases hlt : m.2 < x.2
      · rw [if_pos hlt] at h
        have he : e = m := (congrArg Prod.fst (Option.some.inj h)).symm
        rw [he]
        rcases List.mem_cons.mp hy with rfl | hy
        · exact le_of_lt hlt
        · exact ih hxs y hy
      · rw [if_neg hlt] at h
        have he : e = x := (congrArg Prod.fst (Option.some.inj h)).symm
        rw [he]
        rcases List.mem_cons.mp hy with rfl | hy
        · exact le_refl _
        · exact le_trans (not_lt.mp hlt) (ih hxs y hy)

/-! ## Preservation of the light invariant -/

theorem LInv_step {δ : Type} {R : Nat → Nat → Prop} {size start cur : Nat} {l : List δ}
    {F : AState → δ → AState} (hF : StepOK R size cur F l) (hcur : cur < size) {st : AState}
    (hinv : LInv R size start st) (d : δ) (hd : d ∈ l) : LInv R size start (F st d) := by
  rcases hF st d hd with heq | ⟨ni, c, fpr, hc, hR, hni, hlt, heq⟩
  · rw [heq]; exact hinv
  · obtain ⟨h1, h2, h3, h4, h5⟩ := hinv
    have hgcur : st.g cur < ⊤ := by
      by_contra hcon
      push_neg at hcon
      rw [top_le_iff.mp hcon] at hlt
      simp at hlt
    set v : CostV := st.g cur + ((c : ℚ) : CostV) with hv
    have hnew : v < ⊤ := lt_of_lt_of_le hlt le_top
    have hnew0 : (0 : CostV) ≤ v := by
      have hc0 : (0 : CostV) ≤ ((c : ℚ) : CostV) := by exact_mod_cast le_of_lt hc
      calc (0 : CostV) = 0 + 0 := by rw [add_zero]
      _ ≤ st.g cur + ((c : ℚ) : CostV) := add_le_add (h4 cur) hc0
    have hcurlt : st.g cur < v := by
      rcases WithTop.ne_top_iff_exists.mp (ne_of_lt hgcur) with ⟨q, hq⟩
      rw [hv, ← hq]
      have hqc : ((q : CostV) + ((c : ℚ) : CostV)) = (((q + c : ℚ)) : CostV) := by
        exact_mod_cast rfl
      rw [hqc]
      exact_mod_cast lt_add_of_pos_right q hc
    have hnistart : ni ≠ start := by
      intro hcon
      rw [hcon, h3] at hlt
      exact absurd (lt_of_le_of_lt hnew0 hlt) (lt_irrefl _)
    have hcurni : cur ≠ ni := by
      intro hcon
      rw [← hcon] at hlt
      exact absurd (lt_trans hcurlt hlt) (lt_irrefl _)
    rw [heq]
    refine ⟨?_, ?_, ?_, ?_, ?_⟩
    · intro i j hij
      simp only at hij ⊢
      by_cases hini : i = ni
      · subst hini
        rw [Function.update_same] at hij ⊢
        have hj : cur = j := Option.some.inj hij
        subst hj
        rw [Function.update_noteq hcurni]
        exact ⟨hR, hcurlt, hnew, hcur, hni⟩
      · rw [Function.update_noteq hini] at hij
        obtain ⟨hRji, hgj, hgi, hjs, his⟩ := h1 i j hij
        rw [Function.update_noteq hini]
        by_cases hjni : j = ni
        · subst hjni
          rw [Function.update_same]
          exact ⟨hRji, lt_trans hlt hgj, hgi, hjs, his⟩
        · rw [Function.update_noteq hjni]
          exact ⟨hRji, hgj, hgi, hjs, his⟩
    · intro i hci hgi
      simp only at hci hgi
      by_cases hini : i = ni
      · subst hini
        rw [Function.update_same] at hci
        exact Option.noConfusion hci
      · rw [Function.update_noteq hini] at hci
        rw [Function.update_noteq hini] at hgi
        exact h2 i hci hgi
    · simp only
      rw [Function.update_noteq (Ne.symm hnistart)]
      exact h3
    · intro i
      simp only
      by_cases hini : i = ni
      · subst hini
        rw [Function.update_same]
        exact hnew0
      · rw [Function.update_noteq hini]
        exact h4 i
    · intro e he
      simp only at he ⊢
      rcases List.mem_cons.mp he with rfl | he
      · simp only [Function.update_same]
        exact ⟨hnew, hni⟩
      · obtain ⟨hfe, hse⟩ := h5 e he
        by_cases hei : e.1 = ni
        · rw [hei, Function.update_same]
          exact ⟨hnew, hei ▸ hse⟩
        · rw [Function.update_noteq hei]
          exact ⟨hfe, hse⟩

theorem LInv_fold {δ : Type} {R : Nat → Nat → Prop} {size start cur : Nat}
    {F : AState → δ → AState} (hcur : cur < size) :
    ∀ (l : List δ), StepOK R size cur F l → ∀ {st : AState}, LInv R size start st →
      LInv R size start (l.foldl F st) := by
  intro l
  induction l with
  | nil => intro _ st hinv; exact hinv
  | cons d l ih =>
    intro hF st hinv
    exact ih (fun st2 d2 hd2 => hF st2 d2 (List.mem_cons_of_mem _ hd2))
      (LInv_step hF hcur hinv d (List.mem_cons_self _ _))

theorem LInv_frontier {R : Nat → Nat → Prop} {size start : Nat} {st : AState}
    (hinv : LInv R size start st) (Q : List (Nat × CostV))
    (hQ : ∀ e ∈ Q, e ∈ st.frontier) : LInv R size start ⟨st.g, st.came, Q⟩ := by
  obtain ⟨h1, h2, h3, h4, h5⟩ := hinv
  exact ⟨h1, h2, h3, h4, fun e he => h5 e (hQ e he)⟩

/-! ## The backward walk of `reconstruct_path` -/

theorem gMeasure_lt {size : Nat} {g : Nat → CostV} {i j : Nat} (hj : j < size)
    (hlt : g j < g i) : gMeasure size g j < gMeasure size g i := by
  apply Finset.card_lt_card
  rw [Finset.ssubset_iff_of_subset]
  · refine ⟨j, ?_, ?_⟩
    · exact Finset.mem_filter.mpr ⟨Finset.mem_range.mpr hj, hlt⟩
    · intro hcon
      exact absurd (Finset.mem_filter.mp hcon).2 (lt_irrefl _)
  · intro k hk
    obtain ⟨hkr, hklt⟩ := Finset.mem_filter.mp hk
    exact Finset.mem_filter.mpr ⟨hkr, lt_trans hklt hlt⟩

theorem gMeasure_le_size (size : Nat) (g : Nat → CostV) (i : Nat) :
    gMeasure size g i ≤ size := by
  calc gMeasure size g i ≤ (Finset.range size).card := Finset.card_filter_le _ _
  _ = size := Finset.card_range size

theorem walkBack_spec {R : Nat → Nat → Prop} {size start : Nat} {g : Nat → CostV}
    {came : Nat → Option Nat}
    (hL1 : ∀ i j, came i = some j → R j i ∧ g j < g i ∧ g i < ⊤ ∧ j < size ∧ i < size)
    (hL2 : ∀ i, came i = none → g i < ⊤ → i = start) :
    ∀ (n cur : Nat), g cur < ⊤ → gMeasure size g cur < n →
      walkBack came start n (some cur) ≠ [] ∧
        (walkBack came start n (some cur)).head? = some cur ∧
        (walkBack came start n (some cur)).getLast? = some start ∧
        List.Chain' (fun a b => came a = some b) (walkBack came start n (some cur)) := by
  intro n
  induction n with
  | zero =>
    intro cur hfin hm
    omega
  | succ n ih =>
    intro cur hfin hm
    by_cases hcs : cur = start
    · subst hcs
      simp [walkBack]
    · cases hc : came cur with
      | none => exact absurd (hL2 cur hc hfin) hcs
      | some j =>
        obtain ⟨hR, hgj, hgi, hjs, his⟩ := hL1 cur j hc
        have hfj : g j < ⊤ := lt_trans hgj hfin
        have hmj : gMeasure size g j < n :=
          lt_of_lt_of_le (gMeasure_lt hjs hgj) (Nat.lt_succ_iff.mp hm)
        obtain ⟨hne, hhead, hlast, hchain⟩ := ih j hfj hmj
        have hwb : walkBack came start (n + 1) (some cur) =
            cur :: walkBack came start n (came cur) := by
          simp [walkBack, if_neg hcs]
        rw [hc] at hwb
        obtain ⟨x, l, hxl⟩ := List.exists_cons_of_ne_nil hne
        have hx : x = j := by
          rw [hxl] at hhead
          exact Option.some.inj hhead
        subst x
        rw [hwb, hxl]
        refine ⟨List.cons_ne_nil _ _, rfl, ?_, ?_⟩
        · rw [List.getLast?_cons_cons]
          rw [hxl] at hlast
          exact hlast
        · rw [List.chain'_cons]
          rw [hxl] at hchain
          exact ⟨hc, hchain⟩

theorem reconstruct_spec {R : Nat → Nat → Prop} {size start : Nat} {g : Nat → CostV}
    {came : Nat → Option Nat}
    (hL1 : ∀ i j, came i = some j → R j i ∧ g j < g i ∧ g i < ⊤ ∧ j < size ∧ i < size)
    (hL2 : ∀ i, came i = none → g i < ⊤ → i = start) (goal : Nat)
    (hfin : g goal < ⊤) :
    (reconstruct_path came start goal (size + 1)).head? = some start ∧
      (reconstruct_path came start goal (size + 1)).getLast? = some goal ∧
      List.Chain' (fun a b => R a b) (reconstruct_path came start goal (size + 1)) := by
  obtain ⟨hne, hhead, hlast, hchain⟩ := walkBack_spec hL1 hL2 (size + 1) goal hfin
    (Nat.lt_succ_iff.mpr (gMeasure_le_size size g goal))
  unfold reconstruct_path
  refine ⟨?_, ?_, ?_⟩
  · rw [List.head?_reverse]
    exact hlast
  · rw [List.getLast?_reverse]
    exact hhead
  · rw [List.chain'_reverse]
    apply List.Chain'.imp _ hchain
    intro a b hab
    exact (hL1 a b hab).1

/-! ## The relaxation steps satisfy `StepOK` -/

theorem sqrt2_pos : (0 : ℚ) < sqrt2 := by norm_num [sqrt2]

theorem dirTable_mem {diag : Bool} {d : (Int × Int) × ℚ} (hd : d ∈ dirTable diag) :
    d.1 ∈ (if diag then dirs8 else dirs4) ∧ 0 < (if diag then d.2 else (1 : ℚ)) := by
  cases diag with
  | false =>
    simp only [dirTable, Bool.false_eq_true, if_false] at hd ⊢
    obtain ⟨x, hx, rfl⟩ := List.mem_map.mp hd
    exact ⟨hx, one_pos⟩
  | true =>
    simp only [dirTable, if_true] at hd ⊢
    fin_cases hd <;> exact ⟨by decide, by norm_num [sqrt2]⟩

theorem astarRelax_stepOK (costs : List ℚ) (w h gx gy : Int) (diag : Bool) (hw : ℚ)
    (closed : Nat → Bool) (cur : Nat) :
    StepOK (adjStep w h (if diag then dirs8 else dirs4)) (sizeN w h) cur
      (astarRelax costs w h gx gy diag hw closed cur) (dirTable diag) := by
  intro st d hd
  simp only [astarRelax]
  by_cases hoob : oob w h (cellX w cur + d.1.1) (cellY w cur + d.1.2)
  · rw [if_pos hoob]
    exact Or.inl rfl
  · rw [if_neg hoob]
    by_cases hclosed : closed (toIdx w (cellX w cur + d.1.1) (cellY w cur + d.1.2)) = true
    · rw [if_pos hclosed]
      exact Or.inl rfl
    · rw [if_neg hclosed]
      by_cases hcost : cost0 costs (toIdx w (cellX w cur + d.1.1) (cellY w cur + d.1.2)) ≤ 0
      · rw [if_pos hcost]
        exact Or.inl rfl
      · rw [if_neg hcost]
        by_cases hlt : st.g cur +
            (((if diag then d.2 else 1) *
              cost0 costs (toIdx w (cellX w cur + d.1.1) (cellY w cur + d.1.2)) : ℚ) : CostV) <
            st.g (toIdx w (cellX w cur + d.1.1) (cellY w cur + d.1.2))
        · rw [if_pos hlt]
          refine Or.inr ⟨toIdx w (cellX w cur + d.1.1) (cellY w cur + d.1.2),
            (if diag then d.2 else 1) *
              cost0 costs (toIdx w (cellX w cur + d.1.1) (cellY w cur + d.1.2)),
            st.g cur +
                (((if diag then d.2 else 1) *
                  cost0 costs (toIdx w (cellX w cur + d.1.1) (cellY w cur + d.1.2)) : ℚ) : CostV) +
              ((heuristic (cellX w cur + d.1.1) (cellY w cur + d.1.2) gx gy diag * hw : ℚ) : CostV),
            ?_, ?_, ?_, hlt, rfl⟩
          · exact mul_pos (dirTable_mem hd).2 (lt_of_not_le hcost)
          · exact ⟨d.1, (dirTable_mem hd).1, hoob, rfl⟩
          · exact toIdx_lt_size w h _ _ hoob
        · rw [if_neg hlt]
          exact Or.inl rfl

theorem dijkstraRelax_stepOK (costs : List ℚ) (w h : Int) (cur : Nat) :
    StepOK (adjStep w h dirs4) (sizeN w h) cur (dijkstraRelax costs w h cur) dirs4 := by
  intro st d hd
  simp only [dijkstraRelax]
  split_ifs with hoob hcost hlt
  · exact Or.inl rfl
  · exact Or.inl rfl
  · refine Or.inr ⟨toIdx w (cellX w cur + d.1) (cellY w cur + d.2),
      cost0 costs (toIdx w (cellX w cur + d.1) (cellY w cur + d.2)),
      st.g cur + ((cost0 costs (toIdx w (cellX w cur + d.1) (cellY w cur + d.2)) : ℚ) : CostV),
      lt_of_not_le hcost, ⟨d, hd, hoob, rfl⟩, toIdx_lt_size w h _ _ hoob, hlt, rfl⟩
  · exact Or.inl rfl

theorem is_walkable_inb {walk : List Int} {w h x y : Int}
    (hw : is_walkable walk w h x y = true) : ¬oob w h x y := by
  simp only [is_walkable] at hw
  intro hcon
  rw [if_pos hcon] at hw
  exact Bool.noConfusion hw

theorem jump_spec (walk : List Int) (w h gx gy : Int) : ∀ (fuel : Nat) (dx dy x y : Int)
    (j : Nat), jump walk w h gx gy dx dy fuel x y = some j →
    ∃ t : Int, 1 ≤ t ∧ ¬oob w h (x + t * dx) (y + t * dy) ∧
      j = toIdx w (x + t * dx) (y + t * dy) := by
  intro fuel
  induction fuel with
  | zero => intro dx dy x y j hj0; exact Option.noConfusion hj0
  | succ fuel ih =>
    intro dx dy x y j hj0
    simp only [jump] at hj0
    by_cases hwalk : is_walkable walk w h (x + dx) (y + dy) = true
    · rw [if_neg (by rw [hwalk]; intro hcon; exact hcon rfl)] at hj0
      have hinb : ¬oob w h (x + dx) (y + dy) := is_walkable_inb hwalk
      have hone : ∀ (hj : j = toIdx w (x + dx) (y + dy)),
          ∃ t : Int, 1 ≤ t ∧ ¬oob w h (x + t * dx) (y + t * dy) ∧
            j = toIdx w (x + t * dx) (y + t * dy) := by
        intro hj
        refine ⟨1, le_refl 1, ?_, ?_⟩
        · rw [one_mul, one_mul]
          exact hinb
        · rw [one_mul, one_mul]
          exact hj
      have htail : ∀ (hj : jump walk w h gx gy dx dy fuel (x + dx) (y + dy) = some j),
          ∃ t : Int, 1 ≤ t ∧ ¬oob w h (x + t * dx) (y + t * dy) ∧
            j = toIdx w (x + t * dx) (y + t * dy) := by
        intro hj
        obtain ⟨t, ht, hb, he⟩ := ih dx dy (x + dx) (y + dy) j hj
        refine ⟨t + 1, by omega, ?_, ?_⟩
        · have harith : x + (t + 1) * dx = x + dx + t * dx := by ring
          have harith2 : y + (t + 1) * dy = y + dy + t * dy := by ring
          rw [harith, harith2]
          exact hb
        · have harith : x + (t + 1) * dx = x + dx + t * dx := by ring
          have harith2 : y + (t + 1) * dy = y + dy + t * dy := by ring
          rw [harith, harith2]
          exact he
      split_ifs at hj0 with h1 h2 h3 h4 h5 h6
      · exact hone (Option.some.inj hj0).symm
      · exact hone (Option.some.inj hj0).symm
      · exact hone (Option.some.inj hj0).symm
      · exact htail hj0
      · exact hone (Option.some.inj hj0).symm
      · exact htail hj0
      · exact hone (Option.some.inj hj0).symm
      · exact htail hj0
    · rw [if_pos (by
        rw [Bool.not_eq_true] at hwalk
        rw [hwalk]
        exact fun hcon => Bool.noConfusion hcon)] at hj0
      exact Option.noConfusion hj0

theorem jumpDist_pos {a b : Int} (hab : ¬(a = 0 ∧ b = 0)) : 0 < jumpDist a b := by
  simp only [jumpDist]
  split_ifs with hcase
  · have ha : 1 ≤ a.natAbs := by omega
    have ha2 : (0 : ℚ) < (a.natAbs : ℚ) := by exact_mod_cast ha
    exact mul_pos ha2 sqrt2_pos
  · have hsum : 1 ≤ a.natAbs + b.natAbs := by omega
    have : (0 : ℚ) < ((a.natAbs + b.natAbs : ℕ) : ℚ) := by exact_mod_cast hsum
    exact this

theorem jpsRelax_stepOK (walk : List Int) (w h gx gy : Int) (closed : Nat → Bool)
    (cur : Nat) (hcc : closed cur = true) (ds : List (Int × Int)) :
    StepOK (fun _ _ => True) (sizeN w h) cur (jpsRelax walk w h gx gy closed cur) ds := by
  intro st d _
  simp only [jpsRelax]
  cases hj : jump walk w h gx gy d.1 d.2 (jumpFuel w h) (cellX w cur) (cellY w cur) with
  | none => exact Or.inl rfl
  | some j =>
    dsimp only
    by_cases hcl : closed j = true
    · rw [if_pos hcl]
      exact Or.inl rfl
    · rw [if_neg hcl]
      by_cases hlt : st.g cur +
          ((jumpDist (cellX w j - cellX w cur) (cellY w j - cellY w cur) : ℚ) : CostV) <
          st.g j
      · rw [if_pos hlt]
        obtain ⟨t, ht, hb, he⟩ := jump_spec walk w h gx gy (jumpFuel w h) d.1 d.2
          (cellX w cur) (cellY w cur) j hj
        have hne : j ≠ cur := fun hcon => hcl (hcon ▸ hcc)
        have hdx : cellX w j - cellX w cur = t * d.1 := by
          rw [he, cellX_toIdx w h _ _ hb]
          ring
        have hdy : cellY w j - cellY w cur = t * d.2 := by
          rw [he, cellY_toIdx w h _ _ hb]
          ring
        have hΔ : ¬(cellX w j - cellX w cur = 0 ∧ cellY w j - cellY w cur = 0) := by
          rintro ⟨hx0, hy0⟩
          apply hne
          rw [hdx] at hx0
          rw [hdy] at hy0
          have : j = toIdx w (cellX w cur) (cellY w cur) := by
            rw [he]
            have hx : cellX w cur + t * d.1 = cellX w cur := by omega
            have hy : cellY w cur + t * d.2 = cellY w cur := by omega
            rw [hx, hy]
          rw [this, toIdx_cell]
        refine Or.inr ⟨j, jumpDist (cellX w j - cellX w cur) (cellY w j - cellY w cur),
          st.g cur +
              ((jumpDist (cellX w j - cellX w cur) (cellY w j - cellY w cur) : ℚ) : CostV) +
            ((heuristic (cellX w j) (cellY w j) gx gy true : ℚ) : CostV),
          jumpDist_pos hΔ, trivial, ?_, hlt, rfl⟩
        rw [he]
        exact toIdx_lt_size w h _ _ hb
      · rw [if_neg hlt]
        exact Or.inl rfl

/-! ## Loop-level path validity -/

theorem astarLoop_spec (costs : List ℚ) (w h gx gy : Int) (diag : Bool) (hw : ℚ)
    (startIdx goalIdx : Nat) :
    ∀ (fuel : Nat) (st : AState) (closed : Nat → Bool),
      LInv (adjStep w h (if diag then dirs8 else dirs4)) (sizeN w h) startIdx st →
      astarLoop costs w h gx gy diag hw startIdx goalIdx fuel st closed ≠ [] →
      (astarLoop costs w h gx gy diag hw startIdx goalIdx fuel st closed).head? =
          some startIdx ∧
        (astarLoop costs w h gx gy diag hw startIdx goalIdx fuel st closed).getLast? =
          some goalIdx ∧
        List.Chain' (adjStep w h (if diag then dirs8 else dirs4))
          (astarLoop costs w h gx gy diag hw startIdx goalIdx fuel st closed) := by
  intro fuel
  induction fuel with
  | zero => intro st closed hinv hne; exact absurd rfl hne
  | succ fuel ih =>
    intro st closed hinv hne
    simp only [astarLoop] at hne ⊢
    cases hpop : popMin st.frontier with
    | none =>
      rw [hpop] at hne
      exact absurd rfl hne
    | some pr =>
      obtain ⟨e, rest⟩ := pr
      rw [hpop] at hne
      dsimp only at hne ⊢
      by_cases hgoal : e.1 = goalIdx
      · rw [if_pos hgoal] at hne ⊢
        have hef := hinv.2.2.2.2 e (popMin_mem hpop)
        have hfin : st.g goalIdx < ⊤ := hgoal ▸ hef.1
        exact reconstruct_spec hinv.1 hinv.2.1 goalIdx hfin
      · rw [if_neg hgoal] at hne ⊢
        by_cases hcl : closed e.1 = true
        · rw [if_pos hcl] at hne ⊢
          exact ih ⟨st.g, st.came, rest⟩ closed
            (LInv_frontier hinv rest (popMin_rest_mem hpop)) hne
        · rw [if_neg hcl] at hne ⊢
          have hcur : e.1 < sizeN w h := (hinv.2.2.2.2 e (popMin_mem hpop)).2
          exact ih _ _
            (LInv_fold hcur (dirTable diag)
              (astarRelax_stepOK costs w h gx gy diag hw
                (Function.update closed e.1 true) e.1)
              (LInv_frontier hinv rest (popMin_rest_mem hpop))) hne

theorem dijkstraLoop_spec (costs : List ℚ) (w h : Int) (goalSet : List Nat)
    (startIdx : Nat) :
    ∀ (fuel : Nat) (st : AState),
      LInv (adjStep w h dirs4) (sizeN w h) startIdx st →
      dijkstraLoop costs w h goalSet startIdx fuel st ≠ [] →
      (dijkstraLoop costs w h goalSet startIdx fuel st).head? = some startIdx ∧
        (∃ t ∈ goalSet, (dijkstraLoop costs w h goalSet startIdx fuel st).getLast? = some t) ∧
        List.Chain' (adjStep w h dirs4) (dijkstraLoop costs w h goalSet startIdx fuel st) := by
  intro fuel
  induction fuel with
  | zero => intro st hinv hne; exact absurd rfl hne
  | succ fuel ih =>
    intro st hinv hne
    simp only [dijkstraLoop] at hne ⊢
    cases hpop : popMin st.frontier with
    | none =>
      rw [hpop] at hne
      exact absurd rfl hne
    | some pr =>
      obtain ⟨e, rest⟩ := pr
      rw [hpop] at hne
      dsimp only at hne ⊢
      by_cases hgoal : goalSet.contains e.1 = true
      · rw [if_pos hgoal] at hne ⊢
        have hef := hinv.2.2.2.2 e (popMin_mem hpop)
        obtain ⟨hh, hl, hc⟩ := reconstruct_spec hinv.1 hinv.2.1 e.1 hef.1
        exact ⟨hh, ⟨e.1, List.mem_of_elem_eq_true hgoal, hl⟩, hc⟩
      · rw [if_neg hgoal] at hne ⊢
        by_cases hstale : st.g e.1 < e.2
        · rw [if_pos hstale] at hne ⊢
          exact ih ⟨st.g, st.came, rest⟩
            (LInv_frontier hinv rest (popMin_rest_mem hpop)) hne
        · rw [if_neg hstale] at hne ⊢
          have hcur : e.1 < sizeN w h := (hinv.2.2.2.2 e (popMin_mem hpop)).2
          exact ih _
            (LInv_fold hcur dirs4 (dijkstraRelax_stepOK costs w h e.1)
              (LInv_frontier hinv rest (popMin_rest_mem hpop))) hne

theorem jpsLoop_spec (walk : List Int) (w h gx gy : Int) (startIdx goalIdx : Nat) :
    ∀ (fuel : Nat) (st : AState) (closed : Nat → Bool),
      LInv (fun _ _ => True) (sizeN w h) startIdx st →
      jpsLoop walk w h gx gy startIdx goalIdx fuel st closed ≠ [] →
      (jpsLoop walk w h gx gy startIdx goalIdx fuel st closed).head? = some startIdx ∧
        (jpsLoop walk w h gx gy startIdx goalIdx fuel st closed).getLast? = some goalIdx := by
  intro fuel
  induction fuel with
  | zero => intro st closed hinv hne; exact absurd rfl hne
  | succ fuel ih =>
    intro st closed hinv hne
    simp only [jpsLoop] at hne ⊢
    cases hpop : popMin st.frontier with
    | none =>
      rw [hpop] at hne
      exact absurd rfl hne
    | some pr =>
      obtain ⟨e, rest⟩ := pr
      rw [hpop] at hne
      dsimp only at hne ⊢
      by_cases hgoal : e.1 = goalIdx
      · rw [if_pos hgoal] at hne ⊢
        have hef := hinv.2.2.2.2 e (popMin_mem hpop)
        have hfin : st.g goalIdx < ⊤ := hgoal ▸ hef.1
        obtain ⟨hh, hl, -⟩ := reconstruct_spec hinv.1 hinv.2.1 goalIdx hfin
        exact ⟨hh, hl⟩
      · rw [if_neg hgoal] at hne ⊢
        by_cases hcl : closed e.1 = true
        · rw [if_pos hcl] at hne ⊢
          exact ih ⟨st.g, st.came, rest⟩ closed
            (LInv_frontier hinv rest (popMin_rest_mem hpop)) hne
        · rw [if_neg hcl] at hne ⊢
          have hcur : e.1 < sizeN w h := (hinv.2.2.2.2 e (popMin_mem hpop)).2
          exact ih _ _
            (LInv_fold hcur _
              (jpsRelax_stepOK walk w h gx gy (Function.update closed e.1 true) e.1
                (Function.update_same _ _ _)
                (jpsDirs walk w h (cellX w e.1) (cellY w e.1) (st.came e.1)))
              (LInv_frontier hinv rest (popMin_rest_mem hpop))) hne

theorem LInv_init (R : Nat → Nat → Prop) (size si : Nat) (hsi : si < size) (f0 : CostV) :
    LInv R size si
      ⟨Function.update (fun _ => (⊤ : CostV)) si (some 0), fun _ => none, [(si, f0)]⟩ := by
  refine ⟨?_, ?_, ?_, ?_, ?_⟩
  · intro i j hij
    exact Option.noConfusion hij
  · intro i _ hgi
    by_cases hisi : i = si
    · exact hisi
    · simp only at hgi
      rw [Function.update_noteq hisi] at hgi
      exact absurd hgi (lt_irrefl ⊤)
  · simp only
    rw [Function.update_same]
    rfl
  · intro i
    simp only
    by_cases hisi : i = si
    · subst hisi
      rw [Function.update_same]
      exact le_of_eq rfl
    · rw [Function.update_noteq hisi]
      exact le_top
  · intro e he
    simp only at he
    rcases List.mem_singleton.mp he with rfl
    simp only [Function.update_same]
    exact ⟨WithTop.coe_lt_top 0, hsi⟩

/-- C1 amended: every non-empty path returned by `astar_grid`,
`astar_grid_weighted` or `dijkstra_grid` starts at the start cell's flat
index, ends at the (reached) goal cell's flat index, and steps between
graph neighbors of the requested connectivity; a non-empty `jps_grid` path
also starts at the start index and ends at the goal index, but its
consecutive entries are jump points that need not be adjacent (cf. the
counterexample). -/
theorem claim_C1 (costs : List ℚ) (walk : List Int) (w h sx sy gx gy : Int) (diag : Bool)
    (hw : ℚ) (goals : List (Int × Int)) :
    (astar_grid_weighted costs w h sx sy gx gy diag hw ≠ [] →
      (astar_grid_weighted costs w h sx sy gx gy diag hw).head? = some (toIdx w sx sy) ∧
        (astar_grid_weighted costs w h sx sy gx gy diag hw).getLast? =
          some (toIdx w gx gy) ∧
        List.Chain' (adjStep w h (if diag then dirs8 else dirs4))
          (astar_grid_weighted costs w h sx sy gx gy diag hw)) ∧
      (astar_grid costs w h sx sy gx gy diag ≠ [] →
        (astar_grid costs w h sx sy gx gy diag).head? = some (toIdx w sx sy) ∧
          (astar_grid costs w h sx sy gx gy diag).getLast? = some (toIdx w gx gy) ∧
          List.Chain' (adjStep w h (if diag then dirs8 else dirs4))
            (astar_grid costs w h sx sy gx gy diag)) ∧
      (dijkstra_grid costs w h sx sy goals ≠ [] →
        (dijkstra_grid costs w h sx sy goals).head? = some (toIdx w sx sy) ∧
          (∃ t ∈ goalIdxs w h goals, (dijkstra_grid costs w h sx sy goals).getLast? = some t) ∧
          List.Chain' (adjStep w h dirs4) (dijkstra_grid costs w h sx sy goals)) ∧
      (jps_grid walk w h sx sy gx gy ≠ [] →
        (jps_grid walk w h sx sy gx gy).head? = some (toIdx w sx sy) ∧
          (jps_grid walk w h sx sy gx gy).getLast? = some (toIdx w gx gy)) := by
  have hA : ∀ (hw2 : ℚ), astar_grid_weighted costs w h sx sy gx gy diag hw2 ≠ [] →
      (astar_grid_weighted costs w h sx sy gx gy diag hw2).head? = some (toIdx w sx sy) ∧
        (astar_grid_weighted costs w h sx sy gx gy diag hw2).getLast? =
          some (toIdx w gx gy) ∧
        List.Chain' (adjStep w h (if diag then dirs8 else dirs4))
          (astar_grid_weighted costs w h sx sy gx gy diag hw2) := by
    intro hw2 hne
    simp only [astar_grid_weighted] at hne ⊢
    by_cases h1 : oob w h sx sy
    · rw [if_pos h1] at hne
      exact absurd rfl hne
    · rw [if_neg h1] at hne ⊢
      by_cases h2 : oob w h gx gy
      · rw [if_pos h2] at hne
        exact absurd rfl hne
      · rw [if_neg h2] at hne ⊢
        by_cases h3 : cost0 costs (toIdx w sx sy) ≤ 0 ∨ cost0 costs (toIdx w gx gy) ≤ 0
        · rw [if_pos h3] at hne
          exact absurd rfl hne
        · rw [if_neg h3] at hne ⊢
          exact astarLoop_spec costs w h gx gy diag hw2 (toIdx w sx sy) (toIdx w gx gy)
            (searchFuel w h) _ _ (LInv_init _ _ _ (toIdx_lt_size w h sx sy h1) _) hne
  refine ⟨hA hw, ?_, ?_, ?_⟩
  · intro hne
    simp only [astar_grid] at hne ⊢
    exact hA 1 hne
  · intro hne
    simp only [dijkstra_grid] at hne ⊢
    by_cases h1 : oob w h sx sy
    · rw [if_pos h1] at hne
      exact absurd rfl hne
    · rw [if_neg h1] at hne ⊢
      by_cases h2 : cost0 costs (toIdx w sx sy) ≤ 0
      · rw [if_pos h2] at hne
        exact absurd rfl hne
      · rw [if_neg h2] at hne ⊢
        by_cases h3 : (goalIdxs w h goals).isEmpty = true
        · rw [if_pos h3] at hne
          exact absurd rfl hne
        · rw [if_neg h3] at hne ⊢
          exact dijkstraLoop_spec costs w h (goalIdxs w h goals) (toIdx w sx sy)
            (searchFuel w h) _ (LInv_init _ _ _ (toIdx_lt_size w h sx sy h1) _) hne
  · intro hne
    simp only [jps_grid] at hne ⊢
    by_cases h1 : oob w h sx sy
    · rw [if_pos h1] at hne
      exact absurd rfl hne
    · rw [if_neg h1] at hne ⊢
      by_cases h2 : oob w h gx gy
      · rw [if_pos h2] at hne
        exact absurd rfl hne
      · rw [if_neg h2] at hne ⊢
        by_cases h3 : walk.getD (toIdx w sx sy) 0 = 0 ∨ walk.getD (toIdx w gx gy) 0 = 0
        · rw [if_pos h3] at hne
          exact absurd rfl hne
        · rw [if_neg h3] at hne ⊢
          exact jpsLoop_spec walk w h gx gy (toIdx w sx sy) (toIdx w gx gy)
            (searchFuel w h) _ _ (LInv_init _ _ _ (toIdx_lt_size w h sx sy h1) _) hne

/-- Witness for C1 at concrete inputs: a 2×2 free grid for the A* variants
and Dijkstra, the 3×1 strip for JPS. -/
theorem claim_C1_witness :
    ((astar_grid_weighted [1, 1, 1, 1] 2 2 0 0 1 1 false 1).head? = some (toIdx 2 0 0) ∧
        (astar_grid_weighted [1, 1, 1, 1] 2 2 0 0 1 1 false 1).getLast? =
          some (toIdx 2 1 1) ∧
        List.Chain' (adjStep 2 2 (if false then dirs8 else dirs4))
          (astar_grid_weighted [1, 1, 1, 1] 2 2 0 0 1 1 false 1)) ∧
      ((astar_grid [1, 1, 1, 1] 2 2 0 0 1 1 true).head? = some (toIdx 2 0 0) ∧
        (astar_grid [1, 1, 1, 1] 2 2 0 0 1 1 true).getLast? = some (toIdx 2 1 1) ∧
        List.Chain' (adjStep 2 2 (if true then dirs8 else dirs4))
          (astar_grid [1, 1, 1, 1] 2 2 0 0 1 1 true)) ∧
      ((dijkstra_grid [1, 1, 1, 1] 2 2 0 0 [(1, 1)]).head? = some (toIdx 2 0 0) ∧
        (∃ t ∈ goalIdxs 2 2 [(1, 1)],
          (dijkstra_grid [1, 1, 1, 1] 2 2 0 0 [(1, 1)]).getLast? = some t) ∧
        List.Chain' (adjStep 2 2 dirs4) (dijkstra_grid [1, 1, 1, 1] 2 2 0 0 [(1, 1)])) ∧
      ((jps_grid [1, 1, 1] 3 1 0 0 2 0).head? = some (toIdx 3 0 0) ∧
        (jps_grid [1, 1, 1] 3 1 0 0 2 0).getLast? = some (toIdx 3 2 0)) :=
  ⟨(claim_C1 [1, 1, 1, 1] [1] 2 2 0 0 1 1 false 1 []).1 (by with_unfolding_all decide),
    (claim_C1 [1, 1, 1, 1] [1] 2 2 0 0 1 1 true 1 []).2.1 (by with_unfolding_all decide),
    (claim_C1 [1, 1, 1, 1] [1] 2 2 0 0 1 1 false 1 [(1, 1)]).2.2.1 (by with_unfolding_all decide),
    (claim_C1 [1] [1, 1, 1] 3 1 0 0 2 0 false 1 []).2.2.2 (by with_unfolding_all decide)⟩

/-! ## Claim C3: the distance field of `dijkstra_map` -/

theorem popMin_length {l : List (Nat × CostV)} {e : Nat × CostV}
    {rest : List (Nat × CostV)} (h : popMin l = some (e, rest)) :
    l.length = rest.length + 1 := by
  obtain ⟨l₁, l₂, hl, hr⟩ := popMin_decomp h
  subst hl
  subst hr
  simp only [List.length_append, List.length_cons]
  omega

theorem popMin_mem_rest_of_ne {l : List (Nat × CostV)} {e x : Nat × CostV}
    {rest : List (Nat × CostV)} (h : popMin l = some (e, rest)) (hx : x ∈ l)
    (hne : x ≠ e) : x ∈ rest := by
  obtain ⟨l₁, l₂, hl, hr⟩ := popMin_decomp h
  subst hl
  subst hr
  rcases List.mem_append.mp hx with h1 | h2
  · exact List.mem_append.mpr (Or.inl h1)
  · rcases List.mem_cons.mp h2 with rfl | h3
    · exact absurd rfl hne
    · exact List.mem_append.mpr (Or.inr h3)

theorem inCell_lt_size {w h : Int} {i : Nat} (hi : InCell w h i) : i < sizeN w h := by
  have hx := toIdx_lt_size w h (cellX w i) (cellY w i) hi
  rwa [toIdx_cell] at hx

theorem toIdx_inCell {w h x y : Int} (hb : ¬oob w h x y) : InCell w h (toIdx w x y) := by
  unfold InCell
  rw [cellX_toIdx w h x y hb, cellY_toIdx w h x y hb]
  exact hb

theorem adjStep_inCell {w h : Int} {dirs : List (Int × Int)} {a b : Nat}
    (hab : adjStep w h dirs a b) : InCell w h b := by
  obtain ⟨d, hd, hnb, rfl⟩ := hab
  exact toIdx_inCell hnb

theorem dirs4_neg {d : Int × Int} (hd : d ∈ dirs4) : (-d.1, -d.2) ∈ dirs4 := by
  fin_cases hd <;> decide

theorem adjStep_symm {w h : Int} {a b : Nat} (ha : InCell w h a)
    (hab : adjStep w h dirs4 a b) : adjStep w h dirs4 b a := by
  obtain ⟨d, hd, hnb, rfl⟩ := hab
  have hx : cellX w a + d.1 + -d.1 = cellX w a := by ring
  have hy : cellY w a + d.2 + -d.2 = cellY w a := by ring
  refine ⟨(-d.1, -d.2), dirs4_neg hd, ?_, ?_⟩
  · rw [cellX_toIdx w h _ _ hnb, cellY_toIdx w h _ _ hnb, hx, hy]
    exact ha
  · rw [cellX_toIdx w h _ _ hnb, cellY_toIdx w h _ _ hnb, hx, hy, toIdx_cell]

theorem relaxTarget_ne {w h : Int} {cur : Nat} {d : Int × Int} (hd : d ∈ dirs4)
    (hnb : ¬oob w h (cellX w cur + d.1) (cellY w cur + d.2)) :
    toIdx w (cellX w cur + d.1) (cellY w cur + d.2) ≠ cur := by
  intro hEq
  have hx := cellX_toIdx w h _ _ hnb
  have hy := cellY_toIdx w h _ _ hnb
  rw [hEq] at hx hy
  have hd1 : d.1 = 0 := by omega
  have hd2 : d.2 = 0 := by omega
  have hd0 : d = (0, 0) := Prod.ext hd1 hd2
  rw [hd0] at hd
  exact absurd hd (by decide)

theorem costv_lt_add {a : CostV} {c : ℚ} (ha : a ≠ ⊤) (hc : 0 < c) :
    a < a + ((c : ℚ) : CostV) := by
  obtain ⟨q, rfl⟩ := WithTop.ne_top_iff_exists.mp ha
  rw [← WithTop.coe_add]
  exact WithTop.coe_lt_coe.mpr (by linarith)

theorem seededGoals_mem {costs : List ℚ} {w h : Int} {goals : List (Int × Int)} {i : Nat}
    (hi : i ∈ seededGoals costs w h goals) : InCell w h i ∧ passable costs i := by
  simp only [seededGoals, List.mem_filterMap] at hi
  obtain ⟨q, hq, hfa⟩ := hi
  by_cases h1 : oob w h q.1 q.2
  · rw [if_pos h1] at hfa
    exact Option.noConfusion hfa
  · rw [if_neg h1] at hfa
    by_cases h2 : 0 < cost0 costs (toIdx w q.1 q.2)
    · rw [if_pos h2] at hfa
      obtain rfl := Option.some.inj hfa
      exact ⟨toIdx_inCell h1, h2⟩
    · rw [if_neg h2] at hfa
      exact Option.noConfusion hfa

theorem dijkstra_map_getD (costs : List ℚ) (w h : Int) (goals : List (Int × Int))
    {i : Nat} (hi : i < sizeN w h) :
    (dijkstra_map costs w h goals).getD i ⊤ =
      dmapLoop costs w h (dmapFuel w h goals) (dmapSeed costs w h goals) i := by
  unfold dijkstra_map
  rw [List.getD_eq_getElem?_getD, List.getElem?_map, List.getElem?_range hi]
  rfl

theorem dmapRelax_cases (costs : List ℚ) (w h : Int) (cur : Nat) (st : MState)
    (d : Int × Int) :
    (dmapRelax costs w h cur st d = st ∧
        (oob w h (cellX w cur + d.1) (cellY w cur + d.2) ∨
          cost0 costs (toIdx w (cellX w cur + d.1) (cellY w cur + d.2)) ≤ 0 ∨
          st.1 (toIdx w (cellX w cur + d.1) (cellY w cur + d.2)) ≤
            st.1 cur +
              ((cost0 costs (toIdx w (cellX w cur + d.1) (cellY w cur + d.2)) : ℚ) :
                CostV))) ∨
      ∃ ni : Nat, ∃ c : ℚ,
        ¬oob w h (cellX w cur + d.1) (cellY w cur + d.2) ∧
        ni = toIdx w (cellX w cur + d.1) (cellY w cur + d.2) ∧
        c = cost0 costs ni ∧ 0 < c ∧
        st.1 cur + ((c : ℚ) : CostV) < st.1 ni ∧
        dmapRelax costs w h cur st d =
          (Function.update st.1 ni (st.1 cur + ((c : ℚ) : CostV)),
            (ni, st.1 cur + ((c : ℚ) : CostV)) :: st.2) := by
  simp only [dmapRelax]
  by_cases h1 : oob w h (cellX w cur + d.1) (cellY w cur + d.2)
  · rw [if_pos h1]
    exact Or.inl ⟨rfl, Or.inl h1⟩
  · rw [if_neg h1]
    by_cases h2 : cost0 costs (toIdx w (cellX w cur + d.1) (cellY w cur + d.2)) ≤ 0
    · rw [if_pos h2]
      exact Or.inl ⟨rfl, Or.inr (Or.inl h2)⟩
    · rw [if_neg h2]
      by_cases h3 :
          st.1 cur +
              ((cost0 costs (toIdx w (cellX w cur + d.1) (cellY w cur + d.2)) : ℚ) : CostV) <
            st.1 (toIdx w (cellX w cur + d.1) (cellY w cur + d.2))
      · rw [if_pos h3]
        exact Or.inr ⟨_, _, h1, rfl, rfl, lt_of_not_le h2, h3, rfl⟩
      · rw [if_neg h3]
        exact Or.inl ⟨rfl, Or.inr (Or.inr (not_lt.mp h3))⟩

theorem dmapFold_rel (costs : List ℚ) (w h : Int) (S : List Nat) (cur : Nat)
    (hcur : InCell w h cur) :
    ∀ (l : List (Int × Int)), (∀ d ∈ l, d ∈ dirs4) → ∀ st : MState,
      FoldRel costs w h S cur l st (l.foldl (dmapRelax costs w h cur) st) := by
  intro l
  induction l with
  | nil =>
    intro hsub st
    refine ⟨fun i => le_refl _, rfl, fun e he => he, fun e he => Or.inl he,
      fun i => Or.inl rfl, by simp, ?_, fun i hne => absurd rfl hne, fun hat => hat⟩
    intro d hd
    exact absurd hd (List.not_mem_nil d)
  | cons d l ih =>
    intro hsub st
    have hdm : d ∈ dirs4 := hsub d (List.mem_cons_self d l)
    have hsub2 : ∀ d0 ∈ l, d0 ∈ dirs4 := fun d0 hd0 => hsub d0 (List.mem_cons_of_mem d hd0)
    rw [List.foldl_cons]
    rcases dmapRelax_cases costs w h cur st d with ⟨heq, hreason⟩ | hpush
    · rw [heq]
      obtain ⟨h1, h2, h3, h4, h5, h6, h7, h8, h9⟩ := ih hsub2 st
      refine ⟨h1, h2, h3, h4, h5, by simp only [List.length_cons]; omega, ?_, h8, h9⟩
      intro d0 hd0 hnb hpass
      rcases List.mem_cons.mp hd0 with rfl | hd0l
      · rcases hreason with hoob | hc0 | hle
        · exact absurd hnb (not_not_intro hoob)
        · exact absurd hpass (not_lt.mpr hc0)
        · calc (l.foldl (dmapRelax costs w h cur) st).1
                (toIdx w (cellX w cur + d0.1) (cellY w cur + d0.2)) ≤
              st.1 (toIdx w (cellX w cur + d0.1) (cellY w cur + d0.2)) := h1 _
            _ ≤ st.1 cur +
                ((cost0 costs (toIdx w (cellX w cur + d0.1) (cellY w cur + d0.2)) : ℚ) :
                  CostV) := hle
            _ = (l.foldl (dmapRelax costs w h cur) st).1 cur +
                ((cost0 costs (toIdx w (cellX w cur + d0.1) (cellY w cur + d0.2)) : ℚ) :
                  CostV) := by rw [h2]
      · exact h7 d0 hd0l hnb hpass
    · obtain ⟨ni, c, hnb, hni, hcdef, hcpos, hlt, heq⟩ := hpush
      rw [heq]
      have hcurfin : st.1 cur ≠ ⊤ := by
        intro htop
        rw [htop, WithTop.top_add] at hlt
        exact not_top_lt hlt
      have hnifin : st.1 cur + ((c : ℚ) : CostV) ≠ ⊤ := by
        intro htop
        rw [htop] at hlt
        exact not_top_lt hlt
      have hninecur : ni ≠ cur := hni ▸ relaxTarget_ne hdm hnb
      have hadjni : adjStep w h dirs4 cur ni := ⟨d, hdm, hnb, hni⟩
      have hpassni : passable costs ni := by
        unfold passable
        rw [← hcdef]
        exact hcpos
      set nd : CostV := st.1 cur + ((c : ℚ) : CostV) with hnd
      set st1 : MState := (Function.update st.1 ni nd, (ni, nd) :: st.2) with hst1
      have hst1g : ∀ i, st1.1 i ≤ st.1 i := by
        intro i
        by_cases hieq : i = ni
        · subst hieq
          rw [hst1]
          dsimp only
          rw [Function.update_same]
          exact le_of_lt hlt
        · rw [hst1]
          dsimp only
          rw [Function.update_noteq hieq]
      have hst1cur : st1.1 cur = st.1 cur := by
        rw [hst1]
        dsimp only
        rw [Function.update_noteq (fun hEq => hninecur hEq.symm)]
      have hst1ni : st1.1 ni = nd := by
        rw [hst1]
        dsimp only
        rw [Function.update_same]
      have hsubq : ∀ e ∈ st.2, e ∈ st1.2 := by
        intro e he
        rw [hst1]
        exact List.mem_cons_of_mem _ he
      have hmemq : (ni, nd) ∈ st1.2 := by
        rw [hst1]
        exact List.mem_cons_self _ _
      obtain ⟨h1, h2, h3, h4, h5, h6, h7, h8, h9⟩ := ih hsub2 st1
      refine ⟨?_, ?_, ?_, ?_, ?_, ?_, ?_, ?_, ?_⟩
      · intro i
        exact le_trans (h1 i) (hst1g i)
      · rw [h2, hst1cur]
      · intro e he
        exact h3 e (hsubq e he)
      · intro e he
        rcases h4 e he with hein | hnew
        · rw [hst1] at hein
          rcases List.mem_cons.mp hein with rfl | hold
          · refine Or.inr ⟨?_, ?_, ?_, ?_, ?_, ?_⟩
            · dsimp only
              calc (l.foldl (dmapRelax costs w h cur) st1).1 ni ≤ st1.1 ni := h1 ni
                _ = nd := hst1ni
            · dsimp only
              rw [hnd]
              exact costv_lt_add hcurfin hcpos
            · exact lt_top_iff_ne_top.mpr hnifin
            · exact adjStep_inCell hadjni
            · exact hadjni
            · exact hpassni
          · exact Or.inl hold
        · refine Or.inr ⟨hnew.1, ?_, hnew.2.2⟩
          rw [← hst1cur]
          exact hnew.2.1
      · intro i
        rcases h5 i with heqi | hfresh
        · by_cases hieq : i = ni
          · refine Or.inr ⟨?_, ?_⟩
            · rw [heqi, hieq, hst1ni]
              exact h3 (ni, nd) hmemq
            · rw [heqi, hieq, hst1ni]
              exact lt_top_iff_ne_top.mpr hnifin
          · left
            rw [heqi, hst1]
            dsimp only
            rw [Function.update_noteq hieq]
        · exact Or.inr hfresh
      · have hlen1 : st1.2.length = st.2.length + 1 := by
          rw [hst1]
          simp
        have hgoal := h6
        rw [hlen1] at hgoal
        simp only [List.length_cons]
        omega
      · intro d0 hd0 hnb0 hpass0
        rcases List.mem_cons.mp hd0 with rfl | hd0l
        · rw [← hni]
          calc (l.foldl (dmapRelax costs w h cur) st1).1 ni ≤ st1.1 ni := h1 ni
            _ = nd := hst1ni
            _ = (l.foldl (dmapRelax costs w h cur) st1).1 cur + ((c : ℚ) : CostV) := by
              rw [h2, hst1cur, hnd]
            _ = (l.foldl (dmapRelax costs w h cur) st1).1 cur +
                ((cost0 costs ni : ℚ) : CostV) := by rw [← hcdef]
        · exact h7 d0 hd0l hnb0 hpass0
      · intro i hnei
        by_cases hch : (l.foldl (dmapRelax costs w h cur) st1).1 i = st1.1 i
        · rw [hch] at hnei ⊢
          have hieq : i = ni := by
            by_contra hii
            apply hnei
            rw [hst1]
            dsimp only
            rw [Function.update_noteq hii]
          subst hieq
          refine ⟨c, hcpos, ?_, ?_⟩
          · rw [hst1ni, hnd]
          · rw [← hnd]
            exact hlt
        · obtain ⟨c0, hc0pos, hc0eq, hc0lt⟩ := h8 i hch
          refine ⟨c0, hc0pos, ?_, ?_⟩
          · rw [hc0eq, hst1cur]
          · rw [hst1cur] at hc0lt
            exact lt_of_lt_of_le hc0lt (hst1g i)
      · intro hat
        apply h9
        intro i hfin
        by_cases hieq : i = ni
        · rw [hieq, hst1ni, hnd]
          have hcurlt : st.1 cur < ⊤ := lt_top_iff_ne_top.mpr hcurfin
          obtain ⟨p, g0, hg0, hvp, hpc⟩ := hat cur hcurlt
          obtain ⟨hhead, hlast, hchain, hpass⟩ := hvp
          cases p with
          | nil => exact absurd hhead (by simp)
          | cons a p2 =>
            have haeq : a = cur := by simpa using hhead
            subst a
            refine ⟨ni :: cur :: p2, g0, hg0, ⟨rfl, ?_, ?_, ?_⟩, ?_⟩
            · simpa using hlast
            · rw [List.chain'_cons]
              exact ⟨adjStep_symm hcur hadjni, hchain⟩
            · intro x hx
              rcases List.mem_cons.mp hx with rfl | hx2
              · exact hpassni
              · exact hpass x hx2
            · have hsum : mapPathCost costs (ni :: cur :: p2) =
                  cost0 costs ni + mapPathCost costs (cur :: p2) := rfl
              rw [hsum, ← hcdef, WithTop.coe_add, hpc, add_comm]
        · have hival : st1.1 i = st.1 i := by
            rw [hst1]
            dsimp only
            rw [Function.update_noteq hieq]
          rw [hival] at hfin ⊢
          exact hat i hfin

theorem dmapFold_stable (costs : List ℚ) (w h : Int) (cur : Nat) :
    ∀ (l : List (Int × Int)), (∀ d ∈ l, d ∈ dirs4) → ∀ st : MState,
      (∀ u, adjStep w h dirs4 cur u → passable costs u →
        st.1 u ≤ st.1 cur + ((cost0 costs u : ℚ) : CostV)) →
      l.foldl (dmapRelax costs w h cur) st = st := by
  intro l
  induction l with
  | nil =>
    intro hsub st hstab
    rfl
  | cons d l ih =>
    intro hsub st hstab
    have hdm : d ∈ dirs4 := hsub d (List.mem_cons_self d l)
    have hstep : dmapRelax costs w h cur st d = st := by
      rcases dmapRelax_cases costs w h cur st d with ⟨heq, -⟩ | hpush
      · exact heq
      · exfalso
        obtain ⟨ni, c, hnb, hni, hcdef, hcpos, hlt, -⟩ := hpush
        have hadjni : adjStep w h dirs4 cur ni := ⟨d, hdm, hnb, hni⟩
        have hpassni : passable costs ni := by
          unfold passable
          rw [← hcdef]
          exact hcpos
        have hcap := hstab ni hadjni hpassni
        rw [← hcdef] at hcap
        exact absurd hlt (not_lt.mpr hcap)
    rw [List.foldl_cons, hstep]
    exact ih (fun d0 hd0 => hsub d0 (List.mem_cons_of_mem d hd0)) st hstab

theorem MapInv_pop {costs : List ℚ} {w h : Int} {S : List Nat} {T : Finset Nat}
    {g : Nat → CostV} {q rest : List (Nat × CostV)} {e : Nat × CostV}
    (hpop : popMin q = some (e, rest)) (hInv : MapInv costs w h S T (g, q))
    (hne : ∀ v, g v < ⊤ → v ∉ T → (v, g v) ≠ e) :
    MapInv costs w h S T (g, rest) := by
  obtain ⟨ha, hb, hc, hd, he, hf, hg, hh⟩ := hInv
  exact ⟨fun x hx => ha x (popMin_rest_mem hpop x hx), hb, hc,
    fun v hv x hx => hd v hv x (popMin_rest_mem hpop x hx), he, hf, hg,
    fun v hfin hvT => popMin_mem_rest_of_ne hpop (hh v hfin hvT) (hne v hfin hvT)⟩

theorem MapInv_settle {costs : List ℚ} {w h : Int} {S : List Nat} {T : Finset Nat}
    {g : Nat → CostV} {q rest : List (Nat × CostV)} {e : Nat × CostV}
    (hpop : popMin q = some (e, rest)) (hInv : MapInv costs w h S T (g, q))
    (hfresh : g e.1 = e.2) (hT : e.1 ∉ T) :
    MapInv costs w h S (insert e.1 T)
        (dirs4.foldl (dmapRelax costs w h e.1) (g, rest)) ∧
      (dirs4.foldl (dmapRelax costs w h e.1) (g, rest)).2.length ≤ rest.length + 4 := by
  obtain ⟨ha, hb, hc, hd, he, hf, hg, hh⟩ := hInv
  have hemem : e ∈ q := popMin_mem hpop
  have hecell : InCell w h e.1 := (ha e hemem).2.2
  have hefin : e.2 < ⊤ := (ha e hemem).2.1
  have hgefin : g e.1 < ⊤ := hfresh ▸ hefin
  have hmin : ∀ x ∈ q, e.2 ≤ x.2 := popMin_min hpop
  obtain ⟨h1, h2, h3, h4, h5, h6, h7, h8, h9⟩ :=
    dmapFold_rel costs w h S e.1 hecell dirs4 (fun d hd => hd) (g, rest)
  have hrest : ∀ x ∈ rest, x ∈ q := popMin_rest_mem hpop
  have hfreeze : ∀ v ∈ T, (dirs4.foldl (dmapRelax costs w h e.1) (g, rest)).1 v = g v := by
    intro v hv
    by_contra hchg
    obtain ⟨c, hcpos, hceq, hclt⟩ := h8 v hchg
    have hvle : g v ≤ e.2 := hd v hv e hemem
    have hc0 : (0 : CostV) ≤ ((c : ℚ) : CostV) := by
      rw [← WithTop.coe_zero]
      exact WithTop.coe_le_coe.mpr (le_of_lt hcpos)
    have hlow : g e.1 ≤ g e.1 + ((c : ℚ) : CostV) := le_add_of_nonneg_right hc0
    have hvle2 : g v ≤ g e.1 := by
      rw [hfresh]
      exact hvle
    exact absurd hclt (not_lt.mpr (le_trans hvle2 hlow))
  constructor
  · refine ⟨?_, ?_, ?_, ?_, ?_, ?_, ?_, ?_⟩
    · intro x hx
      rcases h4 x hx with hold | hnew
      · have hq := ha x (hrest x hold)
        exact ⟨le_trans (h1 x.1) hq.1, hq.2.1, hq.2.2⟩
      · exact ⟨hnew.1, hnew.2.2.1, hnew.2.2.2.1⟩
    · intro v hv u hadj hpass
      rcases Finset.mem_insert.mp hv with rfl | hvT
      · obtain ⟨d, hdm, hnb, hueq⟩ := hadj
        have := h7 d hdm hnb (hueq ▸ hpass)
        rw [← hueq] at this
        exact this
      · have hvfix := hfreeze v hvT
        rw [hvfix]
        calc (dirs4.foldl (dmapRelax costs w h e.1) (g, rest)).1 u ≤ g u := h1 u
          _ ≤ g v + ((cost0 costs u : ℚ) : CostV) := hb v hvT u hadj hpass
    · intro x hx
      rcases Finset.mem_insert.mp hx with rfl | hxT
      · exact Finset.mem_range.mpr (inCell_lt_size hecell)
      · exact hc hxT
    · intro v hv x hx
      have hvval : (dirs4.foldl (dmapRelax costs w h e.1) (g, rest)).1 v ≤ e.2 := by
        rcases Finset.mem_insert.mp hv with rfl | hvT
        · rw [h2]
          exact le_of_eq hfresh
        · rw [hfreeze v hvT]
          exact hd v hvT e hemem
      rcases h4 x hx with hold | hnew
      · exact le_trans hvval (hmin x (hrest x hold))
      · have hlow : g e.1 < x.2 := hnew.2.1
        exact le_trans hvval (le_of_lt (hfresh ▸ hlow))
    · intro gl hgl
      by_cases hch : (dirs4.foldl (dmapRelax costs w h e.1) (g, rest)).1 gl = g gl
      · rw [hch]
        exact he gl hgl
      · exfalso
        obtain ⟨c, hcpos, hceq, hclt⟩ := h8 gl hch
        have hnn : (0 : CostV) ≤ g e.1 + ((c : ℚ) : CostV) :=
          add_nonneg (hf e.1)
            (by rw [← WithTop.coe_zero]; exact WithTop.coe_le_coe.mpr (le_of_lt hcpos))
        rw [he gl hgl] at hclt
        exact absurd (lt_of_le_of_lt hnn hclt) (lt_irrefl 0)
    · intro i
      by_cases hch : (dirs4.foldl (dmapRelax costs w h e.1) (g, rest)).1 i = g i
      · rw [hch]
        exact hf i
      · obtain ⟨c, hcpos, hceq, -⟩ := h8 i hch
        rw [hceq]
        exact add_nonneg (hf e.1)
          (by rw [← WithTop.coe_zero]; exact WithTop.coe_le_coe.mpr (le_of_lt hcpos))
    · exact h9 hg
    · intro v hfin hvT
      have hvne : v ≠ e.1 := fun hEq => hvT (hEq ▸ Finset.mem_insert_self e.1 T)
      have hvnT : v ∉ T := fun hx => hvT (Finset.mem_insert_of_mem hx)
      rcases h5 v with hval | hfreshv
      · rw [hval] at hfin ⊢
        have hqm : (v, g v) ∈ q := hh v hfin hvnT
        have hneq : (v, g v) ≠ e := by
          intro hEq
          exact hvne (congrArg Prod.fst hEq)
        exact h3 (v, g v) (popMin_mem_rest_of_ne hpop hqm hneq)
      · exact hfreshv.1
  · have := h6
    simpa using this

theorem dmapLoop_run (costs : List ℚ) (w h : Int) (S : List Nat) :
    ∀ (fuel : Nat) (st : MState) (T : Finset Nat),
      MapInv costs w h S T st → mapPhi (sizeN w h) T st.2 < fuel →
      ∃ TT : Finset Nat, MapInv costs w h S TT (dmapLoop costs w h fuel st, []) := by
  intro fuel
  induction fuel with
  | zero =>
    intro st T hInv hphi
    exact absurd hphi (Nat.not_lt_zero _)
  | succ fuel ih =>
    intro st T hInv hphi
    simp only [dmapLoop]
    cases hpop : popMin st.2 with
    | none =>
      have hnil : st.2 = [] := popMin_none.mp hpop
      dsimp only
      refine ⟨T, ?_⟩
      rw [← hnil]
      exact hInv
    | some pr =>
      obtain ⟨e, rest⟩ := pr
      dsimp only
      have hlenq : st.2.length = rest.length + 1 := popMin_length hpop
      by_cases hstale : st.1 e.1 < e.2
      · rw [if_pos hstale]
        refine ih (st.1, rest) T (MapInv_pop hpop hInv ?_) ?_
        · intro v hfin hvT hEq
          have hv1 : v = e.1 := congrArg Prod.fst hEq
          have hv2 : st.1 v = e.2 := congrArg Prod.snd hEq
          rw [hv1] at hv2
          rw [hv2] at hstale
          exact lt_irrefl _ hstale
        · simp only [mapPhi] at hphi ⊢
          omega
      · rw [if_neg hstale]
        have hfresh : st.1 e.1 = e.2 :=
          le_antisymm (hInv.1 e (popMin_mem hpop)).1 (not_lt.mp hstale)
        by_cases hT : e.1 ∈ T
        · have hstab := hInv.2.1 e.1 hT
          rw [dmapFold_stable costs w h e.1 dirs4 (fun d hd => hd) (st.1, rest) hstab]
          refine ih (st.1, rest) T (MapInv_pop hpop hInv ?_) ?_
          · intro v hfin hvT hEq
            have hv1 : v = e.1 := congrArg Prod.fst hEq
            rw [hv1] at hvT
            exact hvT hT
          · simp only [mapPhi] at hphi ⊢
            omega
        · obtain ⟨hInv2, hlen2⟩ := MapInv_settle hpop hInv hfresh hT
          refine ih _ (insert e.1 T) hInv2 ?_
          have hemem : e.1 ∈ Finset.range (sizeN w h) \ T :=
            Finset.mem_sdiff.mpr
              ⟨Finset.mem_range.mpr (inCell_lt_size (hInv.1 e (popMin_mem hpop)).2.2), hT⟩
          have hcard : (Finset.range (sizeN w h) \ insert e.1 T).card + 1 =
              (Finset.range (sizeN w h) \ T).card := by
            rw [Finset.sdiff_insert]
            exact Finset.card_erase_add_one hemem
          simp only [mapPhi] at hphi ⊢
          omega

theorem dmapSeed_props (costs : List ℚ) (w h : Int) :
    ∀ (gs : List (Int × Int)) (st : MState),
      (∀ e ∈ st.2, e.2 = 0 ∧ st.1 e.1 = 0 ∧ InCell w h e.1) →
      (∀ i, st.1 i = 0 ∨ st.1 i = ⊤) →
      (∀ i, st.1 i = 0 → (i, (0 : CostV)) ∈ st.2) →
      (∀ e ∈ (gs.foldl (dmapSeedStep costs w h) st).2,
          e.2 = 0 ∧ (gs.foldl (dmapSeedStep costs w h) st).1 e.1 = 0 ∧ InCell w h e.1) ∧
        (∀ i, (gs.foldl (dmapSeedStep costs w h) st).1 i = 0 ∨
          (gs.foldl (dmapSeedStep costs w h) st).1 i = ⊤) ∧
        (∀ i, (gs.foldl (dmapSeedStep costs w h) st).1 i = 0 →
          (i, (0 : CostV)) ∈ (gs.foldl (dmapSeedStep costs w h) st).2) ∧
        (∀ i, (gs.foldl (dmapSeedStep costs w h) st).1 i = 0 ↔
          st.1 i = 0 ∨ i ∈ seededGoals costs w h gs) ∧
        (gs.foldl (dmapSeedStep costs w h) st).2.length ≤ st.2.length + gs.length := by
  intro gs
  induction gs with
  | nil =>
    intro st hq hzt hfr
    refine ⟨hq, hzt, hfr, ?_, by simp⟩
    intro i
    simp [seededGoals]
  | cons q gs ih =>
    intro st hq hzt hfr
    rw [List.foldl_cons]
    by_cases h1 : oob w h q.1 q.2
    · have hstep : dmapSeedStep costs w h st q = st := by
        simp only [dmapSeedStep]
        rw [if_pos h1]
      rw [hstep]
      obtain ⟨p1, p2, p3, p4, p5⟩ := ih st hq hzt hfr
      refine ⟨p1, p2, p3, ?_, by simp only [List.length_cons]; omega⟩
      intro i
      rw [p4 i]
      have hsg : seededGoals costs w h (q :: gs) = seededGoals costs w h gs := by
        simp only [seededGoals, List.filterMap_cons]
        rw [if_pos h1]
      rw [hsg]
    · by_cases h2 : 0 < cost0 costs (toIdx w q.1 q.2)
      · have hstep : dmapSeedStep costs w h st q =
            (Function.update st.1 (toIdx w q.1 q.2) (0 : CostV),
              (toIdx w q.1 q.2, (0 : CostV)) :: st.2) := by
          simp only [dmapSeedStep]
          rw [if_neg h1, if_pos h2]
          rfl
        rw [hstep]
        have hq2 : ∀ e ∈ ((toIdx w q.1 q.2, (0 : CostV)) :: st.2),
            e.2 = 0 ∧ Function.update st.1 (toIdx w q.1 q.2) (0 : CostV) e.1 = 0 ∧
              InCell w h e.1 := by
          intro e he
          rcases List.mem_cons.mp he with rfl | hold
          · refine ⟨rfl, ?_, toIdx_inCell h1⟩
            dsimp only
            rw [Function.update_same]
          · have hold2 := hq e hold
            refine ⟨hold2.1, ?_, hold2.2.2⟩
            by_cases hieq : e.1 = toIdx w q.1 q.2
            · rw [hieq, Function.update_same]
            · rw [Function.update_noteq hieq]
              exact hold2.2.1
        have hzt2 : ∀ i, Function.update st.1 (toIdx w q.1 q.2) (0 : CostV) i = 0 ∨
            Function.update st.1 (toIdx w q.1 q.2) (0 : CostV) i = ⊤ := by
          intro i
          by_cases hieq : i = toIdx w q.1 q.2
          · rw [hieq, Function.update_same]
            exact Or.inl rfl
          · rw [Function.update_noteq hieq]
            exact hzt i
        have hfr2 : ∀ i, Function.update st.1 (toIdx w q.1 q.2) (0 : CostV) i = 0 →
            (i, (0 : CostV)) ∈ ((toIdx w q.1 q.2, (0 : CostV)) :: st.2) := by
          intro i hi
          by_cases hieq : i = toIdx w q.1 q.2
          · rw [hieq]
            exact List.mem_cons_self _ _
          · rw [Function.update_noteq hieq] at hi
            exact List.mem_cons_of_mem _ (hfr i hi)
        obtain ⟨p1, p2, p3, p4, p5⟩ :=
          ih (Function.update st.1 (toIdx w q.1 q.2) (0 : CostV),
            (toIdx w q.1 q.2, (0 : CostV)) :: st.2) hq2 hzt2 hfr2
        refine ⟨p1, p2, p3, ?_, by simp only [List.length_cons] at p5 ⊢; omega⟩
        intro i
        rw [p4 i]
        dsimp only
        have hsg : seededGoals costs w h (q :: gs) =
            toIdx w q.1 q.2 :: seededGoals costs w h gs := by
          simp only [seededGoals, List.filterMap_cons]
          rw [if_neg h1, if_pos h2]
        rw [hsg]
        constructor
        · intro hcase
          rcases hcase with hupd | hmem
          · by_cases hieq : i = toIdx w q.1 q.2
            · exact Or.inr (hieq ▸ List.mem_cons_self _ _)
            · rw [Function.update_noteq hieq] at hupd
              exact Or.inl hupd
          · exact Or.inr (List.mem_cons_of_mem _ hmem)
        · intro hcase
          rcases hcase with hst0 | hmem
          · by_cases hieq : i = toIdx w q.1 q.2
            · left
              rw [hieq, Function.update_same]
            · left
              rw [Function.update_noteq hieq]
              exact hst0
          · rcases List.mem_cons.mp hmem with rfl | htail
            · left
              rw [Function.update_same]
            · exact Or.inr htail
      · have hstep : dmapSeedStep costs w h st q = st := by
          simp only [dmapSeedStep]
          rw [if_neg h1, if_neg h2]
        rw [hstep]
        obtain ⟨p1, p2, p3, p4, p5⟩ := ih st hq hzt hfr
        refine ⟨p1, p2, p3, ?_, by simp only [List.length_cons]; omega⟩
        intro i
        rw [p4 i]
        have hsg : seededGoals costs w h (q :: gs) = seededGoals costs w h gs := by
          simp only [seededGoals, List.filterMap_cons]
          rw [if_neg h1, if_neg h2]
        rw [hsg]

theorem dmapSeed_inv (costs : List ℚ) (w h : Int) (goals : List (Int × Int)) :
    MapInv costs w h (seededGoals costs w h goals) ∅ (dmapSeed costs w h goals) ∧
      (dmapSeed costs w h goals).2.length ≤ goals.length := by
  have hinit1 : ∀ e ∈ (([] : List (Nat × CostV))),
      e.2 = 0 ∧ (fun _ : Nat => (⊤ : CostV)) e.1 = 0 ∧ InCell w h e.1 := by
    intro e he
    exact absurd he (List.not_mem_nil e)
  have hinit2 : ∀ i : Nat, (fun _ : Nat => (⊤ : CostV)) i = 0 ∨
      (fun _ : Nat => (⊤ : CostV)) i = ⊤ := fun i => Or.inr rfl
  have hinit3 : ∀ i : Nat, (fun _ : Nat => (⊤ : CostV)) i = 0 →
      (i, (0 : CostV)) ∈ ([] : List (Nat × CostV)) := by
    intro i hi
    exact absurd hi (by simp)
  obtain ⟨p1, p2, p3, p4, p5⟩ :=
    dmapSeed_props costs w h goals ((fun _ => (⊤ : CostV)), []) hinit1 hinit2 hinit3
  have htopne : ∀ i, (fun _ : Nat => (⊤ : CostV)) i = 0 ↔ False := by
    intro i
    simp only [iff_false]
    intro hi
    exact Option.noConfusion hi
  unfold dmapSeed
  have hiff : ∀ i,
      (goals.foldl (dmapSeedStep costs w h) ((fun _ => (⊤ : CostV)), [])).1 i = 0 ↔
        i ∈ seededGoals costs w h goals := by
    intro i
    rw [p4 i]
    simp only [htopne i, false_or]
  constructor
  · refine ⟨?_, ?_, ?_, ?_, ?_, ?_, ?_, ?_⟩
    · intro e he
      have hp := p1 e he
      refine ⟨le_of_eq (hp.2.1.trans hp.1.symm), ?_, hp.2.2⟩
      rw [hp.1]
      exact WithTop.coe_lt_top 0
    · intro v hv
      exact absurd hv (Finset.not_mem_empty v)
    · exact Finset.empty_subset _
    · intro v hv
      exact absurd hv (Finset.not_mem_empty v)
    · intro gl hgl
      exact (hiff gl).mpr hgl
    · intro i
      rcases p2 i with h0 | htop
      · rw [h0]
      · rw [htop]
        exact le_top
    · intro i hfin
      have hi0 : (goals.foldl (dmapSeedStep costs w h) ((fun _ => (⊤ : CostV)), [])).1 i = 0 := by
        rcases p2 i with h0 | htop
        · exact h0
        · rw [htop] at hfin
          exact absurd hfin (lt_irrefl ⊤)
      have hiS : i ∈ seededGoals costs w h goals := (hiff i).mp hi0
      have hpass : passable costs i := (seededGoals_mem hiS).2
      refine ⟨[i], i, hiS, ⟨rfl, rfl, List.chain'_singleton i, ?_⟩, ?_⟩
      · intro x hx
        rcases List.mem_singleton.mp hx with rfl
        exact hpass
      · rw [hi0]
        rfl
    · intro v hfin hvT
      have hv0 : (goals.foldl (dmapSeedStep costs w h) ((fun _ => (⊤ : CostV)), [])).1 v = 0 := by
        rcases p2 v with h0 | htop
        · exact h0
        · rw [htop] at hfin
          exact absurd hfin (lt_irrefl ⊤)
      rw [hv0]
      exact p3 v hv0
  · simpa using p5

theorem mapStable_path_bound {costs : List ℚ} {w h : Int} {S : List Nat}
    {g : Nat → CostV}
    (hstab : ∀ v u, adjStep w h dirs4 v u → passable costs u →
      g u ≤ g v + ((cost0 costs u : ℚ) : CostV))
    (hS : ∀ x ∈ S, g x = 0) :
    ∀ (p : List Nat) (i t : Nat), InCell w h i → t ∈ S → ValidPath costs w h i t p →
      g i ≤ ((mapPathCost costs p : ℚ) : CostV) := by
  intro p
  induction p with
  | nil =>
    intro i t hic htS hvp
    exact absurd hvp.1 (by simp)
  | cons a p2 ih =>
    intro i t hic htS hvp
    obtain ⟨hhead, hlast, hchain, hpass⟩ := hvp
    have hai : a = i := by simpa using hhead
    subst hai
    cases p2 with
    | nil =>
      have hat : a = t := by simpa using hlast
      have hz : g a = 0 := hat ▸ hS t htS
      rw [hz]
      have hc : mapPathCost costs [a] = 0 := rfl
      rw [hc]
      rw [WithTop.coe_zero]
    | cons b p3 =>
      have hstep : adjStep w h dirs4 a b := (List.chain'_cons.mp hchain).1
      have hchain2 := (List.chain'_cons.mp hchain).2
      have hvp2 : ValidPath costs w h b t (b :: p3) :=
        ⟨rfl, by simpa using hlast, hchain2, fun x hx => hpass x (List.mem_cons_of_mem _ hx)⟩
      have hIH := ih b t (adjStep_inCell hstep) htS hvp2
      have hsym : adjStep w h dirs4 b a := adjStep_symm hic hstep
      have hpa : passable costs a := hpass a (List.mem_cons_self _ _)
      have hedge := hstab b a hsym hpa
      calc g a ≤ g b + ((cost0 costs a : ℚ) : CostV) := hedge
        _ ≤ ((mapPathCost costs (b :: p3) : ℚ) : CostV) + ((cost0 costs a : ℚ) : CostV) :=
          add_le_add_right hIH _
        _ = ((mapPathCost costs (a :: b :: p3) : ℚ) : CostV) := by
          rw [← WithTop.coe_add]
          have hsum : mapPathCost costs (a :: b :: p3) =
              cost0 costs a + mapPathCost costs (b :: p3) := rfl
          rw [hsum, add_comm]

/-- C3, corrected: the claim as stated fails (a blocked or out-of-bounds
goal is never seeded, and its cell keeps distance `∞`, not `0`); for the
goals `dijkstra_map` actually seeds — the in-bounds ones of positive cost —
the returned field is `0` at every seeded goal, is a lower bound on the
accumulated cost of every 4-connected walk over passable cells from a grid
cell to a seeded goal, and every finite entry is attained by such a walk,
so unreachable cells and only those read `∞`. -/
theorem claim_C3 (costs : List ℚ) (w h : Int) (goals : List (Int × Int)) :
    (∀ g ∈ seededGoals costs w h goals, (dijkstra_map costs w h goals).getD g ⊤ = 0) ∧
      (∀ i p g, InCell w h i → g ∈ seededGoals costs w h goals →
        ValidPath costs w h i g p →
        (dijkstra_map costs w h goals).getD i ⊤ ≤ ((mapPathCost costs p : ℚ) : CostV)) ∧
      (∀ i, i < sizeN w h → (dijkstra_map costs w h goals).getD i ⊤ ≠ ⊤ →
        ∃ p g, g ∈ seededGoals costs w h goals ∧ ValidPath costs w h i g p ∧
          ((mapPathCost costs p : ℚ) : CostV) = (dijkstra_map costs w h goals).getD i ⊤) := by
  obtain ⟨hInv0, hlen0⟩ := dmapSeed_inv costs w h goals
  have hphi : mapPhi (sizeN w h) ∅ (dmapSeed costs w h goals).2 < dmapFuel w h goals := by
    simp only [mapPhi, dmapFuel, Finset.sdiff_empty, Finset.card_range]
    omega
  obtain ⟨T, hInv⟩ :=
    dmapLoop_run costs w h (seededGoals costs w h goals) (dmapFuel w h goals)
      (dmapSeed costs w h goals) ∅ hInv0 hphi
  obtain ⟨ha, hb, hc, hd, he, hf, hg, hh⟩ := hInv
  have hstab : ∀ v u, adjStep w h dirs4 v u → passable costs u →
      dmapLoop costs w h (dmapFuel w h goals) (dmapSeed costs w h goals) u ≤
        dmapLoop costs w h (dmapFuel w h goals) (dmapSeed costs w h goals) v +
          ((cost0 costs u : ℚ) : CostV) := by
    intro v u hadj hpass
    by_cases hvfin :
        dmapLoop costs w h (dmapFuel w h goals) (dmapSeed costs w h goals) v = ⊤
    · rw [hvfin, WithTop.top_add]
      exact le_top
    · have hvT : v ∈ T := by
        by_contra hvT
        have := hh v (lt_top_iff_ne_top.mpr hvfin) hvT
        exact absurd this (List.not_mem_nil _)
      exact hb v hvT u hadj hpass
  refine ⟨?_, ?_, ?_⟩
  · intro gl hgl
    have hlt : gl < sizeN w h := inCell_lt_size (seededGoals_mem hgl).1
    rw [dijkstra_map_getD costs w h goals hlt]
    exact he gl hgl
  · intro i p gl hic hgl hvp
    have hlt : i < sizeN w h := inCell_lt_size hic
    rw [dijkstra_map_getD costs w h goals hlt]
    exact mapStable_path_bound hstab he p i gl hic hgl hvp
  · intro i hlt hne
    rw [dijkstra_map_getD costs w h goals hlt] at hne ⊢
    exact hg i (lt_top_iff_ne_top.mpr hne)

/-- Witness for C3 at a concrete input: the free 2×1 strip with the single
goal `(0,0)`. -/
theorem claim_C3_witness :
    ((dijkstra_map [1, 1] 2 1 [(0, 0)]).getD 0 ⊤ = 0) ∧
      ((dijkstra_map [1, 1] 2 1 [(0, 0)]).getD 1 ⊤ ≤
        ((mapPathCost [1, 1] [1, 0] : ℚ) : CostV)) ∧
      (∃ p g, g ∈ seededGoals [1, 1] 2 1 [(0, 0)] ∧ ValidPath [1, 1] 2 1 1 g p ∧
        ((mapPathCost [1, 1] p : ℚ) : CostV) = (dijkstra_map [1, 1] 2 1 [(0, 0)]).getD 1 ⊤) :=
  ⟨(claim_C3 [1, 1] 2 1 [(0, 0)]).1 0 (by with_unfolding_all decide),
    (claim_C3 [1, 1] 2 1 [(0, 0)]).2.1 1 [1, 0] 0 (by with_unfolding_all decide)
      (by with_unfolding_all decide)
      ⟨rfl, rfl,
        List.chain'_cons.mpr
          ⟨⟨(-1, 0), by decide, by decide, by decide⟩, List.chain'_singleton 0⟩,
        by intro x hx; fin_cases hx <;> with_unfolding_all decide⟩,
    (claim_C3 [1, 1] 2 1 [(0, 0)]).2.2 1 (by decide) (by with_unfolding_all decide)⟩

/-! ## Claim C2: A* with unit costs matches Dijkstra -/

theorem manh_nonneg (w gx gy : Int) (i : Nat) : 0 ≤ manh w gx gy i := by
  simp only [manh, heuristic, Bool.false_eq_true, if_false]
  exact_mod_cast Nat.zero_le _

theorem manh_goal_zero {w h gx gy : Int} (hg : ¬oob w h gx gy) :
    manh w gx gy (toIdx w gx gy) = 0 := by
  simp only [manh, heuristic, Bool.false_eq_true, if_false]
  rw [cellX_toIdx w h gx gy hg, cellY_toIdx w h gx gy hg]
  simp

theorem manh_consistent {w h gx gy : Int} {a b : Nat}
    (hab : adjStep w h dirs4 a b) : manh w gx gy a ≤ manh w gx gy b + 1 := by
  obtain ⟨d, hd, hnb, rfl⟩ := hab
  simp only [manh, heuristic, Bool.false_eq_true, if_false]
  rw [cellX_toIdx w h _ _ hnb, cellY_toIdx w h _ _ hnb]
  have hN : (gx - cellX w a).natAbs + (gy - cellY w a).natAbs ≤
      (gx - (cellX w a + d.1)).natAbs + (gy - (cellY w a + d.2)).natAbs + 1 := by
    fin_cases hd <;> simp <;> omega
  exact_mod_cast hN

theorem sum_map_unit (costs : List ℚ) :
    ∀ l : List Nat, (∀ x ∈ l, cost0 costs x = 1) →
      (l.map (cost0 costs)).sum = (l.length : ℚ) := by
  intro l
  induction l with
  | nil => intro hx; simp
  | cons a l ih =>
    intro hx
    rw [List.map_cons, List.sum_cons, hx a (List.mem_cons_self _ _),
      ih (fun x hxl => hx x (List.mem_cons_of_mem _ hxl)), List.length_cons]
    push_cast
    ring

theorem validPath_inCell {costs : List ℚ} {w h : Int} :
    ∀ {p : List Nat} {s t : Nat}, InCell w h s → ValidPath costs w h s t p →
      ∀ x ∈ p, InCell w h x := by
  intro p
  induction p with
  | nil =>
    intro s t hs hvp x hx
    exact absurd hx (List.not_mem_nil x)
  | cons a p2 ih =>
    intro s t hs hvp x hx
    obtain ⟨hhead, hlast, hchain, hpass⟩ := hvp
    have has : a = s := by simpa using hhead
    rcases List.mem_cons.mp hx with rfl | hx2
    · exact has ▸ hs
    · cases p2 with
      | nil => exact absurd hx2 (List.not_mem_nil x)
      | cons b p3 =>
        have hstep : adjStep w h dirs4 a b := (List.chain'_cons.mp hchain).1
        exact ih (adjStep_inCell hstep)
          ⟨rfl, by simpa using hlast, (List.chain'_cons.mp hchain).2,
            fun y hy => hpass y (List.mem_cons_of_mem _ hy)⟩ x hx2

theorem pathCost_unit {costs : List ℚ} {w h : Int} {s t : Nat} {p : List Nat}
    (hunit : ∀ i, i < sizeN w h → cost0 costs i ≤ 0 ∨ cost0 costs i = 1)
    (hs : InCell w h s) (hvp : ValidPath costs w h s t p) :
    pathCost costs p = ((p.length - 1 : ℕ) : ℚ) := by
  have hcells := validPath_inCell hs hvp
  unfold pathCost
  rw [sum_map_unit costs p.tail, List.length_tail]
  intro x hx
  have hxp : x ∈ p := List.mem_of_mem_tail hx
  rcases hunit x (inCell_lt_size (hcells x hxp)) with hle | h1
  · exact absurd (hvp.2.2.2 x hxp) (not_lt.mpr hle)
  · exact h1

theorem costv_cancel_right {a b : CostV} {c : ℚ}
    (hab : a + ((c : ℚ) : CostV) ≤ b + ((c : ℚ) : CostV)) : a ≤ b := by
  cases b using WithTop.recTopCoe with
  | top => exact le_top
  | coe q =>
    cases a using WithTop.recTopCoe with
    | top =>
      exfalso
      rw [WithTop.top_add, ← WithTop.coe_add] at hab
      exact absurd (top_le_iff.mp hab) WithTop.coe_ne_top
    | coe r =>
      rw [← WithTop.coe_add, ← WithTop.coe_add] at hab
      have h2 : r + c ≤ q + c := WithTop.coe_le_coe.mp hab
      exact WithTop.coe_le_coe.mpr (by linarith)

theorem costv_fin_of_add_le {a b : CostV} {c : ℚ}
    (h : a + ((c : ℚ) : CostV) ≤ b) (hb : b < ⊤) : a < ⊤ := by
  cases a using WithTop.recTopCoe with
  | top =>
    exfalso
    rw [WithTop.top_add] at h
    exact absurd (lt_of_le_of_lt h hb) (lt_irrefl ⊤)
  | coe q => exact WithTop.coe_lt_top q

theorem hcons_path {costs : List ℚ} {w h : Int} {hfun : Nat → ℚ}
    (hcons : ∀ a b, adjStep w h dirs4 a b → hfun a ≤ hfun b + 1) :
    ∀ (p : List Nat) (a t : Nat), ValidPath costs w h a t p →
      hfun a ≤ ((p.length - 1 : ℕ) : ℚ) + hfun t := by
  intro p
  induction p with
  | nil =>
    intro a t hvp
    exact absurd hvp.1 (by simp)
  | cons x p2 ih =>
    intro a t hvp
    obtain ⟨hhead, hlast, hchain, hpass⟩ := hvp
    have hax : x = a := by simpa using hhead
    subst a
    cases p2 with
    | nil =>
      have hxt : x = t := by simpa using hlast
      rw [hxt]
      simp
    | cons b p3 =>
      have hstep : adjStep w h dirs4 x b := (List.chain'_cons.mp hchain).1
      have hIH := ih b t
        ⟨rfl, by simpa using hlast, (List.chain'_cons.mp hchain).2,
          fun y hy => hpass y (List.mem_cons_of_mem _ hy)⟩
      have hone := hcons x b hstep
      have hlen2 : (((b :: p3).length - 1 : ℕ) : ℚ) = (p3.length : ℚ) := by
        simp
      have hlen1 : (((x :: b :: p3).length - 1 : ℕ) : ℚ) = (p3.length : ℚ) + 1 := by
        simp only [List.length_cons]
        push_cast
        ring
      rw [hlen1]
      rw [hlen2] at hIH
      linarith

theorem settled_cut {costs : List ℚ} {w h : Int} {hfun : Nat → ℚ} {g : Nat → CostV}
    {T : Finset Nat}
    (hstab : ∀ v ∈ T, ∀ u, adjStep w h dirs4 v u → passable costs u →
      g u ≤ g v + ((cost0 costs u : ℚ) : CostV))
    (hunit : ∀ i, i < sizeN w h → cost0 costs i ≤ 0 ∨ cost0 costs i = 1)
    (hcons : ∀ a b, adjStep w h dirs4 a b → hfun a ≤ hfun b + 1) :
    ∀ (p : List Nat) (a t : Nat), ValidPath costs w h a t p →
      g t ≤ g a + (((p.length - 1 : ℕ) : ℚ) : CostV) ∨
        ∃ u, u ∉ T ∧ g u + ((hfun u : ℚ) : CostV) ≤
          g a + (((p.length - 1 : ℕ) : ℚ) : CostV) + ((hfun t : ℚ) : CostV) := by
  intro p
  induction p with
  | nil =>
    intro a t hvp
    exact absurd hvp.1 (by simp)
  | cons x p2 ih =>
    intro a t hvp
    obtain ⟨hhead, hlast, hchain, hpass⟩ := hvp
    have hax : x = a := by simpa using hhead
    subst a
    cases p2 with
    | nil =>
      left
      have hxt : x = t := by simpa using hlast
      rw [← hxt]
      simp
    | cons b p3 =>
      have hstep : adjStep w h dirs4 x b := (List.chain'_cons.mp hchain).1
      have hvp2 : ValidPath costs w h b t (b :: p3) :=
        ⟨rfl, by simpa using hlast, (List.chain'_cons.mp hchain).2,
          fun y hy => hpass y (List.mem_cons_of_mem _ hy)⟩
      have hlen2 : (((b :: p3).length - 1 : ℕ) : ℚ) = (p3.length : ℚ) := by simp
      have hlen1 : (((x :: b :: p3).length - 1 : ℕ) : ℚ) = (p3.length : ℚ) + 1 := by
        simp only [List.length_cons]
        push_cast
        ring
      by_cases hxT : x ∈ T
      · have hpb : passable costs b := hvp2.2.2.2 b (List.mem_cons_self _ _)
        have hb1 : cost0 costs b = 1 := by
          rcases hunit b (inCell_lt_size (adjStep_inCell hstep)) with hle | h1
          · exact absurd hpb (not_lt.mpr hle)
          · exact h1
        have hedge : g b ≤ g x + ((1 : ℚ) : CostV) := by
          have hsb := hstab x hxT b hstep hpb
          rwa [hb1] at hsb
        have hsplit : g x + (((p3.length : ℚ) + 1 : ℚ) : CostV) =
            (g x + ((1 : ℚ) : CostV)) + (((p3.length : ℚ) : ℚ) : CostV) := by
          rw [add_assoc, ← WithTop.coe_add]
          rw [add_comm (1 : ℚ) _]
        rcases ih b t hvp2 with hcase | ⟨u, huT, hub⟩
        · left
          rw [hlen1, hsplit]
          rw [hlen2] at hcase
          calc g t ≤ g b + (((p3.length : ℚ) : ℚ) : CostV) := hcase
            _ ≤ (g x + ((1 : ℚ) : CostV)) + (((p3.length : ℚ) : ℚ) : CostV) :=
              add_le_add_right hedge _
        · right
          refine ⟨u, huT, ?_⟩
          rw [hlen1, hsplit]
          rw [hlen2] at hub
          calc g u + ((hfun u : ℚ) : CostV) ≤
              g b + (((p3.length : ℚ) : ℚ) : CostV) + ((hfun t : ℚ) : CostV) := hub
            _ ≤ (g x + ((1 : ℚ) : CostV)) + (((p3.length : ℚ) : ℚ) : CostV) +
                ((hfun t : ℚ) : CostV) :=
              add_le_add_right (add_le_add_right hedge _) _
      · right
        refine ⟨x, hxT, ?_⟩
        have hcp := hcons_path hcons (x :: b :: p3) x t ⟨hhead, hlast, hchain, hpass⟩
        rw [hlen1] at hcp ⊢
        have hqle : (hfun x : ℚ) ≤ ((p3.length : ℚ) + 1) + hfun t := hcp
        calc g x + ((hfun x : ℚ) : CostV) ≤
            g x + ((((p3.length : ℚ) + 1) + hfun t : ℚ) : CostV) :=
          add_le_add_left (WithTop.coe_le_coe.mpr hqle) _
          _ = g x + ((((p3.length : ℚ) + 1 : ℚ)) : CostV) + ((hfun t : ℚ) : CostV) := by
            rw [WithTop.coe_add, add_assoc]

theorem popGoal_bound {costs : List ℚ} {w h : Int} {hfun : Nat → ℚ} {start : Nat}
    {T : Finset Nat} {st : AState} {e : Nat × CostV} {rest : List (Nat × CostV)}
    (hinv : GInv costs w h hfun start T st)
    (hunit : ∀ i, i < sizeN w h → cost0 costs i ≤ 0 ∨ cost0 costs i = 1)
    (hcons : ∀ a b, adjStep w h dirs4 a b → hfun a ≤ hfun b + 1)
    (hnn : ∀ i, 0 ≤ hfun i)
    (hpop : popMin st.frontier = some (e, rest)) (hze : hfun e.1 = 0) :
    ∀ (t2 : Nat) (p : List Nat), hfun t2 = 0 → t2 ∉ T →
      ValidPath costs w h start t2 p →
      st.g e.1 ≤ (((p.length - 1 : ℕ) : ℚ) : CostV) := by
  intro t2 p hz2 ht2 hvp
  obtain ⟨ha, hb, hc, hd, he0, hf, hfr, hcm, hns⟩ := hinv
  have hge : st.g e.1 ≤ e.2 := by
    have hq := (ha e (popMin_mem hpop)).1
    rwa [hze, WithTop.coe_zero, add_zero] at hq
  have hmin := popMin_min hpop
  rcases settled_cut hb hunit hcons p start t2 hvp with hcase | ⟨u, huT, hub⟩
  · rw [he0, zero_add] at hcase
    have hfin : st.g t2 < ⊤ := lt_of_le_of_lt hcase (WithTop.coe_lt_top _)
    have hent := hfr t2 hfin ht2
    have hle : e.2 ≤ st.g t2 + ((hfun t2 : ℚ) : CostV) := hmin _ hent
    rw [hz2, WithTop.coe_zero, add_zero] at hle
    exact le_trans hge (le_trans hle hcase)
  · rw [he0, zero_add, hz2, WithTop.coe_zero, add_zero] at hub
    have hufin : st.g u < ⊤ := by
      have hself : st.g u ≤ st.g u + ((hfun u : ℚ) : CostV) :=
        le_add_of_nonneg_right
          (by rw [← WithTop.coe_zero]; exact WithTop.coe_le_coe.mpr (hnn u))
      exact lt_of_le_of_lt (le_trans hself hub) (WithTop.coe_lt_top _)
    have hent := hfr u hufin huT
    have hle : e.2 ≤ st.g u + ((hfun u : ℚ) : CostV) := hmin _ hent
    exact le_trans hge (le_trans hle hub)

theorem pathCost_reverse (costs : List ℚ) (l : List Nat) :
    pathCost costs l.reverse = mapPathCost costs l := by
  unfold pathCost mapPathCost
  rw [List.tail_reverse, List.map_reverse, List.sum_reverse]

theorem walkBack_exact {costs : List ℚ} {w h : Int} {size start : Nat} {g : Nat → CostV}
    {came : Nat → Option Nat}
    (hcame : ∀ i j, came i = some j → adjStep w h dirs4 j i ∧ passable costs i ∧
      g i = g j + ((cost0 costs i : ℚ) : CostV) ∧ g i < ⊤ ∧ j < size ∧ i < size)
    (hnone : ∀ i, came i = none → g i < ⊤ → i = start)
    (hg0 : g start = 0) (hps : passable costs start) (hnn : ∀ i, 0 ≤ g i) :
    ∀ (n cur : Nat), g cur < ⊤ → gMeasure size g cur < n →
      walkBack came start n (some cur) ≠ [] ∧
        (walkBack came start n (some cur)).head? = some cur ∧
        (walkBack came start n (some cur)).getLast? = some start ∧
        List.Chain' (fun a b => came a = some b) (walkBack came start n (some cur)) ∧
        (∀ x ∈ walkBack came start n (some cur), passable costs x) ∧
        ((mapPathCost costs (walkBack came start n (some cur)) : ℚ) : CostV) = g cur := by
  intro n
  induction n with
  | zero =>
    intro cur hfin hm
    omega
  | succ n ih =>
    intro cur hfin hm
    by_cases hcs : cur = start
    · have hwb1 : walkBack came start (n + 1) (some cur) = [start] := by
        simp [walkBack, hcs]
      rw [hwb1]
      refine ⟨List.cons_ne_nil _ _, by simp [hcs], rfl, List.chain'_singleton _, ?_, ?_⟩
      · intro x hx
        rcases List.mem_singleton.mp hx with rfl
        exact hps
      · rw [show mapPathCost costs [start] = 0 from rfl, hcs, hg0]
        rfl
    · cases hc : came cur with
      | none => exact absurd (hnone cur hc hfin) hcs
      | some j =>
        obtain ⟨hadj, hpc, hgex, hgi, hjs, his⟩ := hcame cur j hc
        have hcpos : 0 < cost0 costs cur := hpc
        have hjfin : g j < ⊤ := by
          refine costv_fin_of_add_le (le_of_eq hgex.symm) hfin
        have hgj : g j < g cur := by
          rw [hgex]
          exact costv_lt_add (lt_top_iff_ne_top.mp hjfin) hcpos
        have hmj : gMeasure size g j < n :=
          lt_of_lt_of_le (gMeasure_lt hjs hgj) (Nat.lt_succ_iff.mp hm)
        obtain ⟨hne, hhead, hlast, hchain, hpassall, hcost⟩ := ih j hjfin hmj
        have hwb : walkBack came start (n + 1) (some cur) =
            cur :: walkBack came start n (came cur) := by
          simp [walkBack, if_neg hcs]
        rw [hc] at hwb
        obtain ⟨x, l, hxl⟩ := List.exists_cons_of_ne_nil hne
        have hx : x = j := by
          rw [hxl] at hhead
          exact Option.some.inj hhead
        subst x
        rw [hwb, hxl]
        refine ⟨List.cons_ne_nil _ _, rfl, ?_, ?_, ?_, ?_⟩
        · rw [List.getLast?_cons_cons]
          rw [hxl] at hlast
          exact hlast
        · rw [List.chain'_cons]
          rw [hxl] at hchain
          exact ⟨hc, hchain⟩
        · intro y hy
          rcases List.mem_cons.mp hy with rfl | hy2
          · exact hpc
          · rw [hxl] at hpassall
            exact hpassall y hy2
        · have hsum : mapPathCost costs (cur :: j :: l) =
              cost0 costs cur + mapPathCost costs (j :: l) := rfl
          rw [hsum, WithTop.coe_add]
          rw [hxl] at hcost
          rw [hcost, hgex, add_comm]

theorem reconstruct_exact {costs : List ℚ} {w h : Int} {start : Nat} {g : Nat → CostV}
    {came : Nat → Option Nat}
    (hcame : ∀ i j, came i = some j → adjStep w h dirs4 j i ∧ passable costs i ∧
      g i = g j + ((cost0 costs i : ℚ) : CostV) ∧ g i < ⊤ ∧ j < sizeN w h ∧ i < sizeN w h)
    (hnone : ∀ i, came i = none → g i < ⊤ → i = start)
    (hg0 : g start = 0) (hps : passable costs start) (hnn : ∀ i, 0 ≤ g i) (goal : Nat)
    (hfin : g goal < ⊤) :
    ValidPath costs w h start goal (reconstruct_path came start goal (sizeN w h + 1)) ∧
      ((pathCost costs (reconstruct_path came start goal (sizeN w h + 1)) : ℚ) : CostV) =
        g goal := by
  obtain ⟨hne, hhead, hlast, hchain, hpassall, hcost⟩ :=
    walkBack_exact hcame hnone hg0 hps hnn (sizeN w h + 1) goal hfin
      (Nat.lt_succ_iff.mpr (gMeasure_le_size (sizeN w h) g goal))
  unfold reconstruct_path
  refine ⟨⟨?_, ?_, ?_, ?_⟩, ?_⟩
  · rw [List.head?_reverse]
    exact hlast
  · rw [List.getLast?_reverse]
    exact hhead
  · rw [List.chain'_reverse]
    apply List.Chain'.imp _ hchain
    intro a b hab
    exact (hcame a b hab).1
  · intro x hx
    exact hpassall x (List.mem_reverse.mp hx)
  · rw [pathCost_reverse]
    exact hcost

theorem dijkstraRelax_cases (costs : List ℚ) (w h : Int) (cur : Nat) (st : AState)
    (d : Int × Int) :
    (dijkstraRelax costs w h cur st d = st ∧
        (oob w h (cellX w cur + d.1) (cellY w cur + d.2) ∨
          cost0 costs (toIdx w (cellX w cur + d.1) (cellY w cur + d.2)) ≤ 0 ∨
          st.g (toIdx w (cellX w cur + d.1) (cellY w cur + d.2)) ≤
            st.g cur +
              ((cost0 costs (toIdx w (cellX w cur + d.1) (cellY w cur + d.2)) : ℚ) :
                CostV))) ∨
      ∃ ni : Nat, ∃ c : ℚ,
        ¬oob w h (cellX w cur + d.1) (cellY w cur + d.2) ∧
        ni = toIdx w (cellX w cur + d.1) (cellY w cur + d.2) ∧
        c = cost0 costs ni ∧ 0 < c ∧
        st.g cur + ((c : ℚ) : CostV) < st.g ni ∧
        dijkstraRelax costs w h cur st d =
          ⟨Function.update st.g ni (st.g cur + ((c : ℚ) : CostV)),
            Function.update st.came ni (some cur),
            (ni, st.g cur + ((c : ℚ) : CostV)) :: st.frontier⟩ := by
  simp only [dijkstraRelax]
  by_cases h1 : oob w h (cellX w cur + d.1) (cellY w cur + d.2)
  · rw [if_pos h1]
    exact Or.inl ⟨rfl, Or.inl h1⟩
  · rw [if_neg h1]
    by_cases h2 : cost0 costs (toIdx w (cellX w cur + d.1) (cellY w cur + d.2)) ≤ 0
    · rw [if_pos h2]
      exact Or.inl ⟨rfl, Or.inr (Or.inl h2)⟩
    · rw [if_neg h2]
      by_cases h3 :
          st.g cur +
              ((cost0 costs (toIdx w (cellX w cur + d.1) (cellY w cur + d.2)) : ℚ) : CostV) <
            st.g (toIdx w (cellX w cur + d.1) (cellY w cur + d.2))
      · rw [if_pos h3]
        exact Or.inr ⟨_, _, h1, rfl, rfl, lt_of_not_le h2, h3, rfl⟩
      · rw [if_neg h3]
        exact Or.inl ⟨rfl, Or.inr (Or.inr (not_lt.mp h3))⟩

theorem dijFold_rel (costs : List ℚ) (w h : Int) (cur : Nat) (hcur : InCell w h cur) :
    ∀ (l : List (Int × Int)), (∀ d ∈ l, d ∈ dirs4) → ∀ st : AState,
      SFoldRel costs w h (fun _ => 0) (fun _ => false) cur l st
        (l.foldl (dijkstraRelax costs w h cur) st) := by
  intro l
  induction l with
  | nil =>
    intro hsub st
    exact ⟨fun i => le_refl _, rfl, fun e he => he, fun e he => Or.inl he,
      fun i => Or.inl rfl, by simp,
      fun d hd => absurd hd (List.not_mem_nil d),
      fun i hne => absurd rfl hne, fun i _ => rfl, fun i j hj => Or.inl hj⟩
  | cons d l ih =>
    intro hsub st
    have hdm : d ∈ dirs4 := hsub d (List.mem_cons_self d l)
    have hsub2 : ∀ d0 ∈ l, d0 ∈ dirs4 := fun d0 hd0 => hsub d0 (List.mem_cons_of_mem d hd0)
    rw [List.foldl_cons]
    rcases dijkstraRelax_cases costs w h cur st d with ⟨heq, hreason⟩ | hpush
    · rw [heq]
      obtain ⟨h1, h2, h3, h4, h5, h6, h7, h8, h9, h10⟩ := ih hsub2 st
      refine ⟨h1, h2, h3, h4, h5, by simp only [List.length_cons]; omega, ?_, h8, h9, h10⟩
      intro d0 hd0 hnb hpass hcl
      rcases List.mem_cons.mp hd0 with rfl | hd0l
      · rcases hreason with hoob | hc0 | hle
        · exact absurd hnb (not_not_intro hoob)
        · exact absurd hpass (not_lt.mpr hc0)
        · calc (l.foldl (dijkstraRelax costs w h cur) st).g
                (toIdx w (cellX w cur + d0.1) (cellY w cur + d0.2)) ≤
              st.g (toIdx w (cellX w cur + d0.1) (cellY w cur + d0.2)) := h1 _
            _ ≤ st.g cur +
                ((cost0 costs (toIdx w (cellX w cur + d0.1) (cellY w cur + d0.2)) : ℚ) :
                  CostV) := hle
            _ = (l.foldl (dijkstraRelax costs w h cur) st).g cur +
                ((cost0 costs (toIdx w (cellX w cur + d0.1) (cellY w cur + d0.2)) : ℚ) :
                  CostV) := by rw [h2]
      · exact h7 d0 hd0l hnb hpass hcl
    · obtain ⟨ni, c, hnb, hni, hcdef, hcpos, hlt, heq⟩ := hpush
      rw [heq]
      have hcurfin : st.g cur ≠ ⊤ := by
        intro htop
        rw [htop, WithTop.top_add] at hlt
        exact not_top_lt hlt
      have hnifin : st.g cur + ((c : ℚ) : CostV) ≠ ⊤ := by
        intro htop
        rw [htop] at hlt
        exact not_top_lt hlt
      have hninecur : ni ≠ cur := hni ▸ relaxTarget_ne hdm hnb
      have hadjni : adjStep w h dirs4 cur ni := ⟨d, hdm, hnb, hni⟩
      have hpassni : passable costs ni := by
        unfold passable
        rw [← hcdef]
        exact hcpos
      set nd : CostV := st.g cur + ((c : ℚ) : CostV) with hnd
      set st1 : AState := ⟨Function.update st.g ni nd,
        Function.update st.came ni (some cur), (ni, nd) :: st.frontier⟩ with hst1
      have hst1g : ∀ i, st1.g i ≤ st.g i := by
        intro i
        by_cases hieq : i = ni
        · subst hieq
          rw [hst1]
          dsimp only
          rw [Function.update_same]
          exact le_of_lt hlt
        · rw [hst1]
          dsimp only
          rw [Function.update_noteq hieq]
      have hst1cur : st1.g cur = st.g cur := by
        rw [hst1]
        dsimp only
        rw [Function.update_noteq (fun hEq => hninecur hEq.symm)]
      have hst1ni : st1.g ni = nd := by
        rw [hst1]
        dsimp only
        rw [Function.update_same]
      have hst1cni : st1.came ni = some cur := by
        rw [hst1]
        dsimp only
        rw [Function.update_same]
      have hst1cne : ∀ i, i ≠ ni → st1.came i = st.came i := by
        intro i hieq
        rw [hst1]
        dsimp only
        rw [Function.update_noteq hieq]
      have hst1gne : ∀ i, i ≠ ni → st1.g i = st.g i := by
        intro i hieq
        rw [hst1]
        dsimp only
        rw [Function.update_noteq hieq]
      have hsubq : ∀ e ∈ st.frontier, e ∈ st1.frontier := by
        intro e he
        rw [hst1]
        exact List.mem_cons_of_mem _ he
      have hmemq : (ni, nd) ∈ st1.frontier := by
        rw [hst1]
        exact List.mem_cons_self _ _
      obtain ⟨h1, h2, h3, h4, h5, h6, h7, h8, h9, h10⟩ := ih hsub2 st1
      refine ⟨?_, ?_, ?_, ?_, ?_, ?_, ?_, ?_, ?_, ?_⟩
      · intro i
        exact le_trans (h1 i) (hst1g i)
      · rw [h2, hst1cur]
      · intro e he
        exact h3 e (hsubq e he)
      · intro e he
        rcases h4 e he with hein | hnew
        · rw [hst1] at hein
          rcases List.mem_cons.mp hein with rfl | hold
          · refine Or.inr ⟨?_, ?_, ?_, ?_, ?_, ?_⟩
            · dsimp only
              rw [WithTop.coe_zero, add_zero]
              calc (l.foldl (dijkstraRelax costs w h cur) st1).g ni ≤ st1.g ni := h1 ni
                _ = nd := hst1ni
            · dsimp only
              rw [WithTop.coe_zero, add_zero, hnd]
              exact le_add_of_nonneg_right
                (by rw [← WithTop.coe_zero]
                    exact WithTop.coe_le_coe.mpr (le_of_lt hcpos))
            · exact lt_top_iff_ne_top.mpr hnifin
            · exact adjStep_inCell hadjni
            · exact hadjni
            · exact hpassni
          · exact Or.inl hold
        · refine Or.inr ⟨hnew.1, ?_, hnew.2.2⟩
          rw [← hst1cur]
          exact hnew.2.1
      · intro i
        rcases h5 i with heqi | hfresh
        · by_cases hieq : i = ni
          · refine Or.inr ⟨?_, ?_⟩
            · rw [heqi, hieq, hst1ni]
              have hved : nd + (((fun _ : Nat => (0 : ℚ)) ni : ℚ) : CostV) = nd := by
                rw [WithTop.coe_zero, add_zero]
              rw [hved]
              exact h3 (ni, nd) hmemq
            · rw [heqi, hieq, hst1ni]
              exact lt_top_iff_ne_top.mpr hnifin
          · left
            rw [heqi, hst1gne i hieq]
        · exact Or.inr hfresh
      · have hlen1 : st1.frontier.length = st.frontier.length + 1 := by
          rw [hst1]
          rfl
        have hgoal := h6
        rw [hlen1] at hgoal
        simp only [List.length_cons]
        omega
      · intro d0 hd0 hnb0 hpass0 hcl0
        rcases List.mem_cons.mp hd0 with rfl | hd0l
        · rw [← hni]
          calc (l.foldl (dijkstraRelax costs w h cur) st1).g ni ≤ st1.g ni := h1 ni
            _ = nd := hst1ni
            _ = (l.foldl (dijkstraRelax costs w h cur) st1).g cur + ((c : ℚ) : CostV) := by
              rw [h2, hst1cur, hnd]
            _ = (l.foldl (dijkstraRelax costs w h cur) st1).g cur +
                ((cost0 costs ni : ℚ) : CostV) := by rw [← hcdef]
        · exact h7 d0 hd0l hnb0 hpass0 hcl0
      · intro i hnei
        by_cases hch : (l.foldl (dijkstraRelax costs w h cur) st1).g i = st1.g i
        · have hieq : i = ni := by
            by_contra hii
            apply hnei
            rw [hch, hst1gne i hii]
          subst hieq
          refine ⟨?_, rfl, ?_, ?_, ?_, ?_⟩
          · rw [h9 i hch, hst1cni]
          · rw [← hcdef]
            exact hcpos
          · rw [hch, hst1ni, hnd, hcdef]
          · rw [← hcdef, ← hnd]
            exact hlt
          · rw [hch, hst1ni]
            exact lt_top_iff_ne_top.mpr hnifin
        · obtain ⟨hcame, -, hcp0, hc0eq, hc0lt, hc0fin⟩ := h8 i hch
          refine ⟨hcame, rfl, hcp0, ?_, ?_, hc0fin⟩
          · rw [hc0eq, hst1cur]
          · rw [hst1cur] at hc0lt
            exact lt_of_lt_of_le hc0lt (hst1g i)
      · intro i hgi
        have e1 : (l.foldl (dijkstraRelax costs w h cur) st1).g i = st1.g i := by
          apply le_antisymm (h1 i)
          calc st1.g i ≤ st.g i := hst1g i
            _ = (l.foldl (dijkstraRelax costs w h cur) st1).g i := hgi.symm
        have e2 : st1.g i = st.g i := by
          rw [← e1, hgi]
        have hine : i ≠ ni := by
          intro hieq
          rw [hieq, hst1ni] at e2
          exact absurd e2 (ne_of_lt hlt)
        rw [h9 i e1, hst1cne i hine]
      · intro i j hj
        rcases h10 i j hj with hold | hnew
        · by_cases hieq : i = ni
          · subst hieq
            rw [hst1cni] at hold
            have hjc : j = cur := (Option.some.inj hold).symm
            subst j
            right
            refine ⟨rfl, hadjni, hpassni, ?_, ?_⟩
            · by_cases hch : (l.foldl (dijkstraRelax costs w h cur) st1).g i = st1.g i
              · rw [hch, hst1ni, hnd, h2, hst1cur, hcdef]
              · obtain ⟨-, -, -, hc0eq, -, -⟩ := h8 i hch
                rw [hc0eq, h2, hst1cur]
            · by_cases hch : (l.foldl (dijkstraRelax costs w h cur) st1).g i = st1.g i
              · rw [hch, hst1ni]
                exact lt_top_iff_ne_top.mpr hnifin
              · exact (h8 i hch).2.2.2.2.2
          · left
            rw [← hst1cne i hieq]
            exact hold
        · obtain ⟨rfl, hadj2, hpass2, hg2, hfin2⟩ := hnew
          right
          refine ⟨rfl, hadj2, hpass2, ?_, hfin2⟩
          rw [hg2]

theorem costv_add_coe_fin {a : CostV} {c : ℚ} (ha : a ≠ ⊤) :
    a + ((c : ℚ) : CostV) < ⊤ := by
  obtain ⟨q, rfl⟩ := WithTop.ne_top_iff_exists.mp ha
  rw [← WithTop.coe_add]
  exact WithTop.coe_lt_top _

theorem astarRelax_cases (costs : List ℚ) (w h gx gy : Int) (closed : Nat → Bool)
    (cur : Nat) (st : AState) (d : (Int × Int) × ℚ) :
    (astarRelax costs w h gx gy false 1 closed cur st d = st ∧
        (oob w h (cellX w cur + d.1.1) (cellY w cur + d.1.2) ∨
          closed (toIdx w (cellX w cur + d.1.1) (cellY w cur + d.1.2)) = true ∨
          cost0 costs (toIdx w (cellX w cur + d.1.1) (cellY w cur + d.1.2)) ≤ 0 ∨
          st.g (toIdx w (cellX w cur + d.1.1) (cellY w cur + d.1.2)) ≤
            st.g cur +
              ((cost0 costs (toIdx w (cellX w cur + d.1.1) (cellY w cur + d.1.2)) : ℚ) :
                CostV))) ∨
      ∃ ni : Nat, ∃ c : ℚ,
        ¬oob w h (cellX w cur + d.1.1) (cellY w cur + d.1.2) ∧
        ni = toIdx w (cellX w cur + d.1.1) (cellY w cur + d.1.2) ∧
        closed ni = false ∧ c = cost0 costs ni ∧ 0 < c ∧
        st.g cur + ((c : ℚ) : CostV) < st.g ni ∧
        astarRelax costs w h gx gy false 1 closed cur st d =
          ⟨Function.update st.g ni (st.g cur + ((c : ℚ) : CostV)),
            Function.update st.came ni (some cur),
            (ni, st.g cur + ((c : ℚ) : CostV) + ((manh w gx gy ni : ℚ) : CostV)) ::
              st.frontier⟩ := by
  simp only [astarRelax, Bool.false_eq_true, if_false, one_mul, mul_one]
  by_cases h1 : oob w h (cellX w cur + d.1.1) (cellY w cur + d.1.2)
  · rw [if_pos h1]
    exact Or.inl ⟨rfl, Or.inl h1⟩
  · rw [if_neg h1]
    by_cases h2 : closed (toIdx w (cellX w cur + d.1.1) (cellY w cur + d.1.2)) = true
    · rw [if_pos h2]
      exact Or.inl ⟨rfl, Or.inr (Or.inl h2)⟩
    · rw [if_neg h2]
      by_cases h3 : cost0 costs (toIdx w (cellX w cur + d.1.1) (cellY w cur + d.1.2)) ≤ 0
      · rw [if_pos h3]
        exact Or.inl ⟨rfl, Or.inr (Or.inr (Or.inl h3))⟩
      · rw [if_neg h3]
        by_cases h4 :
            st.g cur +
                ((cost0 costs (toIdx w (cellX w cur + d.1.1) (cellY w cur + d.1.2)) : ℚ) :
                  CostV) <
              st.g (toIdx w (cellX w cur + d.1.1) (cellY w cur + d.1.2))
        · rw [if_pos h4]
          refine Or.inr ⟨_, _, h1, rfl, Bool.not_eq_true _ ▸ h2, rfl, lt_of_not_le h3, h4, ?_⟩
          have hm : manh w gx gy (toIdx w (cellX w cur + d.1.1) (cellY w cur + d.1.2)) =
              heuristic (cellX w cur + d.1.1) (cellY w cur + d.1.2) gx gy false := by
            unfold manh
            rw [cellX_toIdx w h _ _ h1, cellY_toIdx w h _ _ h1]
          rw [hm]
        · rw [if_neg h4]
          exact Or.inl ⟨rfl, Or.inr (Or.inr (Or.inr (not_lt.mp h4)))⟩

theorem astFold_rel (costs : List ℚ) (w h gx gy : Int) (closed : Nat → Bool) (cur : Nat)
    (hcur : InCell w h cur)
    (hunit : ∀ i, i < sizeN w h → cost0 costs i ≤ 0 ∨ cost0 costs i = 1) :
    ∀ (l : List (Int × Int)), (∀ d ∈ l, d ∈ dirs4) → ∀ st : AState,
      SFoldRel costs w h (manh w gx gy) closed cur l st
        ((l.map (fun d => (d, (1 : ℚ)))).foldl
          (astarRelax costs w h gx gy false 1 closed cur) st) := by
  intro l
  induction l with
  | nil =>
    intro hsub st
    exact ⟨fun i => le_refl _, rfl, fun e he => he, fun e he => Or.inl he,
      fun i => Or.inl rfl, by simp,
      fun d hd => absurd hd (List.not_mem_nil d),
      fun i hne => absurd rfl hne, fun i _ => rfl, fun i j hj => Or.inl hj⟩
  | cons d l ih =>
    intro hsub st
    have hdm : d ∈ dirs4 := hsub d (List.mem_cons_self d l)
    have hsub2 : ∀ d0 ∈ l, d0 ∈ dirs4 := fun d0 hd0 => hsub d0 (List.mem_cons_of_mem d hd0)
    rw [List.map_cons, List.foldl_cons]
    rcases astarRelax_cases costs w h gx gy closed cur st (d, 1) with ⟨heq, hreason⟩ | hpush
    · rw [heq]
      obtain ⟨h1, h2, h3, h4, h5, h6, h7, h8, h9, h10⟩ := ih hsub2 st
      refine ⟨h1, h2, h3, h4, h5, by simp only [List.length_cons]; omega, ?_, h8, h9, h10⟩
      intro d0 hd0 hnb hpass hcl
      rcases List.mem_cons.mp hd0 with rfl | hd0l
      · rcases hreason with hoob | hclt | hc0 | hle
        · exact absurd hnb (not_not_intro hoob)
        · rw [hcl] at hclt
          exact Bool.noConfusion hclt
        · exact absurd hpass (not_lt.mpr hc0)
        · calc ((l.map (fun d => (d, (1 : ℚ)))).foldl
                  (astarRelax costs w h gx gy false 1 closed cur) st).g
                (toIdx w (cellX w cur + d0.1) (cellY w cur + d0.2)) ≤
              st.g (toIdx w (cellX w cur + d0.1) (cellY w cur + d0.2)) := h1 _
            _ ≤ st.g cur +
                ((cost0 costs (toIdx w (cellX w cur + d0.1) (cellY w cur + d0.2)) : ℚ) :
                  CostV) := hle
            _ = ((l.map (fun d => (d, (1 : ℚ)))).foldl
                  (astarRelax costs w h gx gy false 1 closed cur) st).g cur +
                ((cost0 costs (toIdx w (cellX w cur + d0.1) (cellY w cur + d0.2)) : ℚ) :
                  CostV) := by rw [h2]
      · exact h7 d0 hd0l hnb hpass hcl
    · obtain ⟨ni, c, hnb, hni, hncl, hcdef, hcpos, hlt, heq⟩ := hpush
      rw [heq]
      have hcurfin : st.g cur ≠ ⊤ := by
        intro htop
        rw [htop, WithTop.top_add] at hlt
        exact not_top_lt hlt
      have hnifin : st.g cur + ((c : ℚ) : CostV) ≠ ⊤ := by
        intro htop
        rw [htop] at hlt
        exact not_top_lt hlt
      have hninecur : ni ≠ cur := hni ▸ relaxTarget_ne hdm hnb
      have hadjni : adjStep w h dirs4 cur ni := ⟨d, hdm, hnb, hni⟩
      have hpassni : passable costs ni := by
        unfold passable
        rw [← hcdef]
        exact hcpos
      have hc1 : c = 1 := by
        rcases hunit ni (inCell_lt_size (adjStep_inCell hadjni)) with hle | h1
        · rw [hcdef] at hcpos
          exact absurd hcpos (not_lt.mpr hle)
        · rw [hcdef, h1]
      have hmcons : manh w gx gy cur ≤ manh w gx gy ni + 1 :=
        manh_consistent hadjni
      set nd : CostV := st.g cur + ((c : ℚ) : CostV) with hnd
      set st1 : AState := ⟨Function.update st.g ni nd,
        Function.update st.came ni (some cur),
        (ni, nd + ((manh w gx gy ni : ℚ) : CostV)) :: st.frontier⟩ with hst1
      have hst1g : ∀ i, st1.g i ≤ st.g i := by
        intro i
        by_cases hieq : i = ni
        · subst hieq
          rw [hst1]
          dsimp only
          rw [Function.update_same]
          exact le_of_lt hlt
        · rw [hst1]
          dsimp only
          rw [Function.update_noteq hieq]
      have hst1cur : st1.g cur = st.g cur := by
        rw [hst1]
        dsimp only
        rw [Function.update_noteq (fun hEq => hninecur hEq.symm)]
      have hst1ni : st1.g ni = nd := by
        rw [hst1]
        dsimp only
        rw [Function.update_same]
      have hst1cni : st1.came ni = some cur := by
        rw [hst1]
        dsimp only
        rw [Function.update_same]
      have hst1cne : ∀ i, i ≠ ni → st1.came i = st.came i := by
        intro i hieq
        rw [hst1]
        dsimp only
        rw [Function.update_noteq hieq]
      have hst1gne : ∀ i, i ≠ ni → st1.g i = st.g i := by
        intro i hieq
        rw [hst1]
        dsimp only
        rw [Function.update_noteq hieq]
      have hsubq : ∀ e ∈ st.frontier, e ∈ st1.frontier := by
        intro e he
        rw [hst1]
        exact List.mem_cons_of_mem _ he
      have hmemq : (ni, nd + ((manh w gx gy ni : ℚ) : CostV)) ∈ st1.frontier := by
        rw [hst1]
        exact List.mem_cons_self _ _
      have hndfin : nd < ⊤ := lt_top_iff_ne_top.mpr hnifin
      have hcurmin : st.g cur + ((manh w gx gy cur : ℚ) : CostV) ≤
          nd + ((manh w gx gy ni : ℚ) : CostV) := by
        rw [hnd, hc1, add_assoc, ← WithTop.coe_add]
        exact add_le_add_left
          (WithTop.coe_le_coe.mpr (by rw [add_comm]; exact hmcons)) _
      obtain ⟨h1, h2, h3, h4, h5, h6, h7, h8, h9, h10⟩ := ih hsub2 st1
      refine ⟨?_, ?_, ?_, ?_, ?_, ?_, ?_, ?_, ?_, ?_⟩
      · intro i
        exact le_trans (h1 i) (hst1g i)
      · rw [h2, hst1cur]
      · intro e he
        exact h3 e (hsubq e he)
      · intro e he
        rcases h4 e he with hein | hnew
        · rw [hst1] at hein
          rcases List.mem_cons.mp hein with rfl | hold
          · refine Or.inr ⟨?_, ?_, ?_, ?_, ?_, ?_⟩
            · dsimp only
              exact add_le_add_right (le_trans (h1 ni) (le_of_eq hst1ni)) _
            · dsimp only
              exact hcurmin
            · exact costv_add_coe_fin hnifin
            · exact adjStep_inCell hadjni
            · exact hadjni
            · exact hpassni
          · exact Or.inl hold
        · refine Or.inr ⟨hnew.1, ?_, hnew.2.2⟩
          rw [← hst1cur]
          exact hnew.2.1
      · intro i
        rcases h5 i with heqi | hfresh
        · by_cases hieq : i = ni
          · refine Or.inr ⟨?_, ?_⟩
            · rw [heqi, hieq, hst1ni]
              exact h3 _ hmemq
            · rw [heqi, hieq, hst1ni]
              exact hndfin
          · left
            rw [heqi, hst1gne i hieq]
        · exact Or.inr hfresh
      · have hlen1 : st1.frontier.length = st.frontier.length + 1 := by
          rw [hst1]
          rfl
        have hgoal := h6
        rw [hlen1] at hgoal
        simp only [List.length_cons]
        omega
      · intro d0 hd0 hnb0 hpass0 hcl0
        rcases List.mem_cons.mp hd0 with rfl | hd0l
        · rw [← hni]
          calc ((l.map (fun d => (d, (1 : ℚ)))).foldl
                (astarRelax costs w h gx gy false 1 closed cur) st1).g ni ≤ st1.g ni :=
              h1 ni
            _ = nd := hst1ni
            _ = ((l.map (fun d => (d, (1 : ℚ)))).foldl
                  (astarRelax costs w h gx gy false 1 closed cur) st1).g cur +
                ((c : ℚ) : CostV) := by rw [h2, hst1cur, hnd]
            _ = ((l.map (fun d => (d, (1 : ℚ)))).foldl
                  (astarRelax costs w h gx gy false 1 closed cur) st1).g cur +
                ((cost0 costs ni : ℚ) : CostV) := by rw [← hcdef]
        · exact h7 d0 hd0l hnb0 hpass0 hcl0
      · intro i hnei
        by_cases hch : ((l.map (fun d => (d, (1 : ℚ)))).foldl
            (astarRelax costs w h gx gy false 1 closed cur) st1).g i = st1.g i
        · have hieq : i = ni := by
            by_contra hii
            apply hnei
            rw [hch, hst1gne i hii]
          subst hieq
          refine ⟨?_, hncl, ?_, ?_, ?_, ?_⟩
          · rw [h9 i hch, hst1cni]
          · rw [← hcdef]
            exact hcpos
          · rw [hch, hst1ni, hnd, hcdef]
          · rw [← hcdef, ← hnd]
            exact hlt
          · rw [hch, hst1ni]
            exact hndfin
        · obtain ⟨hcame, hclf, hcp0, hc0eq, hc0lt, hc0fin⟩ := h8 i hch
          refine ⟨hcame, hclf, hcp0, ?_, ?_, hc0fin⟩
          · rw [hc0eq, hst1cur]
          · rw [hst1cur] at hc0lt
            exact lt_of_lt_of_le hc0lt (hst1g i)
      · intro i hgi
        have e1 : ((l.map (fun d => (d, (1 : ℚ)))).foldl
            (astarRelax costs w h gx gy false 1 closed cur) st1).g i = st1.g i := by
          apply le_antisymm (h1 i)
          calc st1.g i ≤ st.g i := hst1g i
            _ = ((l.map (fun d => (d, (1 : ℚ)))).foldl
                (astarRelax costs w h gx gy false 1 closed cur) st1).g i := hgi.symm
        have e2 : st1.g i = st.g i := by
          rw [← e1, hgi]
        have hine : i ≠ ni := by
          intro hieq
          rw [hieq, hst1ni] at e2
          exact absurd e2 (ne_of_lt hlt)
        rw [h9 i e1, hst1cne i hine]
      · intro i j hj
        rcases h10 i j hj with hold | hnew
        · by_cases hieq : i = ni
          · subst hieq
            rw [hst1cni] at hold
            have hjc : j = cur := (Option.some.inj hold).symm
            subst j
            right
            refine ⟨rfl, hadjni, hpassni, ?_, ?_⟩
            · by_cases hch : ((l.map (fun d => (d, (1 : ℚ)))).foldl
                  (astarRelax costs w h gx gy false 1 closed cur) st1).g i = st1.g i
              · rw [hch, hst1ni, hnd, h2, hst1cur, hcdef]
              · obtain ⟨-, -, -, hc0eq, -, -⟩ := h8 i hch
                rw [hc0eq, h2, hst1cur]
            · by_cases hch : ((l.map (fun d => (d, (1 : ℚ)))).foldl
                  (astarRelax costs w h gx gy false 1 closed cur) st1).g i = st1.g i
              · rw [hch, hst1ni]
                exact hndfin
              · exact (h8 i hch).2.2.2.2.2
          · left
            rw [← hst1cne i hieq]
            exact hold
        · obtain ⟨rfl, hadj2, hpass2, hg2, hfin2⟩ := hnew
          right
          refine ⟨rfl, hadj2, hpass2, ?_, hfin2⟩
          rw [hg2]

theorem GInv_pop {costs : List ℚ} {w h : Int} {hfun : Nat → ℚ} {start : Nat}
    {T : Finset Nat} {st : AState} {e : Nat × CostV} {rest : List (Nat × CostV)}
    (hpop : popMin st.frontier = some (e, rest)) (hinv : GInv costs w h hfun start T st)
    (hne : ∀ v, st.g v < ⊤ → v ∉ T → (v, st.g v + ((hfun v : ℚ) : CostV)) ≠ e) :
    GInv costs w h hfun start T ⟨st.g, st.came, rest⟩ := by
  obtain ⟨ha, hb, hc, hd, he0, hf, hfr, hcm, hns⟩ := hinv
  exact ⟨fun x hx => ha x (popMin_rest_mem hpop x hx), hb, hc,
    fun v hv x hx => hd v hv x (popMin_rest_mem hpop x hx), he0, hf,
    fun v hfin hvT => popMin_mem_rest_of_ne hpop (hfr v hfin hvT) (hne v hfin hvT),
    hcm, hns⟩

theorem dijFold_stable (costs : List ℚ) (w h : Int) (cur : Nat) :
    ∀ (l : List (Int × Int)), (∀ d ∈ l, d ∈ dirs4) → ∀ st : AState,
      (∀ u, adjStep w h dirs4 cur u → passable costs u →
        st.g u ≤ st.g cur + ((cost0 costs u : ℚ) : CostV)) →
      l.foldl (dijkstraRelax costs w h cur) st = st := by
  intro l
  induction l with
  | nil =>
    intro hsub st hstab
    rfl
  | cons d l ih =>
    intro hsub st hstab
    have hdm : d ∈ dirs4 := hsub d (List.mem_cons_self d l)
    have hstep : dijkstraRelax costs w h cur st d = st := by
      rcases dijkstraRelax_cases costs w h cur st d with ⟨heq, -⟩ | hpush
      · exact heq
      · exfalso
        obtain ⟨ni, c, hnb, hni, hcdef, hcpos, hlt, -⟩ := hpush
        have hadjni : adjStep w h dirs4 cur ni := ⟨d, hdm, hnb, hni⟩
        have hpassni : passable costs ni := by
          unfold passable
          rw [← hcdef]
          exact hcpos
        have hcap := hstab ni hadjni hpassni
        rw [← hcdef] at hcap
        exact absurd hlt (not_lt.mpr hcap)
    rw [List.foldl_cons, hstep]
    exact ih (fun d0 hd0 => hsub d0 (List.mem_cons_of_mem d hd0)) st hstab

theorem GInv_dijSettle {costs : List ℚ} {w h : Int} {start : Nat} {T : Finset Nat}
    {st : AState} {e : Nat × CostV} {rest : List (Nat × CostV)}
    (hpop : popMin st.frontier = some (e, rest))
    (hinv : GInv costs w h (fun _ => 0) start T st)
    (hfresh : st.g e.1 = e.2) (hT : e.1 ∉ T) :
    GInv costs w h (fun _ => 0) start (insert e.1 T)
        (dirs4.foldl (dijkstraRelax costs w h e.1) ⟨st.g, st.came, rest⟩) ∧
      (dirs4.foldl (dijkstraRelax costs w h e.1)
          (⟨st.g, st.came, rest⟩ : AState)).frontier.length ≤ rest.length + 4 := by
  obtain ⟨ha, hb, hc, hd, he0, hf, hfr, hcm, hns⟩ := hinv
  have hz : ∀ (a : CostV), a + (((0 : ℚ)) : CostV) = a := by
    intro a
    rw [WithTop.coe_zero, add_zero]
  have hemem : e ∈ st.frontier := popMin_mem hpop
  have hecell : InCell w h e.1 := (ha e hemem).2.2
  have hefin : e.2 < ⊤ := (ha e hemem).2.1
  have hgefin : st.g e.1 < ⊤ := hfresh ▸ hefin
  have hmin : ∀ x ∈ st.frontier, e.2 ≤ x.2 := popMin_min hpop
  obtain ⟨h1, h2, h3, h4, h5, h6, h7, h8, h9, h10⟩ :=
    dijFold_rel costs w h e.1 hecell dirs4 (fun d hd => hd) ⟨st.g, st.came, rest⟩
  have hrest : ∀ x ∈ rest, x ∈ st.frontier := popMin_rest_mem hpop
  have hfreeze : ∀ v ∈ T,
      (dirs4.foldl (dijkstraRelax costs w h e.1) (⟨st.g, st.came, rest⟩ : AState)).g v =
        st.g v := by
    intro v hv
    by_contra hchg
    obtain ⟨-, -, hcpos, hceq, hclt, -⟩ := h8 v hchg
    have hvle : st.g v ≤ e.2 := by
      have hdve := hd v hv e hemem
      rwa [hz] at hdve
    have hc0 : (0 : CostV) ≤ ((cost0 costs v : ℚ) : CostV) := by
      rw [← WithTop.coe_zero]
      exact WithTop.coe_le_coe.mpr (le_of_lt hcpos)
    have hlow : st.g e.1 ≤ st.g e.1 + ((cost0 costs v : ℚ) : CostV) :=
      le_add_of_nonneg_right hc0
    have hvle2 : st.g v ≤ st.g e.1 := by
      rw [hfresh]
      exact hvle
    exact absurd hclt (not_lt.mpr (le_trans hvle2 hlow))
  constructor
  · refine ⟨?_, ?_, ?_, ?_, ?_, ?_, ?_, ?_, ?_⟩
    · intro x hx
      rcases h4 x hx with hold | hnew
      · have hq := ha x (hrest x hold)
        refine ⟨?_, hq.2.1, hq.2.2⟩
        rw [hz]
        have hq1 := hq.1
        rw [hz] at hq1
        exact le_trans (h1 x.1) hq1
      · have hn1 := hnew.1
        exact ⟨hn1, hnew.2.2.1, hnew.2.2.2.1⟩
    · intro v hv u hadj hpass
      rcases Finset.mem_insert.mp hv with rfl | hvT
      · obtain ⟨d, hdm, hnb, hueq⟩ := hadj
        have hcap := h7 d hdm hnb (hueq ▸ hpass) rfl
        rw [← hueq] at hcap
        exact hcap
      · rw [hfreeze v hvT]
        calc (dirs4.foldl (dijkstraRelax costs w h e.1)
              (⟨st.g, st.came, rest⟩ : AState)).g u ≤ st.g u := h1 u
          _ ≤ st.g v + ((cost0 costs u : ℚ) : CostV) := hb v hvT u hadj hpass
    · intro x hx
      rcases Finset.mem_insert.mp hx with rfl | hxT
      · exact Finset.mem_range.mpr (inCell_lt_size hecell)
      · exact hc hxT
    · intro v hv x hx
      have hvval : (dirs4.foldl (dijkstraRelax costs w h e.1)
          (⟨st.g, st.came, rest⟩ : AState)).g v ≤ e.2 := by
        rcases Finset.mem_insert.mp hv with rfl | hvT
        · rw [h2]
          exact le_of_eq hfresh
        · rw [hfreeze v hvT]
          have hdve := hd v hvT e hemem
          rwa [hz] at hdve
      rw [hz]
      rcases h4 x hx with hold | hnew
      · exact le_trans hvval (hmin x (hrest x hold))
      · have hlow := hnew.2.1
        rw [hz] at hlow
        refine le_trans hvval ?_
        rw [← hfresh]
        exact hlow
    · by_cases hch : (dirs4.foldl (dijkstraRelax costs w h e.1)
          (⟨st.g, st.came, rest⟩ : AState)).g start = st.g start
      · rw [hch]
        exact he0
      · exfalso
        obtain ⟨-, -, hcpos, hceq, hclt, -⟩ := h8 start hch
        rw [he0] at hclt
        have hnn2 : (0 : CostV) ≤ st.g e.1 + ((cost0 costs start : ℚ) : CostV) :=
          add_nonneg (hf e.1)
            (by rw [← WithTop.coe_zero]
                exact WithTop.coe_le_coe.mpr (le_of_lt hcpos))
        exact absurd (lt_of_le_of_lt hnn2 hclt) (lt_irrefl 0)
    · intro i
      by_cases hch : (dirs4.foldl (dijkstraRelax costs w h e.1)
          (⟨st.g, st.came, rest⟩ : AState)).g i = st.g i
      · rw [hch]
        exact hf i
      · obtain ⟨-, -, hcpos, hceq, -, -⟩ := h8 i hch
        rw [hceq]
        exact add_nonneg (hf e.1)
          (by rw [← WithTop.coe_zero]
              exact WithTop.coe_le_coe.mpr (le_of_lt hcpos))
    · intro v hfin hvT
      have hvne : v ≠ e.1 := fun hEq => hvT (hEq ▸ Finset.mem_insert_self e.1 T)
      have hvnT : v ∉ T := fun hx => hvT (Finset.mem_insert_of_mem hx)
      rcases h5 v with hval | hfreshv
      · rw [hval] at hfin ⊢
        have hqm : (v, st.g v + (((0 : ℚ)) : CostV)) ∈ st.frontier := hfr v hfin hvnT
        have hneq : (v, st.g v + (((0 : ℚ)) : CostV)) ≠ e := by
          intro hEq
          exact hvne (congrArg Prod.fst hEq)
        exact h3 _ (popMin_mem_rest_of_ne hpop hqm hneq)
      · exact hfreshv.1
    · intro i j hj
      rcases h10 i j hj with hold | hnew
      · obtain ⟨hjT, hadj, hpass, hex, hfin⟩ := hcm i j hold
        have hjne : j ≠ e.1 := fun hEq => hT (hEq ▸ hjT)
        have hiun : (dirs4.foldl (dijkstraRelax costs w h e.1)
            (⟨st.g, st.came, rest⟩ : AState)).g i = st.g i := by
          by_contra hch
          obtain ⟨hcame2, -, -, -, -, -⟩ := h8 i hch
          rw [hcame2] at hj
          have hji : j = e.1 := (Option.some.inj hj.symm)
          exact hjne hji
        refine ⟨Finset.mem_insert_of_mem hjT, hadj, hpass, ?_, ?_⟩
        · rw [hiun, hfreeze j hjT]
          exact hex
        · rw [hiun]
          exact hfin
      · obtain ⟨rfl, hadj, hpass, hex, hfin⟩ := hnew
        exact ⟨Finset.mem_insert_self _ _, hadj, hpass, hex, hfin⟩
    · intro i hnone hfin
      have hiun : (dirs4.foldl (dijkstraRelax costs w h e.1)
          (⟨st.g, st.came, rest⟩ : AState)).g i = st.g i := by
        by_contra hch
        obtain ⟨hcame2, -, -, -, -, -⟩ := h8 i hch
        rw [hcame2] at hnone
        exact Option.noConfusion hnone
      rw [h9 i hiun] at hnone
      rw [hiun] at hfin
      exact hns i hnone hfin
  · have hl := h6
    simpa using hl

theorem dijkstraLoop_opt (costs : List ℚ) (w h : Int) (goalSet : List Nat) (start : Nat)
    (hunit : ∀ i, i < sizeN w h → cost0 costs i ≤ 0 ∨ cost0 costs i = 1)
    (hstart : InCell w h start) (hps : passable costs start) :
    ∀ (fuel : Nat) (st : AState) (T : Finset Nat),
      GInv costs w h (fun _ => 0) start T st →
      (∀ x ∈ goalSet, x ∉ T) →
      mapPhi (sizeN w h) T st.frontier < fuel →
      (∃ t2 p, t2 ∈ goalSet ∧ ValidPath costs w h start t2 p) →
      ∃ t ∈ goalSet,
        ValidPath costs w h start t (dijkstraLoop costs w h goalSet start fuel st) ∧
          ∀ t2 ∈ goalSet, ∀ p, ValidPath costs w h start t2 p →
            pathCost costs (dijkstraLoop costs w h goalSet start fuel st) ≤
              pathCost costs p := by
  have hz : ∀ (a : CostV), a + (((0 : ℚ)) : CostV) = a := by
    intro a
    rw [WithTop.coe_zero, add_zero]
  have hcons0 : ∀ a b, adjStep w h dirs4 a b →
      (fun _ : Nat => (0 : ℚ)) a ≤ (fun _ : Nat => (0 : ℚ)) b + 1 := by
    intro a b hab
    norm_num
  intro fuel
  induction fuel with
  | zero =>
    intro st T hinv hdisj hphi hex
    exact absurd hphi (Nat.not_lt_zero _)
  | succ fuel ih =>
    intro st T hinv hdisj hphi hex
    simp only [dijkstraLoop]
    cases hpop : popMin st.frontier with
    | none =>
      exfalso
      have hnil : st.frontier = [] := popMin_none.mp hpop
      obtain ⟨t2, p, ht2, hvp⟩ := hex
      obtain ⟨ha, hb, hc, hd, he0, hf, hfr, hcm, hns⟩ := hinv
      rcases settled_cut hb hunit hcons0 p start t2 hvp with hcase | ⟨u, huT, hub⟩
      · rw [he0, zero_add] at hcase
        have hfin : st.g t2 < ⊤ := lt_of_le_of_lt hcase (WithTop.coe_lt_top _)
        have hent := hfr t2 hfin (hdisj t2 ht2)
        rw [hnil] at hent
        exact absurd hent (List.not_mem_nil _)
      · rw [he0, zero_add] at hub
        have hufin : st.g u < ⊤ := by
          have hself : st.g u ≤ st.g u + (((0 : ℚ)) : CostV) := le_of_eq (hz _).symm
          refine lt_of_le_of_lt (le_trans hself hub) ?_
          exact lt_of_le_of_lt (le_refl _)
            (lt_of_le_of_lt (le_refl _) (by
              rw [hz]
              exact WithTop.coe_lt_top _))
        have hent := hfr u hufin huT
        rw [hnil] at hent
        exact absurd hent (List.not_mem_nil _)
    | some pr =>
      obtain ⟨e, rest⟩ := pr
      dsimp only
      have hlenq : st.frontier.length = rest.length + 1 := popMin_length hpop
      by_cases hgoal : goalSet.contains e.1 = true
      · rw [if_pos hgoal]
        have hgmem : e.1 ∈ goalSet := List.mem_of_elem_eq_true hgoal
        obtain ⟨ha, hb, hc, hd, he0, hf, hfr, hcm, hns⟩ := hinv
        have hgfin : st.g e.1 < ⊤ := by
          have hq := (ha e (popMin_mem hpop)).1
          rw [hz] at hq
          exact lt_of_le_of_lt hq (ha e (popMin_mem hpop)).2.1
        have hcame2 : ∀ i j, st.came i = some j → adjStep w h dirs4 j i ∧
            passable costs i ∧ st.g i = st.g j + ((cost0 costs i : ℚ) : CostV) ∧
            st.g i < ⊤ ∧ j < sizeN w h ∧ i < sizeN w h := by
          intro i j hj
          obtain ⟨hjT, hadj, hpassi, hex2, hfin2⟩ := hcm i j hj
          exact ⟨hadj, hpassi, hex2, hfin2,
            Finset.mem_range.mp (hc hjT), inCell_lt_size (adjStep_inCell hadj)⟩
        obtain ⟨hvalid, hcost⟩ :=
          reconstruct_exact hcame2 hns he0 hps hf e.1 hgfin
        refine ⟨e.1, hgmem, hvalid, ?_⟩
        intro t2 ht2 p hvp
        have hbound := popGoal_bound ⟨ha, hb, hc, hd, he0, hf, hfr, hcm, hns⟩ hunit
          hcons0 (fun i => le_refl 0) hpop rfl t2 p rfl (hdisj t2 ht2) hvp
        rw [← hcost] at hbound
        have hpc := pathCost_unit hunit hstart hvp
        rw [← hpc] at hbound
        exact WithTop.coe_le_coe.mp hbound
      · rw [if_neg hgoal]
        have hdisj2 : ∀ x ∈ goalSet, x ∉ insert e.1 T := by
          intro x hx hmem
          rcases Finset.mem_insert.mp hmem with rfl | hxT
          · exact hgoal (List.elem_eq_true_of_mem hx)
          · exact hdisj x hx hxT
        by_cases hstale : st.g e.1 < e.2
        · rw [if_pos hstale]
          refine ih ⟨st.g, st.came, rest⟩ T (GInv_pop hpop hinv ?_) hdisj ?_ hex
          · intro v hfin hvT hEq
            have hv1 : v = e.1 := congrArg Prod.fst hEq
            have hv2 : st.g v + (((0 : ℚ)) : CostV) = e.2 := congrArg Prod.snd hEq
            rw [hz] at hv2
            rw [hv1] at hv2
            rw [hv2] at hstale
            exact lt_irrefl _ hstale
          · simp only [mapPhi] at hphi ⊢
            omega
        · rw [if_neg hstale]
          have hfresh : st.g e.1 = e.2 := by
            have hq := (hinv.1 e (popMin_mem hpop)).1
            rw [hz] at hq
            exact le_antisymm hq (not_lt.mp hstale)
          by_cases hT : e.1 ∈ T
          · have hstab := hinv.2.1 e.1 hT
            have hid := dijFold_stable costs w h e.1 dirs4 (fun d hd => hd)
              ⟨st.g, st.came, rest⟩ hstab
            rw [hid]
            refine ih ⟨st.g, st.came, rest⟩ T (GInv_pop hpop hinv ?_) hdisj ?_ hex
            · intro v hfin hvT hEq
              have hv1 : v = e.1 := congrArg Prod.fst hEq
              rw [hv1] at hvT
              exact hvT hT
            · simp only [mapPhi] at hphi ⊢
              omega
          · obtain ⟨hinv2, hlen2⟩ := GInv_dijSettle hpop hinv hfresh hT
            refine ih _ (insert e.1 T) hinv2 hdisj2 ?_ hex
            have hemem : e.1 ∈ Finset.range (sizeN w h) \ T :=
              Finset.mem_sdiff.mpr
                ⟨Finset.mem_range.mpr (inCell_lt_size (hinv.1 e (popMin_mem hpop)).2.2),
                  hT⟩
            have hcard : (Finset.range (sizeN w h) \ insert e.1 T).card + 1 =
                (Finset.range (sizeN w h) \ T).card := by
              rw [Finset.sdiff_insert]
              exact Finset.card_erase_add_one hemem
            simp only [mapPhi] at hphi ⊢
            omega

theorem dirTable_false : dirTable false = dirs4.map (fun d => (d, (1 : ℚ))) := rfl

theorem GInv_astSettle {costs : List ℚ} {w h gx gy : Int} {start : Nat} {T : Finset Nat}
    {closed : Nat → Bool} {st : AState} {e : Nat × CostV} {rest : List (Nat × CostV)}
    (hpop : popMin st.frontier = some (e, rest))
    (hinv : GInv costs w h (manh w gx gy) start T st)
    (hunit : ∀ i, i < sizeN w h → cost0 costs i ≤ 0 ∨ cost0 costs i = 1)
    (hclosed : ∀ i, closed i = true ↔ i ∈ T) (hncl : closed e.1 = false) :
    GInv costs w h (manh w gx gy) start (insert e.1 T)
        ((dirs4.map (fun d => (d, (1 : ℚ)))).foldl
          (astarRelax costs w h gx gy false 1 (Function.update closed e.1 true) e.1)
          ⟨st.g, st.came, rest⟩) ∧
      ((dirs4.map (fun d => (d, (1 : ℚ)))).foldl
          (astarRelax costs w h gx gy false 1 (Function.update closed e.1 true) e.1)
          (⟨st.g, st.came, rest⟩ : AState)).frontier.length ≤ rest.length + 4 ∧
      (∀ i, Function.update closed e.1 true i = true ↔ i ∈ insert e.1 T) := by
  obtain ⟨ha, hb, hc, hd, he0, hf, hfr, hcm, hns⟩ := hinv
  have hT : e.1 ∉ T := fun hx => by
    rw [(hclosed e.1).mpr hx] at hncl
    exact Bool.noConfusion hncl
  have hemem : e ∈ st.frontier := popMin_mem hpop
  have hecell : InCell w h e.1 := (ha e hemem).2.2
  have hefin : e.2 < ⊤ := (ha e hemem).2.1
  have hgefin : st.g e.1 < ⊤ := costv_fin_of_add_le (ha e hemem).1 hefin
  have hmin : ∀ x ∈ st.frontier, e.2 ≤ x.2 := popMin_min hpop
  have hfei : st.g e.1 + ((manh w gx gy e.1 : ℚ) : CostV) = e.2 := by
    have hup := (ha e hemem).1
    have hdn : e.2 ≤ st.g e.1 + ((manh w gx gy e.1 : ℚ) : CostV) :=
      hmin _ (hfr e.1 hgefin hT)
    exact le_antisymm hup hdn
  have hcl1 : ∀ i, Function.update closed e.1 true i = true ↔ i ∈ insert e.1 T := by
    intro i
    by_cases hieq : i = e.1
    · subst hieq
      rw [Function.update_same]
      simp [Finset.mem_insert]
    · rw [Function.update_noteq hieq]
      rw [hclosed i]
      constructor
      · intro hiT
        exact Finset.mem_insert_of_mem hiT
      · intro hins
        rcases Finset.mem_insert.mp hins with hcon | hiT
        · exact absurd hcon hieq
        · exact hiT
  obtain ⟨h1, h2, h3, h4, h5, h6, h7, h8, h9, h10⟩ :=
    astFold_rel costs w h gx gy (Function.update closed e.1 true) e.1 hecell hunit dirs4
      (fun d hd => hd) ⟨st.g, st.came, rest⟩
  have hrest : ∀ x ∈ rest, x ∈ st.frontier := popMin_rest_mem hpop
  have hfreeze : ∀ v, v ∈ insert e.1 T →
      ((dirs4.map (fun d => (d, (1 : ℚ)))).foldl
        (astarRelax costs w h gx gy false 1 (Function.update closed e.1 true) e.1)
        (⟨st.g, st.came, rest⟩ : AState)).g v = st.g v := by
    intro v hv
    by_contra hchg
    obtain ⟨-, hclf, -, -, -, -⟩ := h8 v hchg
    rw [(hcl1 v).mpr hv] at hclf
    exact Bool.noConfusion hclf
  refine ⟨⟨?_, ?_, ?_, ?_, ?_, ?_, ?_, ?_, ?_⟩, by simpa using h6, hcl1⟩
  · intro x hx
    rcases h4 x hx with hold | hnew
    · have hq := ha x (hrest x hold)
      exact ⟨le_trans (add_le_add_right (h1 x.1) _) hq.1, hq.2.1, hq.2.2⟩
    · exact ⟨hnew.1, hnew.2.2.1, hnew.2.2.2.1⟩
  · intro v hv u hadj hpass
    have hune : u ≠ e.1 ∨ True := Or.inr trivial
    rcases Finset.mem_insert.mp hv with rfl | hvT
    · obtain ⟨d, hdm, hnb, hueq⟩ := hadj
      by_cases hclu : Function.update closed e.1 true (toIdx w (cellX w e.1 + d.1)
          (cellY w e.1 + d.2)) = false
      · have hcap := h7 d hdm hnb (hueq ▸ hpass) hclu
        rw [← hueq] at hcap
        exact hcap
      · have hclu2 : Function.update closed e.1 true u = true := by
          rw [hueq]
          exact Bool.not_eq_false _ |>.mp (hueq ▸ hclu)
        have huT : u ∈ insert e.1 T := (hcl1 u).mp hclu2
        have hune : u ≠ e.1 := by
          rw [hueq]
          exact relaxTarget_ne hdm hnb
        have huT2 : u ∈ T := by
          rcases Finset.mem_insert.mp huT with hcon | hres
          · exact absurd hcon hune
          · exact hres
        have hu1 : cost0 costs u = 1 := by
          rcases hunit u (inCell_lt_size (adjStep_inCell ⟨d, hdm, hnb, hueq⟩)) with hle | h1c
          · exact absurd hpass (not_lt.mpr hle)
          · exact h1c
        have hdu : st.g u + ((manh w gx gy u : ℚ) : CostV) ≤ e.2 := hd u huT2 e hemem
        have hmc : manh w gx gy e.1 ≤ manh w gx gy u + 1 :=
          manh_consistent ⟨d, hdm, hnb, hueq⟩
        have hchain : st.g u + ((manh w gx gy u : ℚ) : CostV) ≤
            (st.g e.1 + ((1 : ℚ) : CostV)) + ((manh w gx gy u : ℚ) : CostV) := by
          calc st.g u + ((manh w gx gy u : ℚ) : CostV) ≤ e.2 := hdu
            _ = st.g e.1 + ((manh w gx gy e.1 : ℚ) : CostV) := hfei.symm
            _ ≤ st.g e.1 + ((manh w gx gy u + 1 : ℚ) : CostV) :=
              add_le_add_left (WithTop.coe_le_coe.mpr hmc) _
            _ = (st.g e.1 + ((1 : ℚ) : CostV)) + ((manh w gx gy u : ℚ) : CostV) := by
              rw [WithTop.coe_add, add_comm ((manh w gx gy u : ℚ) : CostV) _, ← add_assoc]
        have hres : st.g u ≤ st.g e.1 + ((1 : ℚ) : CostV) := costv_cancel_right hchain
        rw [hfreeze u (Finset.mem_insert_of_mem huT2),
          hfreeze e.1 (Finset.mem_insert_self _ _), hu1]
        exact hres
    · rw [hfreeze v (Finset.mem_insert_of_mem hvT)]
      calc ((dirs4.map (fun d => (d, (1 : ℚ)))).foldl
            (astarRelax costs w h gx gy false 1 (Function.update closed e.1 true) e.1)
            (⟨st.g, st.came, rest⟩ : AState)).g u ≤ st.g u := h1 u
        _ ≤ st.g v + ((cost0 costs u : ℚ) : CostV) := hb v hvT u hadj hpass
  · intro x hx
    rcases Finset.mem_insert.mp hx with rfl | hxT
    · exact Finset.mem_range.mpr (inCell_lt_size hecell)
    · exact hc hxT
  · intro v hv x hx
    have hvval : ((dirs4.map (fun d => (d, (1 : ℚ)))).foldl
        (astarRelax costs w h gx gy false 1 (Function.update closed e.1 true) e.1)
        (⟨st.g, st.came, rest⟩ : AState)).g v + ((manh w gx gy v : ℚ) : CostV) ≤ e.2 := by
      rw [hfreeze v hv]
      rcases Finset.mem_insert.mp hv with rfl | hvT
      · exact le_of_eq hfei
      · exact hd v hvT e hemem
    rcases h4 x hx with hold | hnew
    · exact le_trans hvval (hmin x (hrest x hold))
    · refine le_trans hvval ?_
      rw [← hfei]
      exact hnew.2.1
  · by_cases hch : ((dirs4.map (fun d => (d, (1 : ℚ)))).foldl
        (astarRelax costs w h gx gy false 1 (Function.update closed e.1 true) e.1)
        (⟨st.g, st.came, rest⟩ : AState)).g start = st.g start
    · rw [hch]
      exact he0
    · exfalso
      obtain ⟨-, -, hcpos, hceq, hclt, -⟩ := h8 start hch
      rw [he0] at hclt
      have hnn2 : (0 : CostV) ≤ st.g e.1 + ((cost0 costs start : ℚ) : CostV) :=
        add_nonneg (hf e.1)
          (by rw [← WithTop.coe_zero]
              exact WithTop.coe_le_coe.mpr (le_of_lt hcpos))
      exact absurd (lt_of_le_of_lt hnn2 hclt) (lt_irrefl 0)
  · intro i
    by_cases hch : ((dirs4.map (fun d => (d, (1 : ℚ)))).foldl
        (astarRelax costs w h gx gy false 1 (Function.update closed e.1 true) e.1)
        (⟨st.g, st.came, rest⟩ : AState)).g i = st.g i
    · rw [hch]
      exact hf i
    · obtain ⟨-, -, hcpos, hceq, -, -⟩ := h8 i hch
      rw [hceq]
      exact add_nonneg (hf e.1)
        (by rw [← WithTop.coe_zero]
            exact WithTop.coe_le_coe.mpr (le_of_lt hcpos))
  · intro v hfin hvT
    have hvne : v ≠ e.1 := fun hEq => hvT (hEq ▸ Finset.mem_insert_self e.1 T)
    have hvnT : v ∉ T := fun hx => hvT (Finset.mem_insert_of_mem hx)
    rcases h5 v with hval | hfreshv
    · rw [hval] at hfin ⊢
      have hqm := hfr v hfin hvnT
      have hneq : (v, st.g v + ((manh w gx gy v : ℚ) : CostV)) ≠ e := by
        intro hEq
        exact hvne (congrArg Prod.fst hEq)
      exact h3 _ (popMin_mem_rest_of_ne hpop hqm hneq)
    · exact hfreshv.1
  · intro i j hj
    rcases h10 i j hj with hold | hnew
    · obtain ⟨hjT, hadj, hpass, hex, hfin⟩ := hcm i j hold
      have hjne : j ≠ e.1 := fun hEq => hT (hEq ▸ hjT)
      have hiun : ((dirs4.map (fun d => (d, (1 : ℚ)))).foldl
          (astarRelax costs w h gx gy false 1 (Function.update closed e.1 true) e.1)
          (⟨st.g, st.came, rest⟩ : AState)).g i = st.g i := by
        by_contra hch
        obtain ⟨hcame2, -, -, -, -, -⟩ := h8 i hch
        rw [hcame2] at hj
        exact hjne (Option.some.inj hj.symm)
      refine ⟨Finset.mem_insert_of_mem hjT, hadj, hpass, ?_, ?_⟩
      · rw [hiun, hfreeze j (Finset.mem_insert_of_mem hjT)]
        exact hex
      · rw [hiun]
        exact hfin
    · obtain ⟨rfl, hadj, hpass, hex, hfin⟩ := hnew
      exact ⟨Finset.mem_insert_self _ _, hadj, hpass, hex, hfin⟩
  · intro i hnone hfin
    have hiun : ((dirs4.map (fun d => (d, (1 : ℚ)))).foldl
        (astarRelax costs w h gx gy false 1 (Function.update closed e.1 true) e.1)
        (⟨st.g, st.came, rest⟩ : AState)).g i = st.g i := by
      by_contra hch
      obtain ⟨hcame2, -, -, -, -, -⟩ := h8 i hch
      rw [hcame2] at hnone
      exact Option.noConfusion hnone
    rw [h9 i hiun] at hnone
    rw [hiun] at hfin
    exact hns i hnone hfin

theorem astarLoop_opt (costs : List ℚ) (w h gx gy : Int) (start goalIdx : Nat)
    (hunit : ∀ i, i < sizeN w h → cost0 costs i ≤ 0 ∨ cost0 costs i = 1)
    (hstart : InCell w h start) (hps : passable costs start)
    (hmz : manh w gx gy goalIdx = 0) :
    ∀ (fuel : Nat) (st : AState) (closed : Nat → Bool) (T : Finset Nat),
      GInv costs w h (manh w gx gy) start T st →
      (∀ i, closed i = true ↔ i ∈ T) →
      goalIdx ∉ T →
      mapPhi (sizeN w h) T st.frontier < fuel →
      (∃ p, ValidPath costs w h start goalIdx p) →
      ValidPath costs w h start goalIdx
          (astarLoop costs w h gx gy false 1 start goalIdx fuel st closed) ∧
        ∀ p, ValidPath costs w h start goalIdx p →
          pathCost costs (astarLoop costs w h gx gy false 1 start goalIdx fuel st closed) ≤
            pathCost costs p := by
  have hconsM : ∀ a b, adjStep w h dirs4 a b →
      manh w gx gy a ≤ manh w gx gy b + 1 := fun a b hab => manh_consistent hab
  intro fuel
  induction fuel with
  | zero =>
    intro st closed T hinv hclosed hgT hphi hex
    exact absurd hphi (Nat.not_lt_zero _)
  | succ fuel ih =>
    intro st closed T hinv hclosed hgT hphi hex
    simp only [astarLoop]
    cases hpop : popMin st.frontier with
    | none =>
      exfalso
      have hnil : st.frontier = [] := popMin_none.mp hpop
      obtain ⟨p, hvp⟩ := hex
      obtain ⟨ha, hb, hc, hd, he0, hf, hfr, hcm, hns⟩ := hinv
      rcases settled_cut hb hunit hconsM p start goalIdx hvp with hcase | ⟨u, huT, hub⟩
      · rw [he0, zero_add] at hcase
        have hfin : st.g goalIdx < ⊤ := lt_of_le_of_lt hcase (WithTop.coe_lt_top _)
        have hent := hfr goalIdx hfin hgT
        rw [hnil] at hent
        exact absurd hent (List.not_mem_nil _)
      · rw [he0, zero_add] at hub
        have hufin : st.g u < ⊤ := by
          have hself : st.g u ≤ st.g u + ((manh w gx gy u : ℚ) : CostV) :=
            le_add_of_nonneg_right
              (by rw [← WithTop.coe_zero]
                  exact WithTop.coe_le_coe.mpr (manh_nonneg w gx gy u))
          refine lt_of_le_of_lt (le_trans hself hub) ?_
          exact costv_add_coe_fin (WithTop.coe_ne_top)
        have hent := hfr u hufin huT
        rw [hnil] at hent
        exact absurd hent (List.not_mem_nil _)
    | some pr =>
      obtain ⟨e, rest⟩ := pr
      dsimp only
      have hlenq : st.frontier.length = rest.length + 1 := popMin_length hpop
      by_cases hgoal : e.1 = goalIdx
      · rw [if_pos hgoal]
        obtain ⟨ha, hb, hc, hd, he0, hf, hfr, hcm, hns⟩ := hinv
        have hgfin : st.g goalIdx < ⊤ := by
          rw [← hgoal]
          exact costv_fin_of_add_le (ha e (popMin_mem hpop)).1 (ha e (popMin_mem hpop)).2.1
        have hcame2 : ∀ i j, st.came i = some j → adjStep w h dirs4 j i ∧
            passable costs i ∧ st.g i = st.g j + ((cost0 costs i : ℚ) : CostV) ∧
            st.g i < ⊤ ∧ j < sizeN w h ∧ i < sizeN w h := by
          intro i j hj
          obtain ⟨hjT, hadj, hpassi, hex2, hfin2⟩ := hcm i j hj
          exact ⟨hadj, hpassi, hex2, hfin2,
            Finset.mem_range.mp (hc hjT), inCell_lt_size (adjStep_inCell hadj)⟩
        obtain ⟨hvalid, hcost⟩ :=
          reconstruct_exact hcame2 hns he0 hps hf goalIdx hgfin
        refine ⟨hvalid, ?_⟩
        intro p hvp
        have hze : manh w gx gy e.1 = 0 := by
          rw [hgoal]
          exact hmz
        have hbound := popGoal_bound ⟨ha, hb, hc, hd, he0, hf, hfr, hcm, hns⟩ hunit
          hconsM (manh_nonneg w gx gy) hpop hze goalIdx p hmz hgT hvp
        rw [hgoal] at hbound
        rw [← hcost] at hbound
        have hpc := pathCost_unit hunit hstart hvp
        rw [← hpc] at hbound
        exact WithTop.coe_le_coe.mp hbound
      · rw [if_neg hgoal]
        by_cases hcl : closed e.1 = true
        · rw [if_pos hcl]
          have heT : e.1 ∈ T := (hclosed e.1).mp hcl
          refine ih ⟨st.g, st.came, rest⟩ closed T (GInv_pop hpop hinv ?_) hclosed hgT ?_ hex
          · intro v hfin hvT hEq
            have hv1 : v = e.1 := congrArg Prod.fst hEq
            rw [hv1] at hvT
            exact hvT heT
          · simp only [mapPhi] at hphi ⊢
            omega
        · rw [if_neg hcl]
          have hncl : closed e.1 = false := Bool.not_eq_true _ |>.mp hcl
          rw [dirTable_false]
          obtain ⟨hinv2, hlen2, hcl2⟩ := GInv_astSettle hpop hinv hunit hclosed hncl
          have hgT2 : goalIdx ∉ insert e.1 T := by
            intro hmem
            rcases Finset.mem_insert.mp hmem with hcon | hres
            · exact hgoal hcon.symm
            · exact hgT hres
          refine ih _ _ (insert e.1 T) hinv2 hcl2 hgT2 ?_ hex
          have heT : e.1 ∉ T := fun hx => by
            rw [(hclosed e.1).mpr hx] at hncl
            exact Bool.noConfusion hncl
          have hemem : e.1 ∈ Finset.range (sizeN w h) \ T :=
            Finset.mem_sdiff.mpr
              ⟨Finset.mem_range.mpr (inCell_lt_size (hinv.1 e (popMin_mem hpop)).2.2),
                heT⟩
          have hcard : (Finset.range (sizeN w h) \ insert e.1 T).card + 1 =
              (Finset.range (sizeN w h) \ T).card := by
            rw [Finset.sdiff_insert]
            exact Finset.card_erase_add_one hemem
          simp only [mapPhi] at hphi ⊢
          omega

theorem GInv_init_dij (costs : List ℚ) (w h : Int) (si : Nat) (hsi : InCell w h si)
    (hps : passable costs si) :
    GInv costs w h (fun _ => 0) si ∅
      ⟨Function.update (fun _ => (⊤ : CostV)) si (some 0), fun _ => none,
        [(si, some 0)]⟩ := by
  have hgsi : Function.update (fun _ => (⊤ : CostV)) si (some 0) si = (0 : CostV) := by
    rw [Function.update_same]
    rfl
  refine ⟨?_, ?_, Finset.empty_subset _, ?_, hgsi, ?_, ?_, ?_, ?_⟩
  · intro e he
    rcases List.mem_singleton.mp he with rfl
    refine ⟨?_, WithTop.coe_lt_top 0, hsi⟩
    dsimp only
    rw [hgsi, WithTop.coe_zero, add_zero]
    exact le_refl _
  · intro v hv
    exact absurd hv (Finset.not_mem_empty v)
  · intro v hv
    exact absurd hv (Finset.not_mem_empty v)
  · intro i
    dsimp only
    by_cases hieq : i = si
    · rw [hieq, hgsi]
    · rw [Function.update_noteq hieq]
      exact le_top
  · intro v hfin hvT
    dsimp only at hfin ⊢
    have hveq : v = si := by
      by_contra hvs
      rw [Function.update_noteq hvs] at hfin
      exact absurd hfin (lt_irrefl ⊤)
    subst hveq
    have hval : Function.update (fun _ => (⊤ : CostV)) v (some 0) v +
        (((0 : ℚ)) : CostV) = some 0 := by
      rw [hgsi, WithTop.coe_zero, add_zero]
      rfl
    rw [List.mem_singleton]
    exact Prod.ext rfl hval
  · intro i j hj
    exact Option.noConfusion hj
  · intro i hnone hfin
    dsimp only at hfin
    by_contra hieq
    rw [Function.update_noteq hieq] at hfin
    exact absurd hfin (lt_irrefl ⊤)

theorem GInv_init_ast (costs : List ℚ) (w h sx sy gx gy : Int) (hs : ¬oob w h sx sy)
    (hps : passable costs (toIdx w sx sy)) :
    GInv costs w h (manh w gx gy) (toIdx w sx sy) ∅
      ⟨Function.update (fun _ => (⊤ : CostV)) (toIdx w sx sy) (some 0), fun _ => none,
        [(toIdx w sx sy, ((heuristic sx sy gx gy false * 1 : ℚ) : CostV))]⟩ := by
  have hgsi : Function.update (fun _ => (⊤ : CostV)) (toIdx w sx sy) (some 0)
      (toIdx w sx sy) = (0 : CostV) := by
    rw [Function.update_same]
    rfl
  have hval : Function.update (fun _ => (⊤ : CostV)) (toIdx w sx sy) (some 0)
        (toIdx w sx sy) + ((manh w gx gy (toIdx w sx sy) : ℚ) : CostV) =
      ((heuristic sx sy gx gy false * 1 : ℚ) : CostV) := by
    rw [hgsi, zero_add]
    unfold manh
    rw [cellX_toIdx w h sx sy hs, cellY_toIdx w h sx sy hs, mul_one]
  refine ⟨?_, ?_, Finset.empty_subset _, ?_, hgsi, ?_, ?_, ?_, ?_⟩
  · intro e he
    rcases List.mem_singleton.mp he with rfl
    exact ⟨le_of_eq hval, WithTop.coe_lt_top _, toIdx_inCell hs⟩
  · intro v hv
    exact absurd hv (Finset.not_mem_empty v)
  · intro v hv
    exact absurd hv (Finset.not_mem_empty v)
  · intro i
    dsimp only
    by_cases hieq : i = toIdx w sx sy
    · rw [hieq, hgsi]
    · rw [Function.update_noteq hieq]
      exact le_top
  · intro v hfin hvT
    dsimp only at hfin ⊢
    have hveq : v = toIdx w sx sy := by
      by_contra hvs
      rw [Function.update_noteq hvs] at hfin
      exact absurd hfin (lt_irrefl ⊤)
    subst hveq
    rw [List.mem_singleton]
    exact Prod.ext rfl hval
  · intro i j hj
    exact Option.noConfusion hj
  · intro i hnone hfin
    dsimp only at hfin
    by_contra hieq
    rw [Function.update_noteq hieq] at hfin
    exact absurd hfin (lt_irrefl ⊤)

theorem searchFuel_phi (w h : Int) : 5 * sizeN w h + 1 < searchFuel w h := by
  have h18 : 18 * sizeN w h ≤ 9 * sizeN w h * (sizeN w h + 2) := by
    calc 18 * sizeN w h = 9 * sizeN w h * 2 := by ring
    _ ≤ 9 * sizeN w h * (sizeN w h + 2) := Nat.mul_le_mul_left _ (by omega)
  have h1 : 5 * sizeN w h + 1 < 18 * sizeN w h + 2 := by omega
  show 5 * sizeN w h + 1 < 9 * sizeN w h * (sizeN w h + 2) + 2
  exact lt_of_lt_of_le h1 (Nat.add_le_add_right h18 2)

theorem head_mem_of_validPath {costs : List ℚ} {w h : Int} {s t : Nat} {p : List Nat}
    (hvp : ValidPath costs w h s t p) : s ∈ p := by
  cases p with
  | nil => exact absurd hvp.1 (by simp)
  | cons a p2 =>
    have has : a = s := by simpa using hvp.1
    rw [← has]
    exact List.mem_cons_self _ _

theorem last_mem_of_validPath {costs : List ℚ} {w h : Int} {s t : Nat} {p : List Nat}
    (hvp : ValidPath costs w h s t p) : t ∈ p := by
  have hl := hvp.2.1
  obtain ⟨hne, hax⟩ := List.mem_getLast?_eq_getLast (Option.mem_def.mpr hl)
  rw [hax]
  exact List.getLast_mem hne

/-- C2: with every passable cell of the grid costing exactly `1`,
4-connectivity and heuristic weight `1`, whenever any 4-connected walk over
passable cells joins the start to the goal, `astar_grid_weighted` and
`dijkstra_grid` (on that single goal) both return paths and the total cost
of the A* path equals the total cost of the Dijkstra path (both are
shortest). -/
theorem claim_C2 (costs : List ℚ) (w h sx sy gx gy : Int)
    (hunit : ∀ i, i < sizeN w h → cost0 costs i ≤ 0 ∨ cost0 costs i = 1)
    (hs : ¬oob w h sx sy) (hg : ¬oob w h gx gy)
    (hex : ∃ p, ValidPath costs w h (toIdx w sx sy) (toIdx w gx gy) p) :
    astar_grid_weighted costs w h sx sy gx gy false 1 ≠ [] ∧
      dijkstra_grid costs w h sx sy [(gx, gy)] ≠ [] ∧
      pathCost costs (astar_grid_weighted costs w h sx sy gx gy false 1) =
        pathCost costs (dijkstra_grid costs w h sx sy [(gx, gy)]) := by
  obtain ⟨p0, hvp0⟩ := hex
  have hpss : passable costs (toIdx w sx sy) :=
    hvp0.2.2.2 _ (head_mem_of_validPath hvp0)
  have hpsg : passable costs (toIdx w gx gy) :=
    hvp0.2.2.2 _ (last_mem_of_validPath hvp0)
  have hcostguard : ¬(cost0 costs (toIdx w sx sy) ≤ 0 ∨
      cost0 costs (toIdx w gx gy) ≤ 0) := by
    push_neg
    exact ⟨hpss, hpsg⟩
  have hgoalIdxs : goalIdxs w h [(gx, gy)] = [toIdx w gx gy] := by
    simp [goalIdxs, if_neg hg]
  have hsInCell : InCell w h (toIdx w sx sy) := toIdx_inCell hs
  have hphi : ∀ q : List (Nat × CostV), q.length = 1 →
      mapPhi (sizeN w h) ∅ q < searchFuel w h := by
    intro q hq
    simp only [mapPhi, Finset.sdiff_empty, Finset.card_range, hq]
    exact searchFuel_phi w h
  have hAopt := astarLoop_opt costs w h gx gy (toIdx w sx sy) (toIdx w gx gy) hunit
    hsInCell hpss (manh_goal_zero hg) (searchFuel w h)
    ⟨Function.update (fun _ => (⊤ : CostV)) (toIdx w sx sy) (some 0), fun _ => none,
      [(toIdx w sx sy, ((heuristic sx sy gx gy false * 1 : ℚ) : CostV))]⟩
    (fun _ => false) ∅
    (GInv_init_ast costs w h sx sy gx gy hs hpss)
    (fun i => by simp)
    (Finset.not_mem_empty _)
    (hphi _ rfl)
    ⟨p0, hvp0⟩
  have hDopt := dijkstraLoop_opt costs w h [toIdx w gx gy] (toIdx w sx sy) hunit
    hsInCell hpss (searchFuel w h)
    ⟨Function.update (fun _ => (⊤ : CostV)) (toIdx w sx sy) (some 0), fun _ => none,
      [(toIdx w sx sy, some 0)]⟩
    ∅
    (GInv_init_dij costs w h (toIdx w sx sy) hsInCell hpss)
    (fun x _ => Finset.not_mem_empty x)
    (hphi _ rfl)
    ⟨toIdx w gx gy, p0, List.mem_singleton_self _, hvp0⟩
  obtain ⟨t, htmem, hDvalid, hDmin⟩ := hDopt
  have htgi : t = toIdx w gx gy := List.mem_singleton.mp htmem
  subst htgi
  obtain ⟨hAvalid, hAmin⟩ := hAopt
  have hAeq : astar_grid_weighted costs w h sx sy gx gy false 1 =
      astarLoop costs w h gx gy false 1 (toIdx w sx sy) (toIdx w gx gy) (searchFuel w h)
        ⟨Function.update (fun _ => (⊤ : CostV)) (toIdx w sx sy) (some 0), fun _ => none,
          [(toIdx w sx sy, ((heuristic sx sy gx gy false * 1 : ℚ) : CostV))]⟩
        (fun _ => false) := by
    simp only [astar_grid_weighted]
    rw [if_neg hs, if_neg hg, if_neg hcostguard]
  have hpss2 : ¬cost0 costs (toIdx w sx sy) ≤ 0 := not_le.mpr hpss
  have hDeq : dijkstra_grid costs w h sx sy [(gx, gy)] =
      dijkstraLoop costs w h [toIdx w gx gy] (toIdx w sx sy) (searchFuel w h)
        ⟨Function.update (fun _ => (⊤ : CostV)) (toIdx w sx sy) (some 0), fun _ => none,
          [(toIdx w sx sy, some 0)]⟩ := by
    simp only [dijkstra_grid]
    rw [if_neg hs, if_neg hpss2, hgoalIdxs, if_neg (by simp)]
  rw [hAeq, hDeq]
  refine ⟨?_, ?_, ?_⟩
  · intro hnil
    have hh := hAvalid.1
    rw [hnil] at hh
    exact Option.noConfusion hh
  · intro hnil
    have hh := hDvalid.1
    rw [hnil] at hh
    exact Option.noConfusion hh
  · exact le_antisymm (hAmin _ hDvalid)
      (hDmin (toIdx w gx gy) (List.mem_singleton_self _) _ hAvalid)

/-- Witness for C2 at concrete inputs: the free 2×2 unit grid, start `(0,0)`,
goal `(1,1)`, connected by the explicit walk `[0, 2, 3]`. -/
theorem claim_C2_witness :
    astar_grid_weighted [1, 1, 1, 1] 2 2 0 0 1 1 false 1 ≠ [] ∧
      dijkstra_grid [1, 1, 1, 1] 2 2 0 0 [(1, 1)] ≠ [] ∧
      pathCost [1, 1, 1, 1] (astar_grid_weighted [1, 1, 1, 1] 2 2 0 0 1 1 false 1) =
        pathCost [1, 1, 1, 1] (dijkstra_grid [1, 1, 1, 1] 2 2 0 0 [(1, 1)]) :=
  claim_C2 [1, 1, 1, 1] 2 2 0 0 1 1
    (by intro i hi; have hi4 : i < 4 := hi; interval_cases i <;> with_unfolding_all decide)
    (by decide) (by decide)
    ⟨[0, 2, 3], rfl, rfl,
      List.chain'_cons.mpr
        ⟨⟨(0, 1), by decide, by decide, by decide⟩,
          List.chain'_cons.mpr
            ⟨⟨(1, 0), by decide, by decide, by decide⟩, List.chain'_singleton 3⟩⟩,
      by intro x hx; fin_cases hx <;> with_unfolding_all decide⟩

end PathOps
